import Mathlib

/-!
The string queue of `queue.c` over a circular doubly-linked list.

A shallow embedding of `queue.c`.  Addresses are natural numbers and `0` is `NULL`.
An element is identified with the address of its embedded `list_head`
(`container_of` is the identity on addresses), so the heap maps a node address to its
`next` and `prev` links and to the bytes of the string buffer its element owns.
Loops carry a fuel argument and return `none` when it runs out.
-/

namespace Queue

/-! ## Memory -/

/-- The part of memory the queue code reads and writes: the two links of every node,
the string buffer owned by every element, and a log of what has been handed to `free`. -/
structure Heap where
  next : Nat → Nat
  prev : Nat → Nat
  value : Nat → List Nat
  freedElem : List Nat
  freedVal : List Nat

/-- The two pointer fields of a `struct list_head`. -/
inductive Field where
  | next
  | prev
  deriving DecidableEq, Repr

/-- Read the field `f` of node `n`. -/
def load (h : Heap) (n : Nat) (f : Field) : Nat :=
  match f with
  | Field.next => h.next n
  | Field.prev => h.prev n

/-- Write `v` to the field `f` of node `n`. -/
def store (h : Heap) (n : Nat) (f : Field) (v : Nat) : Heap :=
  match f with
  | Field.next => { h with next := fun x => if x = n then v else h.next x }
  | Field.prev => { h with prev := fun x => if x = n then v else h.prev x }

/-- The assignment `n->next = v`. -/
def setNext (h : Heap) (n v : Nat) : Heap := store h n Field.next v

/-- The assignment `n->prev = v`. -/
def setPrev (h : Heap) (n v : Nat) : Heap := store h n Field.prev v

/-! ## Strings -/

/-- The C string held in a buffer: the bytes before the first NUL. -/
def cstr (buf : List Nat) : List Nat := buf.takeWhile (fun b => b != 0)

/-- The library function `strlen`. -/
def strlen (buf : List Nat) : Nat := (cstr buf).length

/-- Byte-wise lexicographic comparison of two strings; only the sign of the result of
`strcmp` is specified by C, so the result is `-1`, `0` or `1`. -/
def lexcmp : List Nat → List Nat → Int
  | [], [] => 0
  | [], _ :: _ => -1
  | _ :: _, [] => 1
  | a :: as, b :: bs => if a < b then -1 else if b < a then 1 else lexcmp as bs

/-- The library function `strcmp` on two NUL-terminated buffers. -/
def strcmp (a b : List Nat) : Int := lexcmp (cstr a) (cstr b)

/-! ## The list primitives of `list.h` -/

/-- Modelled from the spec: `INIT_LIST_HEAD` of the ring-list substrate (`list.h`, not part of
the sources at hand): the sentinel is linked to itself. -/
def INIT_LIST_HEAD (h : Heap) (head : Nat) : Heap :=
  setPrev (setNext h head head) head head

/-- Modelled from the spec: `list_empty` of the ring-list substrate (`list.h`): the queue is
empty iff the sentinel's `next` is the sentinel. -/
def list_empty (h : Heap) (head : Nat) : Bool := h.next head == head

/-- Modelled from the spec: `list_is_singular` of the ring-list substrate (`list.h`): not empty
and the first node is the last node. -/
def list_is_singular (h : Heap) (head : Nat) : Bool :=
  !list_empty h head && h.prev head == h.next head

/-- Modelled from the spec: `list_add` of the ring-list substrate (`list.h`): O(1) insertion
of `node` right after the sentinel. -/
def list_add (h : Heap) (node head : Nat) : Heap :=
  let next := h.next head
  let h1 := setPrev h next node
  let h2 := setNext h1 node next
  let h3 := setPrev h2 node head
  setNext h3 head node

/-- Modelled from the spec: `list_add_tail` of the ring-list substrate (`list.h`): O(1)
insertion of `node` right before the sentinel. -/
def list_add_tail (h : Heap) (node head : Nat) : Heap :=
  let prev := h.prev head
  let h1 := setNext h prev node
  let h2 := setNext h1 node head
  let h3 := setPrev h2 node prev
  setPrev h3 head node

/-- Modelled from the spec: `list_del` of the ring-list substrate (`list.h`): O(1) unlinking
of `node`; the links of `node` itself are left as they were. -/
def list_del (h : Heap) (node : Nat) : Heap :=
  let next := h.next node
  let prev := h.prev node
  let h1 := setPrev h next prev
  setNext h1 prev next

/-- The function `q_release_element`: the string, then the element, are freed. -/
def q_release_element (h : Heap) (e : Nat) : Heap :=
  { h with freedVal := e :: h.freedVal, freedElem := e :: h.freedElem }

/-! ## Well-formed queues -/

/-- Following `nxt` from `a` visits exactly the nodes `ns`, in order, and then arrives at `b`. -/
def Chain (nxt : Nat → Nat) : Nat → List Nat → Nat → Prop
  | a, [], b => nxt a = b
  | a, n :: ns, b => nxt a = n ∧ Chain nxt n ns b

instance Chain.decide (nxt : Nat → Nat) : (a : Nat) → (ns : List Nat) → (b : Nat) →
    Decidable (Chain nxt a ns b)
  | a, [], b => inferInstanceAs (Decidable (nxt a = b))
  | a, n :: ns, b =>
    have := Chain.decide nxt n ns b
    inferInstanceAs (Decidable (nxt a = n ∧ Chain nxt n ns b))

/-- A well-formed queue with sentinel `head` whose forward traversal is `ns`: the nodes are
distinct, none is `NULL` or the sentinel, `next` leads from the sentinel through `ns` back to
the sentinel, and `prev` leads through the same nodes in the opposite order. -/
def Ring (h : Heap) (head : Nat) (ns : List Nat) : Prop :=
  head ≠ 0 ∧ 0 ∉ ns ∧ head ∉ ns ∧ ns.Nodup ∧
    Chain h.next head ns head ∧ Chain h.prev head ns.reverse head

instance Ring.decide (h : Heap) (head : Nat) (ns : List Nat) : Decidable (Ring h head ns) :=
  inferInstanceAs (Decidable (head ≠ 0 ∧ 0 ∉ ns ∧ head ∉ ns ∧ ns.Nodup ∧
    Chain h.next head ns head ∧ Chain h.prev head ns.reverse head))

/-- The strings of the elements at the nodes `ns`. -/
def strings (h : Heap) (ns : List Nat) : List (List Nat) := ns.map (fun n => cstr (h.value n))

/-- A heap holding a queue with sentinel `1` and the nodes `2`, `3`, `4` carrying the strings
`"c"`, `"a"`, `"b"` (NUL-terminated), used to exercise the theorems on a concrete input. -/
def sampleHeap : Heap where
  next := fun x => match x with
    | 1 => 2 | 2 => 3 | 3 => 4 | 4 => 1 | _ => 0
  prev := fun x => match x with
    | 1 => 4 | 2 => 1 | 3 => 2 | 4 => 3 | _ => 0
  value := fun x => match x with
    | 2 => [99, 0] | 3 => [97, 0] | 4 => [98, 0] | _ => []
  freedElem := []
  freedVal := []

/-! ## `q_reverse` -/

/-- The function `swap_two_node`: the contents of two pointer cells are exchanged. -/
def swap_two_node (h : Heap) (p1 p2 : Nat × Field) : Heap :=
  let temp := load h p1.1 p1.2
  let h1 := store h p1.1 p1.2 (load h p2.1 p2.2)
  store h1 p2.1 p2.2 temp

/-- The `list_for_each` loop of `q_reverse`, entered with the cursor at `temp`. -/
def q_reverse_loop : Nat → Heap → Nat → Nat → Option Heap
  | 0, _, _, _ => none
  | fuel + 1, h, head, temp =>
    if temp = head then some h
    else
      let h1 := swap_two_node h (temp, Field.next) (temp, Field.prev)
      q_reverse_loop fuel h1 head (h1.next temp)

/-- The function `q_reverse`. -/
def q_reverse (fuel : Nat) (h : Heap) (head : Nat) : Option Heap :=
  if head = 0 ∨ list_empty h head ∨ list_is_singular h head then some h
  else
    let h1 := swap_two_node h (head, Field.next) (head, Field.prev)
    q_reverse_loop fuel h1 head (h1.next head)

/-- The heap `h` with `next` and `prev` exchanged on every node of `S`. -/
def swapLinksOn (S : List Nat) (h : Heap) : Heap :=
  { h with next := fun x => if x ∈ S then h.prev x else h.next x,
           prev := fun x => if x ∈ S then h.next x else h.prev x }


/-! ## `q_swap` -/

/-- One pass through the body of the loop of `q_swap`: the six link assignments. -/
def q_swap_body (h : Heap) (temp1 temp2 temp3 : Nat) : Heap :=
  let h1 := setNext h temp1 (h.next temp2)
  let h2 := setPrev h1 temp1 temp2
  let h3 := setNext h2 temp2 temp1
  let h4 := setPrev h3 temp2 temp3
  let h5 := setNext h4 temp3 temp2
  setPrev h5 (h5.next temp1) temp1

/-- The `while (1)` loop of `q_swap`. -/
def q_swap_loop : Nat → Heap → Nat → Nat → Nat → Nat → Option Heap
  | 0, _, _, _, _, _ => none
  | fuel + 1, h, head, temp1, temp2, temp3 =>
    let h6 := q_swap_body h temp1 temp2 temp3
    if h6.next temp1 ≠ head ∧ h6.next (h6.next temp1) ≠ head then
      q_swap_loop fuel h6 head (h6.next temp1) (h6.next (h6.next temp1)) temp1
    else some h6

/-- The function `q_swap`. -/
def q_swap (fuel : Nat) (h : Heap) (head : Nat) : Option Heap :=
  if head = 0 ∨ list_empty h head ∨ list_is_singular h head then some h
  else q_swap_loop fuel h head (h.next head) (h.next (h.next head)) head

/-- The list with each adjacent pair exchanged: `[x1, x2, x3, x4, ...]` becomes
`[x2, x1, x4, x3, ...]`, and the last element of a list of odd length stays. -/
def swapPairs {α : Type} : List α → List α
  | a :: b :: rest => b :: a :: swapPairs rest
  | l => l

/-! ## `q_delete_mid` -/

/-- The loop of `q_delete_mid`: the two cursors walk towards each other until they meet or
are adjacent; the result is the final value of `temp1`. -/
def q_delete_mid_loop : Nat → Heap → Nat → Nat → Option Nat
  | 0, _, _, _ => none
  | fuel + 1, h, temp1, temp2 =>
    if temp1 ≠ temp2 ∧ h.next temp1 ≠ temp2 then
      q_delete_mid_loop fuel h (h.next temp1) (h.prev temp2)
    else some temp1

/-- The function `q_delete_mid`; the `NULL` it returns for a `NULL` queue is `false` as a
`bool`. -/
def q_delete_mid (fuel : Nat) (h : Heap) (head : Nat) : Option (Heap × Bool) :=
  if head = 0 then some (h, false)
  else
    match q_delete_mid_loop fuel h (h.next head) (h.prev head) with
    | none => none
    | some temp1 => some (q_release_element (list_del h temp1) temp1, true)

/-- A heap holding a queue with sentinel `1` and the two nodes `2` and `3` carrying the strings
`"a"` and `"b"`. -/
def sampleHeap2 : Heap where
  next := fun x => match x with
    | 1 => 2 | 2 => 3 | 3 => 1 | _ => 0
  prev := fun x => match x with
    | 1 => 3 | 2 => 1 | 3 => 2 | _ => 0
  value := fun x => match x with
    | 2 => [97, 0] | 3 => [98, 0] | _ => []
  freedElem := []
  freedVal := []

/-! ## `q_delete_dup` -/

/-- The inner loop of `q_delete_dup`: the nodes after `temphead` that carry the same string are
unlinked and released one by one; the result carries the final value of `flag`. -/
def q_delete_dup_inner : Nat → Heap → Nat → Nat → Nat → Bool → Option (Heap × Bool)
  | 0, _, _, _, _, _ => none
  | fuel + 1, h, head, temphead, temp, flag =>
    if temp ≠ head then
      if strcmp (h.value temp) (h.value temphead) = 0 then
        let h1 := list_del h temp
        let temp' := h1.next temp
        q_delete_dup_inner fuel (q_release_element h1 temp) head temphead temp' true
      else some (h, flag)
    else some (h, flag)

/-- The outer loop of `q_delete_dup`. -/
def q_delete_dup_outer : Nat → Heap → Nat → Nat → Option Heap
  | 0, _, _, _ => none
  | fuel + 1, h, head, temphead =>
    if temphead ≠ head then
      match q_delete_dup_inner (fuel + 1) h head temphead (h.next temphead) false with
      | none => none
      | some (h1, flag) =>
        let temphead' := h1.next temphead
        let h2 :=
          if flag then q_release_element (list_del h1 (h1.prev temphead')) temphead else h1
        q_delete_dup_outer fuel h2 head temphead'
    else some h

/-- The function `q_delete_dup`; the `NULL` it returns for a `NULL` queue is `false` as a
`bool`. -/
def q_delete_dup (fuel : Nat) (h : Heap) (head : Nat) : Option (Heap × Bool) :=
  if head = 0 then some (h, false)
  else
    match q_delete_dup_outer fuel h head (h.next head) with
    | none => none
    | some h' => some (h', true)

/-- The effect of `q_delete_dup` on the traversal, with `x` the node the current run of
equal strings started at and `flag` telling whether a second member of the run was seen:
a run of two or more adjacent nodes that compare equal is dropped whole. -/
def dropRunsFrom (same : Nat → Nat → Bool) : Nat → Bool → List Nat → List Nat
  | x, flag, [] => if flag then [] else [x]
  | x, flag, y :: rest =>
    if same y x then dropRunsFrom same x true rest
    else (if flag then [] else [x]) ++ dropRunsFrom same y false rest

/-- The traversal with every run of two or more adjacent equal nodes dropped. -/
def dropRuns (same : Nat → Nat → Bool) : List Nat → List Nat
  | [] => []
  | x :: rest => dropRunsFrom same x false rest

/-- Whether the strings of the nodes `x` and `y` are equal according to `strcmp`. -/
def sameString (h : Heap) (x y : Nat) : Bool := decide (strcmp (h.value x) (h.value y) = 0)

/-- The traversal `ns` is in ascending order: all adjacent pairs `x`, `y` satisfy
`strcmp(x, y) <= 0`. -/
def Ascending (h : Heap) : List Nat → Prop
  | [] => True
  | [_] => True
  | x :: y :: rest => strcmp (h.value x) (h.value y) ≤ 0 ∧ Ascending h (y :: rest)

instance Ascending.decide (h : Heap) : (ns : List Nat) → Decidable (Ascending h ns)
  | [] => isTrue trivial
  | [_] => isTrue trivial
  | x :: y :: rest =>
    have := Ascending.decide h (y :: rest)
    inferInstanceAs (Decidable (strcmp (h.value x) (h.value y) ≤ 0 ∧ Ascending h (y :: rest)))

/-- A heap holding a sorted queue with sentinel `1` and the nodes `2`, `3`, `4`, `5` carrying
the strings `"a"`, `"a"`, `"b"`, `"c"`. -/
def sampleHeapSorted : Heap where
  next := fun x => match x with
    | 1 => 2 | 2 => 3 | 3 => 4 | 4 => 5 | 5 => 1 | _ => 0
  prev := fun x => match x with
    | 1 => 5 | 2 => 1 | 3 => 2 | 4 => 3 | 5 => 4 | _ => 0
  value := fun x => match x with
    | 2 => [97, 0] | 3 => [97, 0] | 4 => [98, 0] | 5 => [99, 0] | _ => []
  freedElem := []
  freedVal := []

/-! ## `q_sort` -/

/-- What the pointer `indirect` of `merge` points at: the local variable `head`, or the `next`
field of a node. -/
inductive Indirect where
  | headVar
  | nextOf (n : Nat)
  deriving DecidableEq, Repr

/-- The assignment `*indirect = v`; the state is the heap together with the local `head`. -/
def writeInd (h : Heap) (headVar : Nat) (ind : Indirect) (v : Nat) : Heap × Nat :=
  match ind with
  | Indirect.headVar => (h, v)
  | Indirect.nextOf p => (setNext h p v, headVar)

/-- The value `*indirect`. -/
def readInd (h : Heap) (headVar : Nat) (ind : Indirect) : Nat :=
  match ind with
  | Indirect.headVar => headVar
  | Indirect.nextOf p => h.next p

/-- The loop of `merge` followed by the final splice `*indirect = l | r`; the result is the heap
and the value of the local `head`. -/
def merge_loop : Nat → Heap → Nat → Indirect → Nat → Nat → Option (Heap × Nat)
  | 0, _, _, _, _, _ => none
  | fuel + 1, h, headVar, ind, l, r =>
    if l ≠ 0 ∧ r ≠ 0 then
      if strcmp (h.value l) (h.value r) < 0 then
        let s := writeInd h headVar ind l
        merge_loop fuel s.1 s.2 (Indirect.nextOf (readInd s.1 s.2 ind)) (s.1.next l) r
      else
        let s := writeInd h headVar ind r
        merge_loop fuel s.1 s.2 (Indirect.nextOf (readInd s.1 s.2 ind)) l (s.1.next r)
    else some (writeInd h headVar ind (l ||| r))

/-- The function `merge`: the local `head` starts as `NULL` and `indirect` points at it. -/
def merge (fuel : Nat) (h : Heap) (l r : Nat) : Option (Heap × Nat) :=
  merge_loop fuel h 0 Indirect.headVar l r

/-- The two-speed loop of `mergesort`; the result is the final value of `tortoise`. -/
def mergesort_split : Nat → Heap → Nat → Nat → Nat → Option Nat
  | 0, _, _, _, _ => none
  | fuel + 1, h, r, tortoise, hare =>
    if h.next hare ≠ 0 ∧ h.next (h.next hare) ≠ 0 ∧ h.next hare ≠ r ∧
        h.next (h.next hare) ≠ r then
      mergesort_split fuel h r (h.next tortoise) (h.next (h.next hare))
    else some tortoise

/-- The function `mergesort` on the chain that runs from `l` to `r`; the result is the heap and
the first node of the sorted, `NULL`-terminated chain. -/
def mergesort : Nat → Heap → Nat → Nat → Option (Heap × Nat)
  | 0, _, _, _ => none
  | fuel + 1, h, l, r =>
    if l = r then some (setNext h l 0, l)
    else if h.next l = r then
      if strcmp (h.value l) (h.value r) > 0 then some (setNext (setNext h l 0) r l, r)
      else some (setNext h r 0, l)
    else
      match mergesort_split (fuel + 1) h r l l with
      | none => none
      | some tortoise =>
        let temp := h.next tortoise
        match mergesort fuel h l tortoise with
        | none => none
        | some (h1, list1) =>
          match mergesort fuel h1 temp r with
          | none => none
          | some (h2, list2) => merge (fuel + 1) h2 list1 list2

/-- The loop of `q_sort` that walks the sorted chain and sets every `prev`; the result is the
heap and the last node reached. -/
def q_sort_relink : Nat → Heap → Nat → Option (Heap × Nat)
  | 0, _, _ => none
  | fuel + 1, h, node =>
    if h.next node ≠ 0 then q_sort_relink fuel (setPrev h (h.next node) node) (h.next node)
    else some (h, node)

/-- The function `q_sort`. -/
def q_sort (fuel : Nat) (h : Heap) (head : Nat) : Option Heap :=
  if head = 0 ∨ list_empty h head ∨ list_is_singular h head then some h
  else
    let h1 := setNext h (h.prev head) 0
    match mergesort fuel h1 (h1.next head) (h1.prev head) with
    | none => none
    | some (h2, first) =>
      let h3 := setNext h2 head first
      match q_sort_relink fuel h3 head with
      | none => none
      | some (h4, node) => some (setPrev (setNext h4 node head) head node)

/-- The pointer `p` leads to the `NULL`-terminated chain of the nodes `ns`. -/
def NullList (nxt : Nat → Nat) : Nat → List Nat → Prop
  | p, [] => p = 0
  | p, n :: ns => p = n ∧ NullList nxt (nxt n) ns

/-- Each node of the list is linked by `nxt` to the one after it. -/
def Path (nxt : Nat → Nat) : List Nat → Prop
  | [] => True
  | [_] => True
  | a :: b :: rest => nxt a = b ∧ Path nxt (b :: rest)

/-- The list `merge` builds from two chains: the head of the left chain is taken when it is
strictly less than the head of the right chain, and the head of the right chain otherwise. -/
def mergeL (lt : Nat → Nat → Bool) : List Nat → List Nat → List Nat
  | [], rs => rs
  | a :: ls, [] => a :: ls
  | a :: ls, b :: rs =>
    if lt a b then a :: mergeL lt ls (b :: rs) else b :: mergeL lt (a :: ls) rs
termination_by ls rs => ls.length + rs.length

/-- Whether the string of the node `x` is strictly less than the string of the node `y`. -/
def ltString (h : Heap) (x y : Nat) : Bool := decide (strcmp (h.value x) (h.value y) < 0)

/-! ## `q_size` -/

/-- The `list_for_each` loop of `q_size`, entered with the cursor at `li` and the count `len`. -/
def q_size_loop : Nat → Heap → Nat → Nat → Nat → Option Nat
  | 0, _, _, _, _ => none
  | fuel + 1, h, head, li, len =>
    if li ≠ head then q_size_loop fuel h head (h.next li) (len + 1) else some len

/-- The function `q_size`. -/
def q_size (fuel : Nat) (h : Heap) (head : Nat) : Option Nat :=
  if head = 0 then some 0 else q_size_loop fuel h head (h.next head) 0

/-! ## `q_new`, `q_insert_head`, `q_insert_tail`, `q_remove_head`, `q_remove_tail`

The results of `malloc` are inputs of the model: `0` (or `none`) stands for a failed
allocation.  A buffer is the list of the bytes stored from its first byte onwards. -/

/-- The function `q_new`; `q` is the result of `malloc`. -/
def q_new (h : Heap) (q : Nat) : Heap × Nat :=
  if q ≠ 0 then (INIT_LIST_HEAD h q, q) else (h, 0)

/-- The library function `strncpy(dst, src, n)`: the first `n` bytes of `dst` become the
bytes of the string `src`, padded with NUL when the string is shorter than `n`. -/
def strncpy (dst src : List Nat) (n : Nat) : List Nat :=
  (cstr src ++ List.replicate n 0).take n ++ dst.drop n

/-- The function `q_insert_head`; `e` is the result of the first `malloc` and `buf` the block
returned by the second, whose bytes are arbitrary. -/
def q_insert_head (h : Heap) (head : Nat) (s : List Nat) (e : Nat) (buf : Option (List Nat)) :
    Heap × Bool :=
  if head = 0 then (h, false)
  else if e = 0 then (h, false)
  else
    match buf with
    | none => ({ h with freedElem := e :: h.freedElem }, false)
    | some b =>
      let h1 : Heap :=
        { h with value := fun x => if x = e then strncpy b s (strlen s) else h.value x }
      let h2 := list_add h1 e head
      ({ h2 with value := fun x => if x = e then (h2.value e).set (strlen s) 0 else h2.value x },
        true)

/-- The function `q_insert_tail`; `e` and `buf` are as for `q_insert_head`. -/
def q_insert_tail (h : Heap) (head : Nat) (s : List Nat) (e : Nat) (buf : Option (List Nat)) :
    Heap × Bool :=
  if head = 0 then (h, false)
  else if e = 0 then (h, false)
  else
    match buf with
    | none => ({ h with freedElem := e :: h.freedElem }, false)
    | some b =>
      let h1 : Heap :=
        { h with value := fun x => if x = e then strncpy b s (strlen s) else h.value x }
      let h2 := list_add_tail h1 e head
      ({ h2 with value := fun x => if x = e then (h2.value e).set (strlen s) 0 else h2.value x },
        true)

/-- The macro `min(a, b)`, which is `((a) < (b)) ? (a) : (b)`. -/
def cmin (a b : Nat) : Nat := if a < b then a else b

/-- Conversion of a `size_t` value to `int` (32 bits, two's complement). -/
def toInt32 (n : Nat) : Int :=
  if n % 2 ^ 32 < 2 ^ 31 then (n % 2 ^ 32 : Nat) else (n % 2 ^ 32 : Nat) - 2 ^ 32

/-- Conversion of an `int` to `size_t` (64 bits). -/
def toSizeT (i : Int) : Nat := (i % 2 ^ 64).toNat

/-- The steps of `q_remove_head` and `q_remove_tail` that fill the caller's buffer from the
string `v` of the removed element: `L = min(strlen(v), bufsize - 1)` computed in `size_t` and
stored in an `int`, `strncpy(sp, v, L)`, then `sp[L] = 0`.  A write at a negative index falls
before the buffer and leaves the bytes from `sp` onwards alone. -/
def copyOut (sp v : List Nat) (bufsize : Nat) : List Nat :=
  let L : Int := toInt32 (cmin (strlen v) ((bufsize + 2 ^ 64 - 1) % 2 ^ 64))
  let sp1 := strncpy sp v (toSizeT L)
  if 0 ≤ L then sp1.set L.toNat 0 else sp1

/-- The function `q_remove_head`: the heap, the buffer and the returned element (`0` is
`NULL`). -/
def q_remove_head (h : Heap) (head : Nat) (sp : Option (List Nat)) (bufsize : Nat) :
    Heap × Option (List Nat) × Nat :=
  match sp with
  | none => (h, none, 0)
  | some buf =>
    if head ≠ 0 ∧ list_empty h head = false then
      let e := h.next head
      (list_del h e, some (copyOut buf (h.value e) bufsize), e)
    else (h, some buf, 0)

/-- The function `q_remove_tail`: the heap, the buffer and the returned element (`0` is
`NULL`). -/
def q_remove_tail (h : Heap) (head : Nat) (sp : Option (List Nat)) (bufsize : Nat) :
    Heap × Option (List Nat) × Nat :=
  match sp with
  | none => (h, none, 0)
  | some buf =>
    if head ≠ 0 ∧ list_empty h head = false then
      let e := h.prev head
      (list_del h e, some (copyOut buf (h.value e) bufsize), e)
    else (h, some buf, 0)

/-! ## The queue as a double-ended list -/

/-- A call of one of the four operations at the two ends of the queue, with the inputs the
model needs: the string and the results of the two `malloc` calls for an insertion, the
caller's buffer and its size for a removal. -/
inductive Op where
  | insertHead (s : List Nat) (e : Nat) (buf : List Nat)
  | insertTail (s : List Nat) (e : Nat) (buf : List Nat)
  | removeHead (sp : List Nat) (bufsize : Nat)
  | removeTail (sp : List Nat) (bufsize : Nat)

/-- What a call reports: the flag returned by an insertion, or the string of the element
returned by a removal (`none` when the removal returned `NULL`). -/
inductive Event where
  | inserted (ok : Bool)
  | removed (str : Option (List Nat))
  deriving DecidableEq, Repr

/-- One call on the queue with sentinel `head`. -/
def stepQueue (h : Heap) (head : Nat) : Op → Heap × Event
  | Op.insertHead s e buf =>
    let r := q_insert_head h head s e (some buf)
    (r.1, Event.inserted r.2)
  | Op.insertTail s e buf =>
    let r := q_insert_tail h head s e (some buf)
    (r.1, Event.inserted r.2)
  | Op.removeHead sp bufsize =>
    let r := q_remove_head h head (some sp) bufsize
    (r.1, Event.removed (if r.2.2 = 0 then none else some (cstr (r.1.value r.2.2))))
  | Op.removeTail sp bufsize =>
    let r := q_remove_tail h head (some sp) bufsize
    (r.1, Event.removed (if r.2.2 = 0 then none else some (cstr (r.1.value r.2.2))))

/-- A sequence of calls on the queue with sentinel `head`, with what each call reported. -/
def runQueue (h : Heap) (head : Nat) : List Op → Heap × List Event
  | [] => (h, [])
  | op :: ops =>
    let r := stepQueue h head op
    let rest := runQueue r.1 head ops
    (rest.1, r.2 :: rest.2)

/-- The double-ended list the queue is specified against: an insertion at the head puts the
string in front, an insertion at the tail puts it at the end, a removal takes the first or the
last string and reports it. -/
def dequeStep (xs : List (List Nat)) : Op → List (List Nat) × Event
  | Op.insertHead s _ _ => (cstr s :: xs, Event.inserted true)
  | Op.insertTail s _ _ => (xs ++ [cstr s], Event.inserted true)
  | Op.removeHead _ _ => (xs.tail, Event.removed xs.head?)
  | Op.removeTail _ _ => (xs.dropLast, Event.removed xs.getLast?)

/-- A sequence of calls on the double-ended list. -/
def dequeRun (xs : List (List Nat)) : List Op → List (List Nat) × List Event
  | [] => (xs, [])
  | op :: ops =>
    let r := dequeStep xs op
    let rest := dequeRun r.1 ops
    (rest.1, r.2 :: rest.2)

/-- The nodes of the queue after a call, given the nodes before it. -/
def nodesAfter (ns : List Nat) : Op → List Nat
  | Op.insertHead _ e _ => e :: ns
  | Op.insertTail _ e _ => ns ++ [e]
  | Op.removeHead _ _ => ns.tail
  | Op.removeTail _ _ => ns.dropLast

/-- Both allocations of every insertion of the sequence succeed and return fresh memory: the
element is not `NULL`, not the sentinel and not a node of the queue, and the block for the
string has `strlen(s) + 1` bytes. -/
def Allocated (head : Nat) : List Nat → List Op → Prop
  | _, [] => True
  | ns, op :: ops =>
    (match op with
      | Op.insertHead s e buf => e ≠ 0 ∧ e ≠ head ∧ e ∉ ns ∧ buf.length = strlen s + 1
      | Op.insertTail s e buf => e ≠ 0 ∧ e ≠ head ∧ e ∉ ns ∧ buf.length = strlen s + 1
      | _ => True) ∧
    Allocated head (nodesAfter ns op) ops

/-- The number of insertions that returned `true`. -/
def countInserted : List Event → Nat
  | [] => 0
  | Event.inserted true :: es => countInserted es + 1
  | _ :: es => countInserted es

/-- The number of removals that returned an element. -/
def countRemoved : List Event → Nat
  | [] => 0
  | Event.removed (some _) :: es => countRemoved es + 1
  | _ :: es => countRemoved es

/-- A heap in which nothing is linked and nothing has been freed. -/
def emptyHeap : Heap where
  next := fun _ => 0
  prev := fun _ => 0
  value := fun _ => []
  freedElem := []
  freedVal := []

/-- The heap read in the opposite direction: `next` and `prev` exchanged on every node. -/
def mirror (h : Heap) : Heap := { h with next := h.prev, prev := h.next }

instance Allocated.decide (head : Nat) : (ns : List Nat) → (ops : List Op) →
    Decidable (Allocated head ns ops)
  | _, [] => isTrue trivial
  | ns, Op.insertHead s e buf :: ops =>
    have := Allocated.decide head (e :: ns) ops
    inferInstanceAs (Decidable ((e ≠ 0 ∧ e ≠ head ∧ e ∉ ns ∧ buf.length = strlen s + 1) ∧
      Allocated head (e :: ns) ops))
  | ns, Op.insertTail s e buf :: ops =>
    have := Allocated.decide head (ns ++ [e]) ops
    inferInstanceAs (Decidable ((e ≠ 0 ∧ e ≠ head ∧ e ∉ ns ∧ buf.length = strlen s + 1) ∧
      Allocated head (ns ++ [e]) ops))
  | ns, Op.removeHead _ _ :: ops =>
    have := Allocated.decide head ns.tail ops
    inferInstanceAs (Decidable (True ∧ Allocated head ns.tail ops))
  | ns, Op.removeTail _ _ :: ops =>
    have := Allocated.decide head ns.dropLast ops
    inferInstanceAs (Decidable (True ∧ Allocated head ns.dropLast ops))

/-- A sequence of calls used to exercise the theorems on a concrete input: `"a"` is inserted at
the tail, `"b"` at the head, the tail is removed, `"cd"` is inserted at the tail and the head is
removed. -/
def sampleOps : List Op :=
  [Op.insertTail [97, 0] 2 [0, 0], Op.insertHead [98, 0] 3 [7, 7],
    Op.removeTail [0, 0, 0, 0] 4, Op.insertTail [99, 100, 0] 4 [1, 2, 3],
    Op.removeHead [0, 0] 2]

/-- A heap holding a queue with sentinel `1` and the single node `2` carrying the string
`"a"`, made by `q_new` and one `q_insert_tail`. -/
def sampleHeap1 : Heap := (q_insert_tail (q_new emptyHeap 1).1 1 [97, 0] 2 (some [0, 0])).1

/-- A heap holding two `NULL`-terminated chains of one node each, `2` and `3`, both carrying
the string `"a"`. -/
def sampleChains : Heap where
  next := fun _ => 0
  prev := fun _ => 0
  value := fun x => match x with
    | 2 => [97, 0] | 3 => [97, 0] | _ => []
  freedElem := []
  freedVal := []

instance NullList.decide (nxt : Nat → Nat) : (p : Nat) → (ns : List Nat) →
    Decidable (NullList nxt p ns)
  | p, [] => inferInstanceAs (Decidable (p = 0))
  | p, n :: ns =>
    have := NullList.decide nxt (nxt n) ns
    inferInstanceAs (Decidable (p = n ∧ NullList nxt (nxt n) ns))

instance Path.decide (nxt : Nat → Nat) : (ns : List Nat) → Decidable (Path nxt ns)
  | [] => isTrue trivial
  | [_] => isTrue trivial
  | a :: b :: rest =>
    have := Path.decide nxt (b :: rest)
    inferInstanceAs (Decidable (nxt a = b ∧ Path nxt (b :: rest)))

/-- The queue of `sampleHeap` cut after its last node, as `q_sort` does before it calls
`mergesort`: the `NULL`-terminated chain `2, 3, 4`. -/
def sampleChain3 : Heap := setNext sampleHeap 4 0

/-- A heap holding a queue with sentinel `1` and the six nodes `2` to `7` carrying the strings
`"1"` to `"6"`, in the order of insertion at the tail. -/
def sampleHeap6 : Heap where
  next := fun x => match x with
    | 1 => 2 | 2 => 3 | 3 => 4 | 4 => 5 | 5 => 6 | 6 => 7 | 7 => 1 | _ => 0
  prev := fun x => match x with
    | 1 => 7 | 2 => 1 | 3 => 2 | 4 => 3 | 5 => 4 | 6 => 5 | 7 => 6 | _ => 0
  value := fun x => match x with
    | 2 => [49, 0] | 3 => [50, 0] | 4 => [51, 0] | 5 => [52, 0] | 6 => [53, 0]
    | 7 => [54, 0] | _ => []
  freedElem := []
  freedVal := []

/-- The elements of a traversal whose string differs from the string of both neighbours; `p`
is the node before the list, if there is one.  These are the elements outside every run of two
or more adjacent equal strings. -/
def keepIsolated (h : Heap) : Option Nat → List Nat → List Nat
  | _, [] => []
  | p, x :: rest =>
    (if (match p with
          | none => true
          | some q => !sameString h q x) &&
        (match rest.head? with
          | none => true
          | some y => !sameString h y x)
      then [x] else []) ++ keepIsolated h (some x) rest

/-- A heap holding an unsorted queue with sentinel `1` and the nodes `2`, `3`, `4` carrying
the strings `"a"`, `"b"`, `"a"`. -/
def sampleHeapUnsorted : Heap where
  next := fun x => match x with
    | 1 => 2 | 2 => 3 | 3 => 4 | 4 => 1 | _ => 0
  prev := fun x => match x with
    | 1 => 4 | 2 => 1 | 3 => 2 | 4 => 3 | _ => 0
  value := fun x => match x with
    | 2 => [97, 0] | 3 => [98, 0] | 4 => [97, 0] | _ => []
  freedElem := []
  freedVal := []

/-! ## Basic facts about chains and rings -/

theorem Heap.eq_of_fields {h k : Heap} (hn : ∀ x, h.next x = k.next x)
    (hp : ∀ x, h.prev x = k.prev x) (hv : h.value = k.value)
    (he : h.freedElem = k.freedElem) (hs : h.freedVal = k.freedVal) : h = k := by
  cases h; cases k
  simp only [Heap.mk.injEq]
  exact ⟨funext hn, funext hp, hv, he, hs⟩


theorem Chain.congr {f g : Nat → Nat} : ∀ (ns : List Nat) (a b : Nat),
    (∀ x, x = a ∨ x ∈ ns → f x = g x) → Chain f a ns b → Chain g a ns b
  | [], a, b, hfg, hc => by
    simp only [Chain] at hc ⊢
    rw [← hfg a (Or.inl rfl)]; exact hc
  | n :: ns, a, b, hfg, hc => by
    simp only [Chain] at hc ⊢
    refine ⟨by rw [← hfg a (Or.inl rfl)]; exact hc.1, ?_⟩
    exact Chain.congr ns n b (fun x hx => hfg x (Or.inr (by
      rcases hx with hx | hx
      · simp [hx]
      · simp [hx]))) hc.2

theorem Chain.append {f : Nat → Nat} : ∀ (l1 : List Nat) (a m : Nat) (l2 : List Nat) (b : Nat),
    Chain f a (l1 ++ m :: l2) b ↔ Chain f a l1 m ∧ Chain f m l2 b
  | [], a, m, l2, b => by simp [Chain]
  | n :: l1, a, m, l2, b => by
    simp [Chain, Chain.append l1 n m l2 b, and_assoc]

theorem Chain.first {f : Nat → Nat} {a b : Nat} : ∀ {ns : List Nat},
    Chain f a ns b → f a = ns.head?.getD b
  | [], hc => by simpa [Chain] using hc
  | n :: ns, hc => by simpa [Chain] using hc.1

theorem Ring.next_head {h : Heap} {head : Nat} {ns : List Nat} (hr : Ring h head ns) :
    h.next head = ns.head?.getD head := hr.2.2.2.2.1.first

theorem Ring.prev_head {h : Heap} {head : Nat} {ns : List Nat} (hr : Ring h head ns) :
    h.prev head = ns.getLast?.getD head := by
  have := hr.2.2.2.2.2.first
  simpa using this

theorem Ring.empty_iff {h : Heap} {head : Nat} {ns : List Nat} (hr : Ring h head ns) :
    list_empty h head = true ↔ ns = [] := by
  unfold list_empty
  rw [hr.next_head]
  cases ns with
  | nil => simp
  | cons a l =>
    have : a ≠ head := fun e => hr.2.2.1 (by simp [e])
    simp [this]

theorem Ring.singular_iff {h : Heap} {head : Nat} {ns : List Nat} (hr : Ring h head ns) :
    list_is_singular h head = true ↔ ns.length = 1 := by
  unfold list_is_singular
  have he := hr.empty_iff
  cases ns with
  | nil => simp [he.2 rfl]
  | cons a l =>
    have hne : list_empty h head = false := by
      cases hh : list_empty h head with
      | false => rfl
      | true => exact absurd (he.1 hh) (by simp)
    rw [hne, hr.next_head, hr.prev_head]
    cases l with
    | nil => simp
    | cons b l =>
      have hnd : a ∉ b :: l := (List.nodup_cons.1 hr.2.2.2.1).1
      have hl : (a :: b :: l).getLast? = some ((b :: l).getLast (by simp)) := by
        rw [List.getLast?_cons_cons, List.getLast?_eq_getLast]
      have hmem : (b :: l).getLast (by simp) ∈ b :: l := List.getLast_mem _
      have : (b :: l).getLast (by simp) ≠ a := fun e => hnd (e ▸ hmem)
      simp [hl, this]

/-! ## The order given by `strcmp` -/

theorem lexcmp_self : ∀ a : List Nat, lexcmp a a = 0
  | [] => rfl
  | a :: as => by simp [lexcmp, lexcmp_self as]

theorem lexcmp_swap : ∀ a b : List Nat, lexcmp b a = - lexcmp a b
  | [], [] => rfl
  | [], _ :: _ => rfl
  | _ :: _, [] => rfl
  | a :: as, b :: bs => by
    simp only [lexcmp]
    rcases Nat.lt_trichotomy a b with h | h | h
    · have h2 : ¬ b < a := by omega
      simp [h, h2]
    · subst h
      simp [lexcmp_swap as bs]
    · have h2 : ¬ a < b := by omega
      simp [h, h2]

theorem lexcmp_eq_zero : ∀ a b : List Nat, lexcmp a b = 0 ↔ a = b
  | [], [] => by simp [lexcmp]
  | [], _ :: _ => by simp [lexcmp]
  | _ :: _, [] => by simp [lexcmp]
  | a :: as, b :: bs => by
    simp only [lexcmp]
    rcases Nat.lt_trichotomy a b with h | h | h
    · have : a ≠ b := by omega
      simp [h, this]
    · subst h
      simp [lexcmp_eq_zero as bs]
    · have h2 : ¬ a < b := by omega
      have : a ≠ b := by omega
      simp [h, h2, this]

theorem lexcmp_le_trans : ∀ a b c : List Nat, lexcmp a b ≤ 0 → lexcmp b c ≤ 0 → lexcmp a c ≤ 0
  | [], _, [], _, _ => by simp [lexcmp]
  | [], _, _ :: _, _, _ => by simp [lexcmp]
  | _ :: _, [], _, h1, _ => by simp [lexcmp] at h1
  | _ :: _, _ :: _, [], _, h2 => by simp [lexcmp] at h2
  | a :: as, b :: bs, c :: cs, h1, h2 => by
    simp only [lexcmp] at h1 h2 ⊢
    by_cases hab : a < b
    · by_cases hbc : b < c
      · have : a < c := by omega
        simp [this]
      · by_cases hcb : c < b
        · simp [hbc, hcb] at h2
        · have : a < c := by omega
          simp [this]
    · by_cases hba : b < a
      · simp [hab, hba] at h1
      · have hab' : a = b := by omega
        subst hab'
        simp only [hab, if_false] at h1
        by_cases hbc : a < c
        · simp [hbc]
        · by_cases hcb : c < a
          · simp [hbc, hcb] at h2
          · simp only [hbc, hcb, if_false] at h2 ⊢
            exact lexcmp_le_trans as bs cs h1 h2

theorem strcmp_self (a : List Nat) : strcmp a a = 0 := lexcmp_self _

theorem strcmp_swap (a b : List Nat) : strcmp b a = - strcmp a b := lexcmp_swap _ _

theorem strcmp_eq_zero (a b : List Nat) : strcmp a b = 0 ↔ cstr a = cstr b := lexcmp_eq_zero _ _

theorem strcmp_le_trans (a b c : List Nat) (h1 : strcmp a b ≤ 0) (h2 : strcmp b c ≤ 0) :
    strcmp a c ≤ 0 := lexcmp_le_trans _ _ _ h1 h2

theorem strcmp_le_of_not_lt {a b : List Nat} (h : ¬ strcmp a b < 0) : strcmp b a ≤ 0 := by
  rw [strcmp_swap]; omega

theorem strcmp_antisymm {a b : List Nat} (h1 : strcmp a b ≤ 0) (h2 : strcmp b a ≤ 0) :
    cstr a = cstr b := by
  rw [strcmp_swap] at h2
  exact (strcmp_eq_zero a b).1 (by omega)
/-! ## `q_reverse` exchanges the links of every node of the ring -/

theorem swap_two_node_self (h : Heap) (t : Nat) :
    swap_two_node h (t, Field.next) (t, Field.prev) = swapLinksOn [t] h := by
  apply Heap.eq_of_fields
  · intro x
    by_cases hx : x = t <;> simp [swap_two_node, swapLinksOn, store, load, hx]
  · intro x
    by_cases hx : x = t <;> simp [swap_two_node, swapLinksOn, store, load, hx]
  all_goals rfl

theorem swapLinksOn_swapLinksOn (S T : List Nat) (h : Heap) (hd : ∀ x, x ∈ S → x ∉ T) :
    swapLinksOn S (swapLinksOn T h) = swapLinksOn (T ++ S) h := by
  apply Heap.eq_of_fields
  · intro x
    by_cases hs : x ∈ S
    · simp [swapLinksOn, hs, hd x hs]
    · simp [swapLinksOn, hs]
  · intro x
    by_cases hs : x ∈ S
    · simp [swapLinksOn, hs, hd x hs]
    · simp [swapLinksOn, hs]
  all_goals rfl

theorem swapLinksOn_congr {S T : List Nat} (h : Heap) (hst : ∀ x, x ∈ S ↔ x ∈ T) :
    swapLinksOn S h = swapLinksOn T h := by
  apply Heap.eq_of_fields <;> intros <;> simp [swapLinksOn, hst]

theorem swapLinksOn_involutive (S : List Nat) (h : Heap) :
    swapLinksOn S (swapLinksOn S h) = h := by
  apply Heap.eq_of_fields
  · intro x
    by_cases hs : x ∈ S <;> simp [swapLinksOn, hs]
  · intro x
    by_cases hs : x ∈ S <;> simp [swapLinksOn, hs]
  all_goals rfl

/-- The loop of `q_reverse`, started on a node `t` from which `prev` leads through `rest` to the
sentinel, exchanges the links of `t` and of every node of `rest`. -/
theorem q_reverse_loop_spec (head : Nat) : ∀ (rest : List Nat) (h : Heap) (t fuel : Nat),
    t ≠ head → head ∉ rest → (t :: rest).Nodup → Chain h.prev t rest head →
    rest.length + 2 ≤ fuel →
    q_reverse_loop fuel h head t = some (swapLinksOn (t :: rest) h)
  | [], h, t, fuel, ht, _, _, hc, hf => by
    obtain ⟨f, rfl⟩ : ∃ f, fuel = f + 2 := ⟨fuel - 2, by simp at hf; omega⟩
    simp only [Chain] at hc
    have h1 : (swap_two_node h (t, Field.next) (t, Field.prev)).next t = head := by
      simp [swap_two_node, store, load, hc]
    rw [q_reverse_loop, if_neg ht]
    simp only [h1]
    rw [q_reverse_loop, if_pos rfl, swap_two_node_self]
  | r :: rest, h, t, fuel, ht, hh, hnd, hc, hf => by
    obtain ⟨f, rfl⟩ : ∃ f, fuel = f + 1 := ⟨fuel - 1, by simp at hf; omega⟩
    simp only [Chain] at hc
    have h1 : (swap_two_node h (t, Field.next) (t, Field.prev)).next t = r := by
      simp [swap_two_node, store, load, hc.1]
    have hnd2 := List.nodup_cons.1 hnd
    have hr : r ≠ head := fun e => hh (by simp [e])
    have hh2 : head ∉ rest := fun e => hh (by simp [e])
    rw [q_reverse_loop, if_neg ht]
    simp only [h1]
    rw [swap_two_node_self]
    have hc2 : Chain (swapLinksOn [t] h).prev r rest head := by
      refine Chain.congr rest r head ?_ hc.2
      intro x hx
      have : x ≠ t := by
        rintro rfl
        rcases hx with hx | hx
        · exact hnd2.1 (by simp [hx])
        · exact hnd2.1 (by simp [hx])
      simp [swapLinksOn, this]
    rw [q_reverse_loop_spec head rest _ r f hr hh2 hnd2.2 hc2 (by simp at hf ⊢; omega)]
    rw [swapLinksOn_swapLinksOn]
    · rfl
    · intro x hx
      simp only [List.mem_singleton]
      rintro rfl
      exact hnd2.1 hx

theorem Ring.swapLinks {h : Heap} {head : Nat} {ns : List Nat} (hr : Ring h head ns) :
    Ring (swapLinksOn (head :: ns) h) head ns.reverse := by
  obtain ⟨h0, hz, hh, hnd, hn, hp⟩ := hr
  refine ⟨h0, by simpa using hz, by simpa using hh, List.nodup_reverse.2 hnd, ?_, ?_⟩
  · refine Chain.congr _ _ _ ?_ hp
    intro x hx
    have : x ∈ head :: ns := by
      rcases hx with hx | hx
      · simp [hx]
      · simp [List.mem_reverse.1 hx]
    simp only [List.mem_cons] at this
    simp [swapLinksOn, this]
  · rw [List.reverse_reverse]
    refine Chain.congr _ _ _ ?_ hn
    intro x hx
    have : x ∈ head :: ns := by
      rcases hx with hx | hx
      · simp [hx]
      · simp [hx]
    simp only [List.mem_cons] at this
    simp [swapLinksOn, this]

/-- What `q_reverse` computes on a well-formed queue: nothing for fewer than two elements,
and otherwise the exchange of `next` and `prev` on the sentinel and on every node. -/
theorem q_reverse_eq {h : Heap} {head : Nat} {ns : List Nat} (hr : Ring h head ns)
    (fuel : Nat) (hf : ns.length + 2 ≤ fuel) :
    q_reverse fuel h head = some (if ns.length < 2 then h else swapLinksOn (head :: ns) h) := by
  have he := hr.empty_iff
  have hs := hr.singular_iff
  by_cases hlen : ns.length < 2
  · have : list_empty h head = true ∨ list_is_singular h head = true := by
      rcases Nat.lt_or_ge ns.length 1 with h1 | h1
      · left; exact he.2 (List.length_eq_zero.1 (by omega))
      · right; exact hs.2 (by omega)
    simp [q_reverse, hlen, this]
  · have hne : list_empty h head = false := by
      cases hh : list_empty h head with
      | false => rfl
      | true => rw [he.1 hh] at hlen; simp at hlen
    have hns : list_is_singular h head = false := by
      cases hh : list_is_singular h head with
      | false => rfl
      | true => have := hs.1 hh; omega
    obtain ⟨h0, hz, hh, hnd, hn, hp⟩ := hr
    simp only [q_reverse, h0, hne, hns, hlen, if_false, false_or, Bool.false_eq_true]
    rw [swap_two_node_self]
    cases hrev : ns.reverse with
    | nil =>
      have : ns = [] := by simpa using hrev
      simp [this] at hlen
    | cons t rest =>
      rw [hrev] at hp
      simp only [Chain] at hp
      have hmem : ∀ x, x ∈ t :: rest ↔ x ∈ ns := by
        intro x; rw [← hrev]; exact List.mem_reverse
      have ht : t ≠ head := fun e => hh (e ▸ (hmem t).1 (by simp))
      have h1 : (swapLinksOn [head] h).next head = t := by simp [swapLinksOn, hp.1]
      rw [h1]
      have hhr : head ∉ rest := fun e => hh ((hmem head).1 (by simp [e]))
      have hndr : (t :: rest).Nodup := by rw [← hrev]; exact List.nodup_reverse.2 hnd
      have hc : Chain (swapLinksOn [head] h).prev t rest head := by
        refine Chain.congr rest t head ?_ hp.2
        intro x hx
        have : x ≠ head := by
          rintro rfl
          rcases hx with hx | hx
          · exact ht hx.symm
          · exact hhr hx
        simp [swapLinksOn, this]
      have hlen2 : rest.length + 2 ≤ fuel := by
        have : ns.length = rest.length + 1 := by
          rw [← List.length_reverse, hrev]; simp
        omega
      rw [q_reverse_loop_spec head rest _ t fuel ht hhr hndr hc hlen2]
      rw [swapLinksOn_swapLinksOn]
      · congr 1
        apply swapLinksOn_congr
        intro x
        simp only [List.singleton_append, List.mem_cons]
        rw [← hmem x]; simp
      · intro x hx
        simp only [List.mem_singleton]
        rintro rfl
        exact hh ((hmem x).1 hx)

/-- On a well-formed queue `q_reverse` returns a well-formed queue with the traversal
reversed and every string as it was. -/
theorem q_reverse_ring {h : Heap} {head : Nat} {ns : List Nat} (hr : Ring h head ns)
    (fuel : Nat) (hf : ns.length + 2 ≤ fuel) :
    ∃ h', q_reverse fuel h head = some h' ∧ Ring h' head ns.reverse ∧
      h'.value = h.value ∧ strings h' ns.reverse = (strings h ns).reverse := by
  refine ⟨_, q_reverse_eq hr fuel hf, ?_, ?_, ?_⟩
  · by_cases hlen : ns.length < 2
    · rw [if_pos hlen]
      match ns, hlen with
      | [], _ => exact hr
      | [a], _ => exact hr
    · rw [if_neg hlen]; exact hr.swapLinks
  · split <;> rfl
  · have : (if ns.length < 2 then h else swapLinksOn (head :: ns) h).value = h.value := by
      split <;> rfl
    simp [strings, this]

/-- C7: on a well-formed queue with forward traversal `ns`, `q_reverse` returns (given fuel
for one pass over the ring) a well-formed queue whose forward traversal is `ns` reversed;
no string is touched, so the elements are the same ones in the opposite order. -/
theorem q_reverse_reverses (h : Heap) (head : Nat) (ns : List Nat) (fuel : Nat)
    (hr : Ring h head ns) (hf : ns.length + 2 ≤ fuel) :
    ∃ h', q_reverse fuel h head = some h' ∧ Ring h' head ns.reverse ∧
      h'.value = h.value ∧ strings h' ns.reverse = (strings h ns).reverse :=
  q_reverse_ring hr fuel hf

theorem q_reverse_reverses_witness :
    Ring sampleHeap 1 [2, 3, 4] ∧
    ∃ h', q_reverse 5 sampleHeap 1 = some h' ∧ Ring h' 1 [2, 3, 4].reverse ∧
      h'.value = sampleHeap.value ∧
      strings h' [2, 3, 4].reverse = (strings sampleHeap [2, 3, 4]).reverse :=
  ⟨by decide, q_reverse_reverses sampleHeap 1 [2, 3, 4] 5 (by decide) (by decide)⟩

/-- C8: on a well-formed queue, `q_reverse` applied twice gives back the very heap it started
from: every `next` and `prev` link, the sentinel's included, is as before. -/
theorem q_reverse_twice (h : Heap) (head : Nat) (ns : List Nat) (fuel : Nat)
    (hr : Ring h head ns) (hf : ns.length + 2 ≤ fuel) :
    ∃ h1, q_reverse fuel h head = some h1 ∧ q_reverse fuel h1 head = some h := by
  obtain ⟨h1, h1eq, hr1, -, -⟩ := q_reverse_ring hr fuel hf
  refine ⟨h1, h1eq, ?_⟩
  rw [q_reverse_eq hr1 fuel (by simpa using hf)]
  have e1 := q_reverse_eq hr fuel hf
  rw [h1eq] at e1
  have e1 := Option.some.inj e1
  by_cases hlen : ns.length < 2
  · rw [if_pos hlen] at e1
    rw [List.length_reverse, if_pos hlen, e1]
  · rw [if_neg hlen] at e1
    rw [List.length_reverse, if_neg hlen, e1]
    have : swapLinksOn (head :: ns.reverse) (swapLinksOn (head :: ns) h) =
        swapLinksOn (head :: ns) (swapLinksOn (head :: ns) h) :=
      swapLinksOn_congr _ (fun x => by simp)
    rw [this, swapLinksOn_involutive]

theorem q_reverse_twice_witness :
    Ring sampleHeap 1 [2, 3, 4] ∧
    ∃ h1, q_reverse 5 sampleHeap 1 = some h1 ∧ q_reverse 5 h1 1 = some sampleHeap :=
  ⟨by decide, q_reverse_twice sampleHeap 1 [2, 3, 4] 5 (by decide) (by decide)⟩
/-! ## `q_swap` exchanges adjacent pairs -/

theorem swapPairs_perm {α : Type} : ∀ l : List α, (swapPairs l).Perm l
  | [] => List.Perm.refl _
  | [_] => List.Perm.refl _
  | a :: b :: rest => by
    rw [swapPairs]
    exact (List.Perm.swap a b _).trans (((swapPairs_perm rest).cons b).cons a)

theorem swapPairs_length {α : Type} (l : List α) : (swapPairs l).length = l.length :=
  (swapPairs_perm l).length_eq

theorem swapPairs_getElem? {α : Type} : ∀ (l : List α) (k : Nat), 2 * k + 1 < l.length →
    (swapPairs l)[2 * k]? = l[2 * k + 1]? ∧ (swapPairs l)[2 * k + 1]? = l[2 * k]?
  | [], k, hk => by simp at hk
  | [_], k, hk => by simp at hk
  | a :: b :: rest, 0, _ => by simp [swapPairs]
  | a :: b :: rest, k + 1, hk => by
    have ih := swapPairs_getElem? rest k (by simp at hk; omega)
    have e1 : 2 * (k + 1) = (2 * k) + 1 + 1 := by ring
    have e2 : 2 * (k + 1) + 1 = (2 * k + 1) + 1 + 1 := by ring
    rw [swapPairs, e2, e1]
    simpa using ih

theorem swapPairs_getLast? {α : Type} : ∀ (l : List α), l.length % 2 = 1 →
    (swapPairs l)[l.length - 1]? = l[l.length - 1]?
  | [], h => by simp at h
  | [_], _ => by simp [swapPairs]
  | a :: b :: rest, h => by
    have hl : rest.length % 2 = 1 := by simp at h; omega
    have ih := swapPairs_getLast? rest hl
    have hpos : 0 < rest.length := by
      rcases Nat.eq_zero_or_pos rest.length with h0 | h0
      · rw [h0] at hl; simp at hl
      · exact h0
    have e : (a :: b :: rest).length - 1 = (rest.length - 1) + 1 + 1 := by simp; omega
    rw [swapPairs, e]
    simpa using ih

theorem q_swap_body_next (h : Heap) (t1 t2 t3 : Nat) (x : Nat) :
    (q_swap_body h t1 t2 t3).next x =
      if x = t3 then t2 else if x = t2 then t1 else if x = t1 then h.next t2 else h.next x := by
  simp only [q_swap_body, setNext, setPrev, store]

theorem q_swap_body_prev {h : Heap} {t1 t2 t3 : Nat} (h12 : t1 ≠ t2) (h13 : t1 ≠ t3)
    (x : Nat) :
    (q_swap_body h t1 t2 t3).prev x =
      if x = h.next t2 then t1 else if x = t2 then t3 else if x = t1 then t2 else h.prev x := by
  simp only [q_swap_body, setNext, setPrev, store]
  simp [h12, h13]

/-- The loop of `q_swap` entered with `temp1 = t1`, `temp2 = t2`, `temp3 = t3`, where `next`
leads from `t1` through `t2 :: rest` to the sentinel and the sentinel's `prev` is the last of
these nodes: the segment after `t3` is relinked, in both directions, in the order
`swapPairs (t1 :: t2 :: rest)`, and no other link is written. -/
theorem q_swap_loop_spec (head : Nat) (n : Nat) : ∀ (rest : List Nat), rest.length ≤ n →
    ∀ (h : Heap) (t1 t2 t3 fuel : Nat),
    (t3 :: t1 :: t2 :: rest).Nodup → head ∉ t1 :: t2 :: rest →
    Chain h.next t1 (t2 :: rest) head →
    (t1 :: t2 :: rest).getLast? = some (h.prev head) →
    rest.length + 1 ≤ fuel →
    ∃ h', q_swap_loop fuel h head t1 t2 t3 = some h' ∧
      Chain h'.next t3 (swapPairs (t1 :: t2 :: rest)) head ∧
      Chain h'.prev head (swapPairs (t1 :: t2 :: rest)).reverse t3 ∧
      (∀ x, x ∉ t3 :: t1 :: t2 :: rest → h'.next x = h.next x) ∧
      (∀ x, x ∉ head :: t1 :: t2 :: rest → h'.prev x = h.prev x) ∧
      h'.value = h.value ∧ h'.freedElem = h.freedElem ∧ h'.freedVal = h.freedVal := by
  induction n using Nat.strong_induction_on with
  | _ n ih =>
  intro rest hn h t1 t2 t3 fuel hnd hh hc hl hf
  obtain ⟨f, rfl⟩ : ∃ f, fuel = f + 1 := ⟨fuel - 1, by omega⟩
  have hN := q_swap_body_next h t1 t2 t3
  match rest, hn, hnd, hh, hc, hl, hf with
  | [], hn, hnd, hh, hc, hl, hf =>
    simp only [Chain] at hc
    simp only [List.nodup_cons, List.mem_cons, List.not_mem_nil, or_false, not_or,
      List.nodup_nil, and_true, not_false_eq_true] at hnd hh
    obtain ⟨⟨h31, h32⟩, h12⟩ := hnd
    obtain ⟨hc1, hc2⟩ := hc
    obtain ⟨hh1, hh2⟩ := hh
    have h13 := Ne.symm h31
    have h23 := Ne.symm h32
    have h21 := Ne.symm h12
    have h1h := Ne.symm hh1
    have h2h := Ne.symm hh2
    have hP := @q_swap_body_prev h t1 t2 t3 h12 h13
    have e1 : (q_swap_body h t1 t2 t3).next t1 = head := by simp [*]
    refine ⟨q_swap_body h t1 t2 t3, ?_, ?_, ?_, ?_, ?_, rfl, rfl, rfl⟩
    · rw [q_swap_loop]
      simp [e1]
    · simp only [swapPairs, Chain, hN]
      simp [*]
    · simp only [swapPairs, Chain, hP, List.reverse_cons, List.reverse_nil, List.nil_append,
        List.singleton_append]
      simp [*]
    · intro x hx
      simp only [List.mem_cons, List.not_mem_nil, or_false, not_or] at hx
      simp [*]
    · intro x hx
      simp only [List.mem_cons, List.not_mem_nil, or_false, not_or] at hx
      simp [*]
  | [a], hn, hnd, hh, hc, hl, hf =>
    simp only [Chain] at hc
    simp only [List.nodup_cons, List.mem_cons, List.not_mem_nil, or_false, not_or,
      List.nodup_nil, and_true, not_false_eq_true] at hnd hh
    obtain ⟨⟨h31, h32, h3a⟩, ⟨h12, h1a⟩, h2a⟩ := hnd
    obtain ⟨hc1, hc2, hc3⟩ := hc
    obtain ⟨hh1, hh2, hha⟩ := hh
    have h13 := Ne.symm h31
    have h23 := Ne.symm h32
    have ha3 := Ne.symm h3a
    have h21 := Ne.symm h12
    have ha1 := Ne.symm h1a
    have ha2 := Ne.symm h2a
    have h1h := Ne.symm hh1
    have h2h := Ne.symm hh2
    have hah := Ne.symm hha
    have hP := @q_swap_body_prev h t1 t2 t3 h12 h13
    have hl2 : h.prev head = a := by simpa using hl.symm
    have e1 : (q_swap_body h t1 t2 t3).next t1 = a := by simp [*]
    have e2 : (q_swap_body h t1 t2 t3).next a = head := by simp [*]
    refine ⟨q_swap_body h t1 t2 t3, ?_, ?_, ?_, ?_, ?_, rfl, rfl, rfl⟩
    · rw [q_swap_loop]
      simp [e1, e2]
    · simp only [swapPairs, Chain, hN]
      simp [*]
    · simp only [swapPairs, Chain, hP, List.reverse_cons, List.reverse_nil, List.nil_append,
        List.singleton_append, List.cons_append]
      simp [*]
    · intro x hx
      simp only [List.mem_cons, List.not_mem_nil, or_false, not_or] at hx
      simp [*]
    · intro x hx
      simp only [List.mem_cons, List.not_mem_nil, or_false, not_or] at hx
      simp [*]
  | a :: b :: rest, hn, hnd, hh, hc, hl, hf =>
    simp only [Chain] at hc
    simp only [List.nodup_cons, List.mem_cons, not_or] at hnd hh
    obtain ⟨⟨h31, h32, h3a, h3b, h3r⟩, ⟨h12, h1a, h1b, h1r⟩, ⟨h2a, h2b, h2r⟩, ⟨hab, har⟩,
      hbr, hrr⟩ := hnd
    obtain ⟨hh1, hh2, hha, hhb, hhr⟩ := hh
    obtain ⟨hc1, hc2, hc3, hc4⟩ := hc
    have h13 := Ne.symm h31
    have h23 := Ne.symm h32
    have ha3 := Ne.symm h3a
    have h21 := Ne.symm h12
    have ha1 := Ne.symm h1a
    have ha2 := Ne.symm h2a
    have h1h := Ne.symm hh1
    have h2h := Ne.symm hh2
    have hah := Ne.symm hha
    have hbh := Ne.symm hhb
    have hP := @q_swap_body_prev h t1 t2 t3 h12 h13
    have e1 : (q_swap_body h t1 t2 t3).next t1 = a := by simp [*]
    have e2 : (q_swap_body h t1 t2 t3).next a = b := by simp [*]
    have hout : ∀ x, x ∈ b :: rest → x ≠ t3 ∧ x ≠ t2 ∧ x ≠ t1 := by
      intro x hx
      rcases List.mem_cons.1 hx with rfl | hx
      · exact ⟨Ne.symm h3b, Ne.symm h2b, Ne.symm h1b⟩
      · refine ⟨?_, ?_, ?_⟩ <;> rintro rfl <;> contradiction
    have hc' : Chain (q_swap_body h t1 t2 t3).next a (b :: rest) head := by
      refine ⟨e2, ?_⟩
      refine Chain.congr _ _ _ ?_ hc4
      intro x hx
      have hx' : x ∈ b :: rest := by
        rcases hx with hx | hx
        · simp [hx]
        · simp [hx]
      obtain ⟨x3, x2, x1⟩ := hout x hx'
      rw [hN, if_neg x3, if_neg x2, if_neg x1]
    have hl' : (a :: b :: rest).getLast? = some ((q_swap_body h t1 t2 t3).prev head) := by
      rw [hP, hc2]
      rw [if_neg hha, if_neg hh2, if_neg hh1, ← hl]
      simp [List.getLast?_cons_cons]
    have hnd2 : (t1 :: a :: b :: rest).Nodup := by
      simp only [List.nodup_cons, List.mem_cons, not_or]
      exact ⟨⟨h1a, h1b, h1r⟩, ⟨hab, har⟩, hbr, hrr⟩
    have hh' : head ∉ a :: b :: rest := by
      simp only [List.mem_cons, not_or]; exact ⟨hha, hhb, hhr⟩
    obtain ⟨h', hrun, hcn, hcp, hfn, hfp, hv, hfe, hfv⟩ :=
      ih rest.length (by simp at hn; omega) rest (le_refl _) (q_swap_body h t1 t2 t3) a b t1 f
        hnd2 hh' hc' hl' (by simp at hf; omega)
    refine ⟨h', ?_, ?_, ?_, ?_, ?_, hv, hfe, hfv⟩
    · rw [q_swap_loop]
      simp only [e1, e2]
      rw [if_pos ⟨Ne.symm hha, Ne.symm hhb⟩]
      exact hrun
    · rw [swapPairs]
      refine ⟨?_, ?_, hcn⟩
      · rw [hfn t3 (by simp only [List.mem_cons, not_or]; exact ⟨h31, h3a, h3b, h3r⟩), hN]
        simp
      · rw [hfn t2 (by
          simp only [List.mem_cons, not_or]; exact ⟨Ne.symm h12, h2a, h2b, h2r⟩), hN]
        simp [*]
    · rw [swapPairs]
      have : (t2 :: t1 :: swapPairs (a :: b :: rest)).reverse =
          (swapPairs (a :: b :: rest)).reverse ++ t1 :: [t2] := by simp
      rw [this, Chain.append]
      refine ⟨hcp, ?_, ?_⟩
      · rw [hfp t1 (by
          simp only [List.mem_cons, not_or]; exact ⟨Ne.symm hh1, h1a, h1b, h1r⟩), hP]
        simp [*]
      · show h'.prev t2 = t3
        rw [hfp t2 (by
          simp only [List.mem_cons, not_or]; exact ⟨Ne.symm hh2, h2a, h2b, h2r⟩), hP]
        simp [*]
    · intro x hx
      simp only [List.mem_cons, not_or] at hx
      rw [hfn x (by simp only [List.mem_cons, not_or]; exact ⟨hx.2.1, hx.2.2.2⟩), hN,
        if_neg hx.1, if_neg hx.2.2.1, if_neg hx.2.1]
    · intro x hx
      simp only [List.mem_cons, not_or] at hx
      rw [hfp x (by simp only [List.mem_cons, not_or]; exact ⟨hx.1, hx.2.2.2⟩), hP, hc2,
        if_neg hx.2.2.2.1, if_neg hx.2.2.1, if_neg hx.2.1]

/-- What `q_swap` does to a well-formed queue: the ring is relinked in the order
`swapPairs ns`. -/
theorem q_swap_spec {h : Heap} {head : Nat} {ns : List Nat} (hr : Ring h head ns)
    (fuel : Nat) (hf : ns.length ≤ fuel) :
    ∃ h', q_swap fuel h head = some h' ∧ Ring h' head (swapPairs ns) ∧
      h'.value = h.value ∧ h'.freedElem = h.freedElem ∧ h'.freedVal = h.freedVal := by
  have he := hr.empty_iff
  have hs := hr.singular_iff
  match ns, hr, hf, he, hs with
  | [], hr, _, he, _ =>
    exact ⟨h, by simp [q_swap, he.2 rfl], hr, rfl, rfl, rfl⟩
  | [a], hr, _, _, hs =>
    exact ⟨h, by simp [q_swap, hs.2 rfl], hr, rfl, rfl, rfl⟩
  | t1 :: t2 :: rest, hr, hf, he, hs =>
    have hne : list_empty h head = false := by
      cases hh : list_empty h head with
      | false => rfl
      | true => exact absurd (he.1 hh) (by simp)
    have hns : list_is_singular h head = false := by
      cases hh : list_is_singular h head with
      | false => rfl
      | true => exact absurd (hs.1 hh) (by simp)
    have hprev := hr.prev_head
    obtain ⟨h0, hz, hh, hnd, hn, hp⟩ := hr
    simp only [Chain] at hn
    have hl : (t1 :: t2 :: rest).getLast? = some (h.prev head) := by
      rw [hprev]
      cases hg : (t1 :: t2 :: rest).getLast? with
      | none => simp at hg
      | some v => rfl
    obtain ⟨h', hrun, hcn, hcp, -, -, hv, hfe, hfv⟩ :=
      q_swap_loop_spec head rest.length rest (le_refl _) h t1 t2 head fuel
        (List.nodup_cons.2 ⟨hh, hnd⟩) hh hn.2 hl (by simp at hf; omega)
    refine ⟨h', ?_, ⟨h0, ?_, ?_, ?_, hcn, hcp⟩, hv, hfe, hfv⟩
    · simp only [q_swap, h0, hne, hns, if_false, false_or, Bool.false_eq_true, hn.1, hn.2.1]
      exact hrun
    · exact fun hm => hz ((swapPairs_perm _).mem_iff.1 hm)
    · exact fun hm => hh ((swapPairs_perm _).mem_iff.1 hm)
    · exact (swapPairs_perm _).nodup_iff.2 hnd

/-- C6: on a well-formed queue with forward traversal `ns` of length `n`, `q_swap` returns a
well-formed queue on the same elements whose traversal `ns'` has the elements at indices `2k`
and `2k+1` exchanged for every `k` with `2k+1 < n`, and, when `n` is odd, the last element
still at index `n-1`. -/
theorem q_swap_exchanges_pairs (h : Heap) (head : Nat) (ns : List Nat) (fuel : Nat)
    (hr : Ring h head ns) (hf : ns.length ≤ fuel) :
    ∃ h' ns', q_swap fuel h head = some h' ∧ Ring h' head ns' ∧ h'.value = h.value ∧
      ns'.length = ns.length ∧
      (∀ k, 2 * k + 1 < ns.length →
        ns'[2 * k]? = ns[2 * k + 1]? ∧ ns'[2 * k + 1]? = ns[2 * k]?) ∧
      (ns.length % 2 = 1 → ns'[ns.length - 1]? = ns[ns.length - 1]?) := by
  obtain ⟨h', hrun, hr', hv, -, -⟩ := q_swap_spec hr fuel hf
  exact ⟨h', swapPairs ns, hrun, hr', hv, swapPairs_length ns, swapPairs_getElem? ns,
    swapPairs_getLast? ns⟩

theorem q_swap_exchanges_pairs_witness :
    Ring sampleHeap 1 [2, 3, 4] ∧
    ∃ h' ns', q_swap 3 sampleHeap 1 = some h' ∧ Ring h' 1 ns' ∧ h'.value = sampleHeap.value ∧
      ns'.length = [2, 3, 4].length ∧
      (∀ k, 2 * k + 1 < [2, 3, 4].length →
        ns'[2 * k]? = [2, 3, 4][2 * k + 1]? ∧ ns'[2 * k + 1]? = [2, 3, 4][2 * k]?) ∧
      ([2, 3, 4].length % 2 = 1 → ns'[[2, 3, 4].length - 1]? = [2, 3, 4][[2, 3, 4].length - 1]?) :=
  ⟨by decide, q_swap_exchanges_pairs sampleHeap 1 [2, 3, 4] 3 (by decide) (by decide)⟩
/-! ## Unlinking a node from a well-formed queue -/

theorem getLast?_getD_mem (l : List Nat) (a : Nat) : l.getLast?.getD a = a ∨ l.getLast?.getD a ∈ l := by
  cases hl : l.getLast? with
  | none => left; rfl
  | some v => right; exact List.mem_of_getLast?_eq_some hl

theorem getLast?_getD_cons (n : Nat) (l : List Nat) (a : Nat) :
    (n :: l).getLast?.getD a = l.getLast?.getD n := by
  cases l with
  | nil => rfl
  | cons m l =>
    rw [List.getLast?_cons_cons]
    cases hl : (m :: l).getLast? with
    | none => simp at hl
    | some v => rfl

/-- Redirecting the link of the predecessor of `x` to the successor of `x` takes `x` out of a
chain. -/
theorem Chain.skip {f g : Nat → Nat} : ∀ (l1 : List Nat) (a x : Nat) (l2 : List Nat) (b : Nat),
    (a :: (l1 ++ x :: l2)).Nodup → Chain f a (l1 ++ x :: l2) b →
    (∀ y, g y = if y = l1.getLast?.getD a then f x else f y) → Chain g a (l1 ++ l2) b
  | [], a, x, l2, b, hnd, hc, hg => by
    simp only [List.nil_append, Chain] at hc ⊢
    have hga : g a = f x := by rw [hg]; simp
    have hrest : ∀ z, z ∈ l2 → g z = f z := by
      intro z hz
      have : z ≠ a := by
        rintro rfl
        exact (List.nodup_cons.1 hnd).1 (by simp [hz])
      rw [hg]; simp [this]
    cases l2 with
    | nil =>
      simp only [Chain] at hc ⊢
      rw [hga]; exact hc.2
    | cons y l2 =>
      simp only [Chain] at hc ⊢
      refine ⟨by rw [hga]; exact hc.2.1, ?_⟩
      refine Chain.congr _ _ _ ?_ hc.2.2
      intro z hz
      refine (hrest z ?_).symm
      rcases hz with hz | hz
      · simp [hz]
      · simp [hz]
  | n :: l1, a, x, l2, b, hnd, hc, hg => by
    simp only [List.cons_append, Chain] at hc ⊢
    have hnd2 := List.nodup_cons.1 hnd
    have hlast : (n :: l1).getLast?.getD a = l1.getLast?.getD n := getLast?_getD_cons n l1 a
    have hne : a ≠ l1.getLast?.getD n := by
      intro e
      apply hnd2.1
      rcases getLast?_getD_mem l1 n with h1 | h1
      · rw [← e] at h1; simp [h1]
      · rw [← e] at h1; simp [h1]
    refine ⟨?_, ?_⟩
    · rw [hg, hlast, if_neg hne]; exact hc.1
    · exact Chain.skip l1 n x l2 b hnd2.2 hc.2 (fun y => by rw [hg, hlast])

theorem Chain.prev_of_mid {f : Nat → Nat} : ∀ (l1 : List Nat) (a x : Nat) (l2 : List Nat) (b : Nat),
    Chain f a (l1 ++ x :: l2) b → f (l1.getLast?.getD a) = x
  | [], a, x, l2, b, hc => by
    simp only [List.nil_append, Chain] at hc
    simpa using hc.1
  | n :: l1, a, x, l2, b, hc => by
    simp only [List.cons_append, Chain] at hc
    rw [getLast?_getD_cons]
    exact Chain.prev_of_mid l1 n x l2 b hc.2

theorem Chain.next_of_mid {f : Nat → Nat} (l1 : List Nat) (a x : Nat) (l2 : List Nat) (b : Nat)
    (hc : Chain f a (l1 ++ x :: l2) b) : f x = l2.head?.getD b :=
  ((Chain.append l1 a x l2 b).1 hc).2.first

theorem Ring.next_mid {h : Heap} {head : Nat} {l1 l2 : List Nat} {x : Nat}
    (hr : Ring h head (l1 ++ x :: l2)) : h.next x = l2.head?.getD head :=
  Chain.next_of_mid l1 head x l2 head hr.2.2.2.2.1

theorem Ring.prev_mid {h : Heap} {head : Nat} {l1 l2 : List Nat} {x : Nat}
    (hr : Ring h head (l1 ++ x :: l2)) : h.prev x = l1.getLast?.getD head := by
  have hp := hr.2.2.2.2.2
  have e : (l1 ++ x :: l2).reverse = l2.reverse ++ x :: l1.reverse := by simp
  rw [e] at hp
  have := Chain.next_of_mid l2.reverse head x l1.reverse head hp
  simpa using this

theorem list_del_next (h : Heap) (x y : Nat) :
    (list_del h x).next y = if y = h.prev x then h.next x else h.next y := by
  simp [list_del, setNext, setPrev, store]

theorem list_del_prev (h : Heap) (x y : Nat) :
    (list_del h x).prev y = if y = h.next x then h.prev x else h.prev y := by
  simp [list_del, setNext, setPrev, store]

/-- The function `list_del` applied to a node of a well-formed queue leaves a well-formed queue
on the other nodes, in the same order. -/
theorem Ring.list_del {h : Heap} {head : Nat} {l1 l2 : List Nat} {x : Nat}
    (hr : Ring h head (l1 ++ x :: l2)) : Ring (list_del h x) head (l1 ++ l2) := by
  have hnx := hr.next_mid
  have hpx := hr.prev_mid
  obtain ⟨h0, hz, hh, hnd, hn, hp⟩ := hr
  have hsub : ∀ y, y ∈ l1 ++ l2 → y ∈ l1 ++ x :: l2 := by
    intro y hy
    rcases List.mem_append.1 hy with h1 | h1
    · simp [h1]
    · simp [h1]
  refine ⟨h0, fun hm => hz (hsub _ hm), fun hm => hh (hsub _ hm), ?_, ?_, ?_⟩
  · exact hnd.sublist (List.Sublist.append_left (List.sublist_cons_self x l2) l1)
  · refine Chain.skip l1 head x l2 head (List.nodup_cons.2 ⟨hh, hnd⟩) hn ?_
    intro y
    rw [list_del_next, hpx]
  · have e : (l1 ++ x :: l2).reverse = l2.reverse ++ x :: l1.reverse := by simp
    rw [e] at hp
    have e2 : (l1 ++ l2).reverse = l2.reverse ++ l1.reverse := by simp
    rw [e2]
    refine Chain.skip l2.reverse head x l1.reverse head ?_ hp ?_
    · rw [← e]
      exact List.nodup_cons.2 ⟨fun hm => hh (List.mem_reverse.1 hm), List.nodup_reverse.2 hnd⟩
    · intro y
      rw [list_del_prev, hnx]
      simp
/-! ## `q_delete_mid` -/

theorem getElem?_split {l : List Nat} {i x : Nat} (hx : l[i]? = some x) :
    l = l.take i ++ x :: l.drop (i + 1) ∧ (l.take i).length = i := by
  obtain ⟨hi, rfl⟩ := List.getElem?_eq_some.1 hx
  refine ⟨?_, by simp; omega⟩
  rw [← List.drop_eq_getElem_cons hi, List.take_append_drop]

theorem Ring.next_get {h : Heap} {head : Nat} {ns : List Nat} (hr : Ring h head ns)
    {i x : Nat} (hx : ns[i]? = some x) : h.next x = ns[i + 1]?.getD head := by
  obtain ⟨e, -⟩ := getElem?_split hx
  rw [e] at hr
  rw [hr.next_mid]
  simp [List.head?_drop]

theorem Ring.prev_get {h : Heap} {head : Nat} {ns : List Nat} (hr : Ring h head ns)
    {i x : Nat} (hx : ns[i + 1]? = some x) : h.prev x = ns[i]?.getD head := by
  obtain ⟨e, -⟩ := getElem?_split hx
  rw [e] at hr
  rw [hr.prev_mid]
  have hi : i + 1 ≤ ns.length := by
    obtain ⟨hi, -⟩ := List.getElem?_eq_some.1 hx
    omega
  rw [List.getLast?_take]
  have : ns[i]? = some (ns[i]) := List.getElem?_eq_getElem (by omega)
  simp [this]

theorem Ring.get_inj {h : Heap} {head : Nat} {ns : List Nat} (hr : Ring h head ns)
    {i j x : Nat} (hi : ns[i]? = some x) (hj : ns[j]? = some x) : i = j := by
  obtain ⟨hi', e1⟩ := List.getElem?_eq_some.1 hi
  obtain ⟨hj', e2⟩ := List.getElem?_eq_some.1 hj
  exact (List.Nodup.getElem_inj_iff hr.2.2.2.1).1 (e1.trans e2.symm)

/-- The two cursors of `q_delete_mid`, started at the indices `i ≤ j` of the traversal, stop
with `temp1` at the index `(i + j) / 2`. -/
theorem q_delete_mid_loop_spec {h : Heap} {head : Nat} {ns : List Nat} (hr : Ring h head ns)
    (d : Nat) : ∀ (i j x y fuel : Nat), j = i + d → ns[i]? = some x → ns[j]? = some y →
    d + 1 ≤ fuel →
    ∃ z, q_delete_mid_loop fuel h x y = some z ∧ ns[(i + j) / 2]? = some z := by
  induction d using Nat.strong_induction_on with
  | _ d ih =>
  intro i j x y fuel hj hx hy hf
  obtain ⟨f, rfl⟩ : ∃ f, fuel = f + 1 := ⟨fuel - 1, by omega⟩
  rw [q_delete_mid_loop]
  rcases Nat.lt_or_ge d 2 with hd | hd
  · rcases Nat.lt_or_ge d 1 with hd0 | hd1
    · -- the cursors coincide
      have hji : j = i := by omega
      rw [hji] at hy
      have hxy : x = y := Option.some.inj (hx.symm.trans hy)
      refine ⟨x, by simp [hxy], ?_⟩
      have : (i + j) / 2 = i := by omega
      rw [this]; exact hx
    · -- the cursors are adjacent
      have hji : j = i + 1 := by omega
      rw [hji] at hy
      have hn := hr.next_get hx
      rw [hy] at hn
      refine ⟨x, by simp [hn], ?_⟩
      have : (i + j) / 2 = i := by omega
      rw [this]; exact hx
  · obtain ⟨hjlt, -⟩ := List.getElem?_eq_some.1 hy
    have hx1 : ns[i + 1]? = some (ns[i + 1]) := List.getElem?_eq_getElem (by omega)
    have hy1 : ns[j - 1]? = some (ns[j - 1]) := List.getElem?_eq_getElem (by omega)
    have hn := hr.next_get hx
    rw [hx1] at hn
    simp only [Option.getD_some] at hn
    have hp : h.prev y = ns[j - 1] := by
      have hy' : ns[(j - 1) + 1]? = some y := by
        have : j - 1 + 1 = j := by omega
        rw [this]; exact hy
      have := hr.prev_get hy'
      rw [hy1] at this
      simpa using this
    have hne1 : x ≠ y := by
      rintro rfl
      have := hr.get_inj hx hy
      omega
    have hne2 : h.next x ≠ y := by
      intro e
      rw [hn] at e
      rw [e] at hx1
      have := hr.get_inj hx1 hy
      omega
    rw [if_pos ⟨hne1, hne2⟩, hn, hp]
    obtain ⟨z, hz, hzi⟩ := ih (d - 2) (by omega) (i + 1) (j - 1) _ _ f (by omega) hx1 hy1
      (by omega)
    refine ⟨z, hz, ?_⟩
    have : (i + 1 + (j - 1)) / 2 = (i + j) / 2 := by
      have : i + 1 + (j - 1) = i + j := by omega
      rw [this]
    rw [← this]; exact hzi

/-- What `q_delete_mid` does to a non-empty well-formed queue of size `n`: the node at index
`(n - 1) / 2` is unlinked and released, and `true` is returned. -/
theorem q_delete_mid_spec {h : Heap} {head : Nat} {ns : List Nat} (hr : Ring h head ns)
    (hne : ns ≠ []) (fuel : Nat) (hf : ns.length ≤ fuel) :
    ∃ h' x, q_delete_mid fuel h head = some (h', true) ∧
      ns[(ns.length - 1) / 2]? = some x ∧
      Ring h' head (ns.eraseIdx ((ns.length - 1) / 2)) ∧
      h'.value = h.value ∧ h'.freedElem = x :: h.freedElem ∧ h'.freedVal = x :: h.freedVal := by
  have hpos : 0 < ns.length := List.length_pos.2 hne
  have h0 : ns[0]? = some (h.next head) := by
    rw [hr.next_head]
    cases ns with
    | nil => exact absurd rfl hne
    | cons a l => simp
  have hl : ns[ns.length - 1]? = some (h.prev head) := by
    rw [hr.prev_head, List.getLast?_eq_getElem?]
    have : ns[ns.length - 1]? = some (ns[ns.length - 1]) :=
      List.getElem?_eq_getElem (by omega)
    rw [this]; rfl
  obtain ⟨z, hz, hzi⟩ := q_delete_mid_loop_spec hr (ns.length - 1) 0 (ns.length - 1) _ _ fuel
    (by omega) h0 hl (by omega)
  rw [Nat.zero_add] at hzi
  obtain ⟨e, hlen⟩ := getElem?_split hzi
  have hr2 := hr
  rw [e] at hr2
  have hr3 := hr2.list_del
  refine ⟨q_release_element (list_del h z) z, z, ?_, hzi, ?_, rfl, rfl, rfl⟩
  · simp [q_delete_mid, hr.1, hz]
  · rw [List.eraseIdx_eq_take_drop_succ]
    exact hr3

/-- C4: run on the well-formed two-element queue `[2, 3]` (strings `"a"`, `"b"`),
`q_delete_mid` returns `true` and removes the element at index `0`, leaving `[3]`; the element
at index `⌊2/2⌋ = 1`, which the claim says is the one removed, is still in the queue. -/
theorem q_delete_mid_two_elements :
    Ring sampleHeap2 1 [2, 3] ∧
    ∃ h', q_delete_mid 2 sampleHeap2 1 = some (h', true) ∧
      Ring h' 1 ([2, 3].eraseIdx 0) ∧ ¬ Ring h' 1 ([2, 3].eraseIdx ([2, 3].length / 2)) :=
  ⟨by decide, q_release_element (list_del sampleHeap2 2) 2, rfl, by decide, by decide⟩
/-! ## `q_delete_dup` -/

theorem dropRunsFrom_eq (same : Nat → Nat → Bool) (x : Nat) : ∀ (rest : List Nat) (flag : Bool),
    dropRunsFrom same x flag rest =
      (if flag || !(rest.takeWhile (fun y => same y x)).isEmpty then [] else [x]) ++
        dropRuns same (rest.dropWhile (fun y => same y x))
  | [], flag => by cases flag <;> simp [dropRunsFrom, dropRuns]
  | y :: rest, flag => by
    rw [dropRunsFrom]
    by_cases hs : same y x = true
    · rw [if_pos hs, dropRunsFrom_eq same x rest true]
      simp [List.takeWhile_cons, List.dropWhile_cons, hs]
    · rw [if_neg hs]
      simp [List.takeWhile_cons, List.dropWhile_cons, hs, dropRuns]

theorem dropRuns_cons (same : Nat → Nat → Bool) (x : Nat) (rest : List Nat) :
    dropRuns same (x :: rest) =
      (if (rest.takeWhile (fun y => same y x)).isEmpty then [x] else []) ++
        dropRuns same (rest.dropWhile (fun y => same y x)) := by
  rw [dropRuns, dropRunsFrom_eq]
  cases (rest.takeWhile (fun y => same y x)).isEmpty <;> simp

theorem list_del_value (h : Heap) (x : Nat) : (list_del h x).value = h.value := rfl

/-- The inner loop of `q_delete_dup`, entered with `temphead` at `x` and `temp` at the node
after it: the nodes after `x` that carry its string are unlinked. -/
theorem q_delete_dup_inner_spec (head x : Nat) (pre : List Nat) : ∀ (rest : List Nat)
    (h : Heap) (flag : Bool) (fuel : Nat),
    Ring h head (pre ++ x :: rest) → rest.length + 1 ≤ fuel →
    ∃ h', q_delete_dup_inner fuel h head x (rest.head?.getD head) flag =
        some (h', flag || !(rest.takeWhile (fun y => sameString h y x)).isEmpty) ∧
      Ring h' head (pre ++ x :: rest.dropWhile (fun y => sameString h y x)) ∧
      h'.value = h.value
  | [], h, flag, fuel, hr, hf => by
    obtain ⟨f, rfl⟩ : ∃ f, fuel = f + 1 := ⟨fuel - 1, by omega⟩
    exact ⟨h, by simp [q_delete_dup_inner], hr, rfl⟩
  | y :: rest, h, flag, fuel, hr, hf => by
    obtain ⟨f, rfl⟩ : ∃ f, fuel = f + 1 := ⟨fuel - 1, by omega⟩
    have hy : y ≠ head := fun e => hr.2.2.1 (by simp [e])
    simp only [List.head?_cons, Option.getD_some]
    rw [q_delete_dup_inner, if_pos hy]
    by_cases hs : strcmp (h.value y) (h.value x) = 0
    · rw [if_pos hs]
      have hr' : Ring h head ((pre ++ [x]) ++ y :: rest) := by simpa using hr
      have hny := hr'.next_mid
      have hpy := hr'.prev_mid
      have hr2 := hr'.list_del
      have hx : pre ++ [x] ++ rest = pre ++ x :: rest := by simp
      rw [hx] at hr2
      have hne : y ≠ h.prev y := by
        rw [hpy]; simp
        intro e
        have := hr.2.2.2.1
        rw [e] at this
        have := (List.nodup_append.1 this).2.1
        simp at this
      have hnext : (list_del h y).next y = rest.head?.getD head := by
        rw [list_del_next, if_neg hne, hny]
      have hr3 : Ring (q_release_element (list_del h y) y) head (pre ++ x :: rest) := hr2
      obtain ⟨h', hrun, hring, hv⟩ :=
        q_delete_dup_inner_spec head x pre rest _ true f hr3 (by simp at hf; omega)
      have hss : ∀ z, sameString (q_release_element (list_del h y) y) z x = sameString h z x :=
        fun z => rfl
      simp only [hss] at hrun hring
      refine ⟨h', ?_, ?_, hv⟩
      · simp only [hnext]
        rw [hrun]
        simp [List.takeWhile_cons, sameString, hs]
      · simpa [List.dropWhile_cons, sameString, hs] using hring
    · rw [if_neg hs]
      refine ⟨h, ?_, ?_, rfl⟩
      · simp [List.takeWhile_cons, sameString, hs]
      · simpa [List.dropWhile_cons, sameString, hs] using hr

theorem sameString_congr {h k : Heap} (hv : h.value = k.value) : sameString h = sameString k := by
  funext x y
  simp [sameString, hv]

theorem Ring.prev_of_next {h : Heap} {head : Nat} {l1 l2 : List Nat} {x : Nat}
    (hr : Ring h head (l1 ++ x :: l2)) : h.prev (l2.head?.getD head) = x := by
  cases l2 with
  | nil =>
    simp only [List.head?_nil, Option.getD_none]
    rw [hr.prev_head]
    simp
  | cons o os =>
    have hr' : Ring h head ((l1 ++ [x]) ++ o :: os) := by simpa using hr
    simp only [List.head?_cons, Option.getD_some]
    rw [hr'.prev_mid]
    simp

/-- The outer loop of `q_delete_dup`, entered with `temphead` at the first node of the part
`l` of the traversal still to be scanned: that part is replaced by `dropRuns l`. -/
theorem q_delete_dup_outer_spec (head : Nat) (n : Nat) : ∀ (l : List Nat), l.length ≤ n →
    ∀ (pre : List Nat) (h : Heap) (fuel : Nat),
    Ring h head (pre ++ l) → l.length + 1 ≤ fuel →
    ∃ h', q_delete_dup_outer fuel h head (l.head?.getD head) = some h' ∧
      Ring h' head (pre ++ dropRuns (sameString h) l) ∧ h'.value = h.value := by
  induction n using Nat.strong_induction_on with
  | _ n ih =>
  intro l hn pre h fuel hr hf
  obtain ⟨f, rfl⟩ : ∃ f, fuel = f + 1 := ⟨fuel - 1, by omega⟩
  match l, hn, hr, hf with
  | [], _, hr, _ =>
    exact ⟨h, by simp [q_delete_dup_outer], by simpa [dropRuns] using hr, rfl⟩
  | x :: rest, hn, hr, hf =>
    have hx : x ≠ head := fun e => hr.2.2.1 (by simp [e])
    simp only [List.head?_cons, Option.getD_some]
    rw [q_delete_dup_outer, if_pos hx, hr.next_mid]
    obtain ⟨h1, hrun, hr1, hv1⟩ :=
      q_delete_dup_inner_spec head x pre rest h false (f + 1) hr (by simp at hf; omega)
    rw [hrun]
    simp only [Bool.false_or]
    have hlen : (rest.dropWhile (fun y => sameString h y x)).length ≤ rest.length :=
      (List.dropWhile_sublist _).length_le
    rw [hr1.next_mid, hr1.prev_of_next, dropRuns_cons]
    cases hflag : (rest.takeWhile (fun y => sameString h y x)).isEmpty with
    | true =>
      simp only [Bool.not_true, Bool.false_eq_true, if_false, if_true]
      have hr2 : Ring h1 head ((pre ++ [x]) ++ rest.dropWhile (fun y => sameString h y x)) := by
        simpa using hr1
      obtain ⟨h', hrun', hr', hv'⟩ := ih _ (Nat.lt_of_lt_of_le (Nat.lt_succ_of_le hlen) hn)
        _ (le_refl _) (pre ++ [x]) h1 f hr2 (by simp at hf; omega)
      refine ⟨h', hrun', ?_, hv'.trans hv1⟩
      rw [sameString_congr hv1] at hr'
      simpa using hr'
    | false =>
      simp only [Bool.not_false, if_true, Bool.false_eq_true, if_false]
      have hr2 : Ring (q_release_element (list_del h1 x) x) head
          (pre ++ rest.dropWhile (fun y => sameString h y x)) := hr1.list_del
      obtain ⟨h', hrun', hr', hv'⟩ := ih _ (Nat.lt_of_lt_of_le (Nat.lt_succ_of_le hlen) hn)
        _ (le_refl _) pre _ f hr2 (by simp at hf; omega)
      refine ⟨h', hrun', ?_, hv'.trans hv1⟩
      have hv2 : (q_release_element (list_del h1 x) x).value = h.value := hv1
      rw [sameString_congr hv2] at hr'
      simpa using hr'

/-- What `q_delete_dup` does to a well-formed queue, sorted or not: every run of two or more
adjacent equal strings is dropped whole and `true` is returned. -/
theorem q_delete_dup_spec {h : Heap} {head : Nat} {ns : List Nat} (hr : Ring h head ns)
    (fuel : Nat) (hf : ns.length + 1 ≤ fuel) :
    ∃ h', q_delete_dup fuel h head = some (h', true) ∧
      Ring h' head (dropRuns (sameString h) ns) ∧ h'.value = h.value := by
  obtain ⟨h', hrun, hr', hv⟩ :=
    q_delete_dup_outer_spec head ns.length ns (le_refl _) [] h fuel hr hf
  refine ⟨h', ?_, by simpa using hr', hv⟩
  rw [← hr.next_head] at hrun
  simp [q_delete_dup, hr.1, hrun]

theorem sameString_iff (h : Heap) (x y : Nat) :
    sameString h x y = true ↔ cstr (h.value x) = cstr (h.value y) := by
  simp [sameString, strcmp_eq_zero]

theorem Ascending.chain' {h : Heap} : ∀ (ns : List Nat), Ascending h ns →
    List.Chain' (fun x y => strcmp (h.value x) (h.value y) ≤ 0) ns
  | [], _ => List.chain'_nil
  | [_], _ => List.chain'_singleton _
  | _ :: y :: rest, ha => List.chain'_cons.2 ⟨ha.1, Ascending.chain' (y :: rest) ha.2⟩

theorem Ascending.of_chain' {h : Heap} : ∀ (ns : List Nat),
    List.Chain' (fun x y => strcmp (h.value x) (h.value y) ≤ 0) ns → Ascending h ns
  | [], _ => trivial
  | [_], _ => trivial
  | _ :: y :: rest, ha =>
    ⟨(List.chain'_cons.1 ha).1, Ascending.of_chain' (y :: rest) (List.chain'_cons.1 ha).2⟩

theorem Ascending.pairwise {h : Heap} {ns : List Nat} (ha : Ascending h ns) :
    ns.Pairwise (fun x y => strcmp (h.value x) (h.value y) ≤ 0) := by
  haveI : IsTrans Nat (fun x y => strcmp (h.value x) (h.value y) ≤ 0) :=
    ⟨fun a b c => strcmp_le_trans _ _ _⟩
  exact List.chain'_iff_pairwise.1 (Ascending.chain' ns ha)

/-- On a sorted traversal, dropping the runs of two or more equal strings leaves exactly the
nodes whose string occurs once. -/
theorem dropRuns_sorted (h : Heap) (n : Nat) : ∀ (l : List Nat), l.length ≤ n →
    l.Pairwise (fun x y => strcmp (h.value x) (h.value y) ≤ 0) →
    dropRuns (sameString h) l =
      l.filter (fun z => decide ((strings h l).count (cstr (h.value z)) = 1)) := by
  induction n using Nat.strong_induction_on with
  | _ n ih =>
  intro l hn hs
  match l, hn, hs with
  | [], _, _ => rfl
  | x :: rest, hn, hs =>
    rw [dropRuns_cons]
    have hsplit := List.takeWhile_append_dropWhile (fun y => sameString h y x) rest
    generalize hsame : rest.takeWhile (fun y => sameString h y x) = same at hsplit ⊢
    generalize hothers : rest.dropWhile (fun y => sameString h y x) = others at hsplit ⊢
    have hsame_eq : ∀ s ∈ same, cstr (h.value s) = cstr (h.value x) := by
      intro s hs'
      rw [← hsame] at hs'
      have := @List.mem_takeWhile_imp _ (fun y => sameString h y x) rest s hs'
      exact (sameString_iff h s x).1 this
    have hs2 := List.pairwise_cons.1 hs
    have hso : others.Pairwise (fun x y => strcmp (h.value x) (h.value y) ≤ 0) := by
      refine hs2.2.sublist ?_
      rw [← hsplit]
      exact List.sublist_append_right _ _
    have hothers_ne : ∀ o ∈ others, cstr (h.value o) ≠ cstr (h.value x) := by
      intro o ho heq
      cases hoth : others with
      | nil => rw [hoth] at ho; simp at ho
      | cons o1 os =>
        have hnot : ¬ sameString h o1 x = true := by
          have := List.head_dropWhile_not (fun y => sameString h y x) rest
            (by rw [hothers, hoth]; simp)
          simp only [hothers, hoth, List.head_cons] at this
          simpa using this
        apply hnot
        rw [sameString_iff]
        have hxo1 : strcmp (h.value x) (h.value o1) ≤ 0 :=
          hs2.1 o1 (by rw [← hsplit, hoth]; simp)
        have ho1x : strcmp (h.value o1) (h.value x) ≤ 0 := by
          rw [hoth] at ho hso
          rcases List.mem_cons.1 ho with rfl | ho'
          · unfold strcmp; rw [heq]; exact le_of_eq (lexcmp_self _)
          · have := (List.pairwise_cons.1 hso).1 o ho'
            unfold strcmp at this ⊢
            rw [heq] at this
            exact this
        exact (strcmp_antisymm hxo1 ho1x).symm
    have hstr : strings h (x :: rest) =
        cstr (h.value x) :: (strings h same ++ strings h others) := by
      rw [← hsplit]; simp [strings]
    have hcs : ∀ v, v = cstr (h.value x) → (strings h same).count v = same.length := by
      intro v hv
      rw [List.count_eq_length.2]
      · simp [strings]
      · intro b hb
        simp only [strings, List.mem_map] at hb
        obtain ⟨s, hs', rfl⟩ := hb
        rw [hv]; exact (hsame_eq s hs').symm
    have hco : ∀ v, v = cstr (h.value x) → (strings h others).count v = 0 := by
      intro v hv
      rw [List.count_eq_zero]
      intro hm
      simp only [strings, List.mem_map] at hm
      obtain ⟨o, ho, hov⟩ := hm
      exact hothers_ne o ho (hov.trans hv)
    have hcx : ∀ v, v = cstr (h.value x) →
        (strings h (x :: rest)).count v = same.length + 1 := by
      intro v hv
      rw [hstr, List.count_cons, List.count_append, hcs v hv, hco v hv]
      simp [hv]
    have hfo : ∀ o ∈ others,
        (strings h (x :: rest)).count (cstr (h.value o)) =
          (strings h others).count (cstr (h.value o)) := by
      intro o ho
      have hne := hothers_ne o ho
      rw [hstr, List.count_cons, List.count_append]
      have h1 : (strings h same).count (cstr (h.value o)) = 0 := by
        rw [List.count_eq_zero]
        intro hm
        simp only [strings, List.mem_map] at hm
        obtain ⟨s, hs', hsv⟩ := hm
        exact hne (hsv.symm.trans (hsame_eq s hs'))
      rw [h1]
      simp [Ne.symm hne]
    have hlen : others.length < n := by
      have : rest.length = same.length + others.length := by
        rw [← hsplit]; simp
      simp at hn; omega
    rw [ih others.length hlen others (le_refl _) hso]
    have hrest : rest = same ++ others := hsplit.symm
    rw [List.filter_cons, hrest, List.filter_append]
    have hfs : same.filter
        (fun z => decide ((strings h (x :: (same ++ others))).count (cstr (h.value z)) = 1))
        = [] := by
      rw [List.filter_eq_nil_iff]
      intro s hs'
      have := hcx _ (hsame_eq s hs')
      rw [hrest] at this
      rw [this]
      have : 0 < same.length := List.length_pos_of_mem hs'
      simp only [decide_eq_true_eq]
      omega
    have hfo' : others.filter
        (fun z => decide ((strings h (x :: (same ++ others))).count (cstr (h.value z)) = 1))
        = others.filter
        (fun z => decide ((strings h others).count (cstr (h.value z)) = 1)) := by
      apply List.filter_congr
      intro o ho
      have := hfo o ho
      rw [hrest] at this
      rw [this]
    rw [hfs, hfo', List.nil_append]
    have hx1 := hcx _ rfl
    rw [hrest] at hx1
    rw [hx1]
    cases same with
    | nil => simp
    | cons s ss => simp

/-- C5: on a well-formed queue whose traversal `ns` is sorted ascending, `q_delete_dup` returns
`true` and leaves a well-formed queue whose traversal consists of exactly the nodes of `ns`
whose string occurs exactly once among the strings of `ns`, in their original order; no copy
of a string that occurs twice or more survives, and no string is modified. -/
theorem q_delete_dup_sorted (h : Heap) (head : Nat) (ns : List Nat) (fuel : Nat)
    (hr : Ring h head ns) (hs : Ascending h ns) (hf : ns.length + 1 ≤ fuel) :
    ∃ h', q_delete_dup fuel h head = some (h', true) ∧
      Ring h' head
        (ns.filter (fun z => decide ((strings h ns).count (cstr (h.value z)) = 1))) ∧
      h'.value = h.value := by
  obtain ⟨h', hrun, hr', hv⟩ := q_delete_dup_spec hr fuel hf
  rw [dropRuns_sorted h ns.length ns (le_refl _) hs.pairwise] at hr'
  exact ⟨h', hrun, hr', hv⟩

theorem q_delete_dup_sorted_witness :
    Ring sampleHeapSorted 1 [2, 3, 4, 5] ∧ Ascending sampleHeapSorted [2, 3, 4, 5] ∧
    ∃ h', q_delete_dup 5 sampleHeapSorted 1 = some (h', true) ∧
      Ring h' 1
        ([2, 3, 4, 5].filter (fun z => decide
          ((strings sampleHeapSorted [2, 3, 4, 5]).count (cstr (sampleHeapSorted.value z)) = 1))) ∧
      h'.value = sampleHeapSorted.value :=
  ⟨by decide, by decide,
    q_delete_dup_sorted sampleHeapSorted 1 [2, 3, 4, 5] 5 (by decide) (by decide) (by decide)⟩
/-! ## `merge` -/

theorem NullList.agree {f g : Nat → Nat} : ∀ (ns : List Nat) (p : Nat),
    (∀ x ∈ ns, f x = g x) → NullList f p ns → NullList g p ns
  | [], _, _, hn => hn
  | n :: ns, p, hfg, hn => by
    simp only [NullList] at hn ⊢
    refine ⟨hn.1, ?_⟩
    rw [← hfg n (by simp)]
    exact NullList.agree ns _ (fun x hx => hfg x (by simp [hx])) hn.2

theorem mergeL_perm (lt : Nat → Nat → Bool) : ∀ (n : Nat) (ls rs : List Nat),
    ls.length + rs.length ≤ n → (mergeL lt ls rs).Perm (ls ++ rs) := by
  intro n
  induction n with
  | zero =>
    intro ls rs hn
    have h1 : ls = [] := List.length_eq_zero.1 (by omega)
    have h2 : rs = [] := List.length_eq_zero.1 (by omega)
    subst h1; subst h2
    simp [mergeL]
  | succ n ih =>
    intro ls rs hn
    match ls, rs, hn with
    | [], rs, _ => simp [mergeL]
    | a :: ls, [], _ => simp [mergeL]
    | a :: ls, b :: rs, hn =>
      rw [mergeL]
      split
      · have := ih ls (b :: rs) (by simp at hn ⊢; omega)
        simpa using this
      · have := ih (a :: ls) rs (by simp at hn ⊢; omega)
        refine (List.Perm.cons b this).trans ?_
        simpa using (@List.perm_middle _ b (a :: ls) rs).symm

theorem ltString_iff (h : Heap) (x y : Nat) :
    ltString h x y = true ↔ strcmp (h.value x) (h.value y) < 0 := by
  simp [ltString]

theorem mergeL_sorted (h : Heap) : ∀ (n : Nat) (ls rs : List Nat),
    ls.length + rs.length ≤ n →
    ls.Pairwise (fun x y => strcmp (h.value x) (h.value y) ≤ 0) →
    rs.Pairwise (fun x y => strcmp (h.value x) (h.value y) ≤ 0) →
    (mergeL (ltString h) ls rs).Pairwise (fun x y => strcmp (h.value x) (h.value y) ≤ 0) := by
  intro n
  induction n with
  | zero =>
    intro ls rs hn _ _
    have h1 : ls = [] := List.length_eq_zero.1 (by omega)
    have h2 : rs = [] := List.length_eq_zero.1 (by omega)
    subst h1; subst h2
    simp [mergeL]
  | succ n ih =>
    intro ls rs hn hl hr
    match ls, rs, hn, hl, hr with
    | [], rs, _, _, hr => simpa [mergeL] using hr
    | a :: ls, [], _, hl, _ => simpa [mergeL] using hl
    | a :: ls, b :: rs, hn, hl, hr =>
      have hl2 := List.pairwise_cons.1 hl
      have hr2 := List.pairwise_cons.1 hr
      rw [mergeL]
      split
      · rename_i hlt
        have hab : strcmp (h.value a) (h.value b) ≤ 0 :=
          le_of_lt ((ltString_iff h a b).1 hlt)
        refine List.pairwise_cons.2 ⟨?_, ih ls (b :: rs) (by simp at hn ⊢; omega) hl2.2 hr⟩
        intro x hx
        have hx' := (mergeL_perm (ltString h) _ ls (b :: rs) (le_refl _)).mem_iff.1 hx
        rcases List.mem_append.1 hx' with h1 | h1
        · exact hl2.1 x h1
        · rcases List.mem_cons.1 h1 with rfl | h1
          · exact hab
          · exact strcmp_le_trans _ _ _ hab (hr2.1 x h1)
      · rename_i hlt
        have hba : strcmp (h.value b) (h.value a) ≤ 0 :=
          strcmp_le_of_not_lt (fun hh => hlt ((ltString_iff h a b).2 hh))
        refine List.pairwise_cons.2 ⟨?_, ih (a :: ls) rs (by simp at hn ⊢; omega) hl hr2.2⟩
        intro x hx
        have hx' := (mergeL_perm (ltString h) _ (a :: ls) rs (le_refl _)).mem_iff.1 hx
        rcases List.mem_append.1 hx' with h1 | h1
        · rcases List.mem_cons.1 h1 with rfl | h1
          · exact hba
          · exact strcmp_le_trans _ _ _ hba (hl2.1 x h1)
        · exact hr2.1 x h1

theorem ltString_congr {h k : Heap} (hv : h.value = k.value) : ltString h = ltString k := by
  funext x y
  simp [ltString, hv]

theorem writeInd_fields (h : Heap) (hv : Nat) (ind : Indirect) (v : Nat) :
    (writeInd h hv ind v).1.prev = h.prev ∧ (writeInd h hv ind v).1.value = h.value ∧
    (writeInd h hv ind v).1.freedElem = h.freedElem ∧
    (writeInd h hv ind v).1.freedVal = h.freedVal := by
  cases ind <;> exact ⟨rfl, rfl, rfl, rfl⟩

theorem writeInd_next (h : Heap) (hv : Nat) (ind : Indirect) (v x : Nat)
    (hx : ind ≠ Indirect.nextOf x) : (writeInd h hv ind v).1.next x = h.next x := by
  cases ind with
  | headVar => rfl
  | nextOf p =>
    have : x ≠ p := by rintro rfl; exact hx rfl
    simp [writeInd, setNext, store, this]

theorem readInd_writeInd (h : Heap) (hv : Nat) (ind : Indirect) (v : Nat) :
    readInd (writeInd h hv ind v).1 (writeInd h hv ind v).2 ind = v := by
  cases ind <;> simp [writeInd, readInd, setNext, store]

theorem writeInd_headVar (h : Heap) (hv : Nat) (ind : Indirect) (v : Nat)
    (hi : ind ≠ Indirect.headVar) : (writeInd h hv ind v).2 = hv := by
  cases ind with
  | headVar => exact absurd rfl hi
  | nextOf p => rfl

/-- The loop of `merge` on two disjoint `NULL`-terminated chains `ls` and `rs`, with `indirect`
pointing at a cell outside both: afterwards that cell leads to the chain `mergeL ls rs`, and
only that cell and the `next` fields of the two chains have been written. -/
theorem merge_loop_spec (n : Nat) : ∀ (ls rs : List Nat), ls.length + rs.length ≤ n →
    ∀ (h : Heap) (hv : Nat) (ind : Indirect) (l r fuel : Nat),
    NullList h.next l ls → NullList h.next r rs → (ls ++ rs).Nodup → 0 ∉ ls ++ rs →
    (∀ x ∈ ls ++ rs, ind ≠ Indirect.nextOf x) → ls.length + rs.length + 1 ≤ fuel →
    ∃ s, merge_loop fuel h hv ind l r = some s ∧
      NullList s.1.next (readInd s.1 s.2 ind) (mergeL (ltString h) ls rs) ∧
      (∀ x, x ∉ ls ++ rs → ind ≠ Indirect.nextOf x → s.1.next x = h.next x) ∧
      (ind ≠ Indirect.headVar → s.2 = hv) ∧
      s.1.prev = h.prev ∧ s.1.value = h.value ∧ s.1.freedElem = h.freedElem ∧
      s.1.freedVal = h.freedVal := by
  induction n with
  | zero =>
    intro ls rs hn h hv ind l r fuel hl hr _ _ hind hf
    have h1 : ls = [] := List.length_eq_zero.1 (by omega)
    have h2 : rs = [] := List.length_eq_zero.1 (by omega)
    subst h1; subst h2
    obtain ⟨f, rfl⟩ : ∃ f, fuel = f + 1 := ⟨fuel - 1, by omega⟩
    simp only [NullList] at hl hr
    subst hl; subst hr
    refine ⟨writeInd h hv ind 0, by simp [merge_loop], ?_, ?_, ?_, writeInd_fields h hv ind 0⟩
    · rw [readInd_writeInd]; simp [mergeL, NullList]
    · intro x _ hx; exact writeInd_next h hv ind 0 x hx
    · exact writeInd_headVar h hv ind 0
  | succ n ih =>
    intro ls rs hn h hv ind l r fuel hl hr hnd hz hind hf
    obtain ⟨f, rfl⟩ : ∃ f, fuel = f + 1 := ⟨fuel - 1, by omega⟩
    match ls, rs, hn, hl, hr, hnd, hz, hind, hf with
    | [], rs, _, hl, hr, hnd, hz, hind, hf =>
      simp only [NullList] at hl
      subst hl
      refine ⟨writeInd h hv ind r, by simp [merge_loop], ?_, ?_, ?_, writeInd_fields h hv ind r⟩
      · rw [readInd_writeInd]
        simp only [mergeL]
        refine NullList.agree rs r ?_ hr
        intro x hx
        exact (writeInd_next h hv ind r x (hind x (by simp [hx]))).symm
      · intro x _ hx; exact writeInd_next h hv ind r x hx
      · exact writeInd_headVar h hv ind r
    | a :: ls, [], _, hl, hr, hnd, hz, hind, hf =>
      simp only [NullList] at hr
      subst hr
      refine ⟨writeInd h hv ind l, by simp [merge_loop], ?_, ?_, ?_, writeInd_fields h hv ind l⟩
      · rw [readInd_writeInd]
        simp only [mergeL]
        refine NullList.agree (a :: ls) l ?_ hl
        intro x hx
        exact (writeInd_next h hv ind l x (hind x (by simpa using hx))).symm
      · intro x _ hx; exact writeInd_next h hv ind l x hx
      · exact writeInd_headVar h hv ind l
    | a :: ls, b :: rs, hn, hl, hr, hnd, hz, hind, hf =>
      simp only [NullList] at hl hr
      obtain ⟨rfl, hl2⟩ := hl
      obtain ⟨rfl, hr2⟩ := hr
      have hl0 : l ≠ 0 := fun e => hz (by simp [e])
      have hr0 : r ≠ 0 := fun e => hz (by simp [e])
      have hnd1 : (ls ++ r :: rs).Nodup ∧ l ∉ ls ++ r :: rs := by
        have := List.nodup_cons.1 (by simpa using hnd : (l :: (ls ++ r :: rs)).Nodup)
        exact ⟨this.2, this.1⟩
      have hnd2 : (l :: ls ++ rs).Nodup ∧ r ∉ l :: ls ++ rs := by
        have hp : (r :: (l :: ls ++ rs)).Perm (l :: ls ++ r :: rs) := List.perm_middle.symm
        have := List.nodup_cons.1 (hp.nodup_iff.2 hnd)
        exact ⟨this.2, this.1⟩
      rw [merge_loop, if_pos ⟨hl0, hr0⟩]
      by_cases hlt : strcmp (h.value l) (h.value r) < 0
      · rw [if_pos hlt]
        simp only [readInd_writeInd]
        have hw := writeInd_fields h hv ind l
        have hnl : (writeInd h hv ind l).1.next l = h.next l :=
          writeInd_next h hv ind l l (hind l (by simp))
        rw [hnl]
        obtain ⟨s, hrun, hres, hfr, hhv, hp, hvv, hfe, hfv⟩ :=
          ih ls (r :: rs) (by simp at hn ⊢; omega) (writeInd h hv ind l).1
            (writeInd h hv ind l).2 (Indirect.nextOf l) (h.next l) r f
            (NullList.agree ls _ (fun x hx =>
              (writeInd_next h hv ind l x (hind x (by simp [hx]))).symm) hl2)
            (NullList.agree (r :: rs) _ (fun x hx =>
              (writeInd_next h hv ind l x (hind x (by
                rcases List.mem_cons.1 hx with hx | hx
                · simp [hx]
                · simp [hx]))).symm) (show NullList h.next r (r :: rs) from ⟨rfl, hr2⟩))
            hnd1.1 (fun hm => hz (by
              simp only [List.cons_append, List.mem_append, List.mem_cons] at hm ⊢; tauto))
            (fun x hx e => hnd1.2 (by
              have : l = x := by injection e
              rw [this]; exact hx))
            (by simp at hf ⊢; omega)
        rw [ltString_congr hw.2.1] at hres
        refine ⟨s, hrun, ?_, ?_, ?_, hp.trans hw.1, hvv.trans hw.2.1, hfe.trans hw.2.2.1,
          hfv.trans hw.2.2.2⟩
        · rw [mergeL, if_pos ((ltString_iff h l r).2 hlt)]
          refine ⟨?_, hres⟩
          cases ind with
          | headVar => rw [readInd, hhv (by simp)]; rfl
          | nextOf p =>
            have hpl : p ≠ l := fun e => hind l (by simp) (by rw [e])
            have hpm : p ∉ ls ++ r :: rs := fun hm => by
              refine hind p ?_ rfl
              simp only [List.cons_append, List.mem_append, List.mem_cons] at hm ⊢; tauto
            rw [readInd, hfr p hpm (fun e => hpl (by injection e with e; exact e.symm))]
            simp [writeInd, setNext, store]
        · intro x hx hix
          have hx1 : x ∉ ls ++ r :: rs := fun hm => hx (by
            simp only [List.cons_append, List.mem_append, List.mem_cons] at hm ⊢; tauto)
          have hx2 : x ≠ l := fun e => hx (by simp [e])
          rw [hfr x hx1 (fun e => hx2 (by injection e with e; exact e.symm))]
          exact writeInd_next h hv ind l x hix
        · intro hi
          rw [hhv (by simp)]
          exact writeInd_headVar h hv ind l hi
      · rw [if_neg hlt]
        simp only [readInd_writeInd]
        have hw := writeInd_fields h hv ind r
        have hnr : (writeInd h hv ind r).1.next r = h.next r :=
          writeInd_next h hv ind r r (hind r (by simp))
        rw [hnr]
        obtain ⟨s, hrun, hres, hfr, hhv, hp, hvv, hfe, hfv⟩ :=
          ih (l :: ls) rs (by simp at hn ⊢; omega) (writeInd h hv ind r).1
            (writeInd h hv ind r).2 (Indirect.nextOf r) l (h.next r) f
            (NullList.agree (l :: ls) _ (fun x hx =>
              (writeInd_next h hv ind r x (hind x (by
                rcases List.mem_cons.1 hx with hx | hx
                · simp [hx]
                · simp [hx]))).symm) (show NullList h.next l (l :: ls) from ⟨rfl, hl2⟩))
            (NullList.agree rs _ (fun x hx =>
              (writeInd_next h hv ind r x (hind x (by simp [hx]))).symm) hr2)
            hnd2.1 (fun hm => hz (by
              simp only [List.cons_append, List.mem_append, List.mem_cons] at hm ⊢; tauto))
            (fun x hx e => hnd2.2 (by
              have : r = x := by injection e
              rw [this]; exact hx))
            (by simp at hf ⊢; omega)
        rw [ltString_congr hw.2.1] at hres
        refine ⟨s, hrun, ?_, ?_, ?_, hp.trans hw.1, hvv.trans hw.2.1, hfe.trans hw.2.2.1,
          hfv.trans hw.2.2.2⟩
        · rw [mergeL, if_neg (fun hh => hlt ((ltString_iff h l r).1 hh))]
          refine ⟨?_, hres⟩
          cases ind with
          | headVar => rw [readInd, hhv (by simp)]; rfl
          | nextOf p =>
            have hpr : p ≠ r := fun e => hind r (by simp) (by rw [e])
            have hpm : p ∉ l :: ls ++ rs := fun hm => by
              refine hind p ?_ rfl
              simp only [List.cons_append, List.mem_append, List.mem_cons] at hm ⊢; tauto
            rw [readInd, hfr p hpm (fun e => hpr (by injection e with e; exact e.symm))]
            simp [writeInd, setNext, store]
        · intro x hx hix
          have hx1 : x ∉ l :: ls ++ rs := fun hm => hx (by
            simp only [List.cons_append, List.mem_append, List.mem_cons] at hm ⊢; tauto)
          have hx2 : x ≠ r := fun e => hx (by simp [e])
          rw [hfr x hx1 (fun e => hx2 (by injection e with e; exact e.symm))]
          exact writeInd_next h hv ind r x hix
        · intro hi
          rw [hhv (by simp)]
          exact writeInd_headVar h hv ind r hi
/-! ## `mergesort` -/

theorem Path.get {f : Nat → Nat} : ∀ {xs : List Nat}, Path f xs → ∀ {i a b : Nat},
    xs[i]? = some a → xs[i + 1]? = some b → f a = b
  | [], _, i, a, b, ha, _ => by simp at ha
  | [_], _, i, a, b, _, hb => by simp at hb
  | x :: y :: rest, hp, 0, a, b, ha, hb => by
    simp at ha hb
    rw [← ha, ← hb]; exact hp.1
  | x :: y :: rest, hp, i + 1, a, b, ha, hb => by
    have ha' : (y :: rest)[i]? = some a := by simpa using ha
    have hb' : (y :: rest)[i + 1]? = some b := by simpa using hb
    exact Path.get hp.2 ha' hb'

theorem Path.of_get {f : Nat → Nat} : ∀ (xs : List Nat),
    (∀ i a b, xs[i]? = some a → xs[i + 1]? = some b → f a = b) → Path f xs
  | [], _ => trivial
  | [_], _ => trivial
  | x :: y :: rest, hg => by
    refine ⟨hg 0 x y (by simp) (by simp), Path.of_get (y :: rest) ?_⟩
    intro i a b ha hb
    exact hg (i + 1) a b (by simpa using ha) (by simpa using hb)

theorem Path.take {f : Nat → Nat} {xs : List Nat} (hp : Path f xs) (k : Nat) :
    Path f (xs.take k) := by
  apply Path.of_get
  intro i a b ha hb
  rw [List.getElem?_take] at ha hb
  split at hb
  · rw [if_pos (by omega)] at ha
    exact hp.get ha hb
  · simp at hb

theorem Path.drop {f : Nat → Nat} {xs : List Nat} (hp : Path f xs) (k : Nat) :
    Path f (xs.drop k) := by
  apply Path.of_get
  intro i a b ha hb
  rw [List.getElem?_drop] at ha hb
  exact hp.get ha (by rw [← hb]; congr 1)

theorem Path.agree_all {f g : Nat → Nat} {xs : List Nat} (hfg : ∀ x ∈ xs, f x = g x)
    (hp : Path f xs) : Path g xs := by
  apply Path.of_get
  intro i a b ha hb
  rw [← hfg a (List.getElem?_mem ha)]
  exact hp.get ha hb

theorem Chain.path {f : Nat → Nat} : ∀ (ns : List Nat) (a b : Nat), Chain f a ns b → Path f ns
  | [], _, _, _ => trivial
  | [_], _, _, _ => trivial
  | x :: y :: rest, a, b, hc => by
    simp only [Chain] at hc
    exact ⟨hc.2.1, Chain.path (y :: rest) x b ⟨hc.2.1, hc.2.2⟩⟩

theorem nodup_get_inj {xs : List Nat} (hnd : xs.Nodup) {i j x : Nat}
    (hi : xs[i]? = some x) (hj : xs[j]? = some x) : i = j := by
  obtain ⟨hi', e1⟩ := List.getElem?_eq_some.1 hi
  obtain ⟨hj', e2⟩ := List.getElem?_eq_some.1 hj
  exact (List.Nodup.getElem_inj_iff hnd).1 (e1.trans e2.symm)

/-- The two-speed loop of `mergesort` on a chain `xs` of `n ≥ 2` nodes ending at `r`, entered
with `tortoise` at index `t` and `hare` at index `2t ≤ n - 2`: it stops with `tortoise` at index
`(n - 2) / 2`. -/
theorem mergesort_split_spec {h : Heap} {xs : List Nat} {r : Nat} (hp : Path h.next xs)
    (hnd : xs.Nodup) (hz : 0 ∉ xs) (hlast : xs[xs.length - 1]? = some r) (d : Nat) :
    ∀ (t a b fuel : Nat), 2 * t + 2 + d = xs.length → xs[t]? = some a → xs[2 * t]? = some b →
    d + 1 ≤ fuel →
    ∃ z, mergesort_split fuel h r a b = some z ∧ xs[(xs.length - 2) / 2]? = some z := by
  induction d using Nat.strong_induction_on with
  | _ d ih =>
  intro t a b fuel hd ha hb hf
  obtain ⟨f, rfl⟩ : ∃ f, fuel = f + 1 := ⟨fuel - 1, by omega⟩
  have hc1 : xs[2 * t + 1]? = some (xs[2 * t + 1]) := List.getElem?_eq_getElem (by omega)
  have hn1 := hp.get hb hc1
  rw [mergesort_split]
  rcases Nat.eq_zero_or_pos d with hd0 | hdpos
  · -- the node after `hare` is `r`
    have : xs[2 * t + 1]? = some r := by
      have e : 2 * t + 1 = xs.length - 1 := by omega
      rw [e]; exact hlast
    rw [hc1] at this
    have hr : h.next b = r := by rw [hn1]; exact Option.some.inj this
    refine ⟨a, by simp [hr], ?_⟩
    have : (xs.length - 2) / 2 = t := by omega
    rw [this]; exact ha
  · have hc2 : xs[2 * t + 2]? = some (xs[2 * t + 2]) := List.getElem?_eq_getElem (by omega)
    have hn2 := hp.get hc1 hc2
    rcases Nat.lt_or_ge d 2 with hd1 | hd2
    · -- the second node after `hare` is `r`
      have : xs[2 * t + 2]? = some r := by
        have e : 2 * t + 2 = xs.length - 1 := by omega
        rw [e]; exact hlast
      rw [hc2] at this
      have hr : h.next (h.next b) = r := by rw [hn1, hn2]; exact Option.some.inj this
      refine ⟨a, by simp [hr], ?_⟩
      have : (xs.length - 2) / 2 = t := by omega
      rw [this]; exact ha
    · have ht1 : xs[t + 1]? = some (xs[t + 1]) := List.getElem?_eq_getElem (by omega)
      have hna := hp.get ha ht1
      have h10 : xs[2 * t + 1] ≠ 0 := fun e => hz (e ▸ List.getElem_mem _)
      have h20 : xs[2 * t + 2] ≠ 0 := fun e => hz (e ▸ List.getElem_mem _)
      have h1r : xs[2 * t + 1] ≠ r := by
        intro e
        rw [e] at hc1
        have := nodup_get_inj hnd hc1 hlast
        omega
      have h2r : xs[2 * t + 2] ≠ r := by
        intro e
        rw [e] at hc2
        have := nodup_get_inj hnd hc2 hlast
        omega
      rw [hn1, hn2, hna, if_pos ⟨h10, h20, h1r, h2r⟩]
      exact ih (d - 2) (by omega) (t + 1) _ _ f (by omega) ht1
        (by rw [show 2 * (t + 1) = 2 * t + 2 by ring]; exact hc2) (by omega)

/-- The function `mergesort` on a chain `xs` of distinct nodes that runs from `l` to `r`: given
fuel for the length of the chain it returns a `NULL`-terminated chain on the same nodes, in
ascending order, and writes no `next` field outside `xs`. -/
theorem mergesort_spec (n : Nat) : ∀ (xs : List Nat), xs.length ≤ n → xs ≠ [] →
    ∀ (h : Heap) (l r fuel : Nat), xs[0]? = some l → xs[xs.length - 1]? = some r →
    Path h.next xs → xs.Nodup → 0 ∉ xs → xs.length + 1 ≤ fuel →
    ∃ s ys, mergesort fuel h l r = some s ∧ NullList s.1.next s.2 ys ∧ ys.Perm xs ∧
      ys.Pairwise (fun x y => strcmp (h.value x) (h.value y) ≤ 0) ∧
      (∀ x, x ∉ xs → s.1.next x = h.next x) ∧
      s.1.prev = h.prev ∧ s.1.value = h.value ∧ s.1.freedElem = h.freedElem ∧
      s.1.freedVal = h.freedVal := by
  induction n using Nat.strong_induction_on with
  | _ n ih =>
  intro xs hn hne h l r fuel hl hr hp hnd hz hf
  obtain ⟨f, rfl⟩ : ∃ f, fuel = f + 1 := ⟨fuel - 1, by omega⟩
  have hpos : 0 < xs.length := List.length_pos.2 hne
  rw [mergesort]
  rcases Nat.lt_or_ge xs.length 3 with hlt | hge
  · rcases Nat.lt_or_ge xs.length 2 with hlt1 | hge2
    · -- one node
      obtain ⟨a, rfl⟩ := List.length_eq_one.1 (show xs.length = 1 by omega)
      simp at hl hr
      subst hl; subst hr
      refine ⟨(setNext h a 0, a), [a], by simp, ?_, List.Perm.refl _, by simp, ?_,
        rfl, rfl, rfl, rfl⟩
      · simp [NullList, setNext, store]
      · intro x hx
        have : x ≠ a := by simpa using hx
        simp [setNext, store, this]
    · -- two nodes
      obtain ⟨a, b, rfl⟩ := List.length_eq_two.1 (show xs.length = 2 by omega)
      simp at hl hr
      subst hl; subst hr
      have hab : a ≠ b := by simpa using hnd
      have hba : b ≠ a := Ne.symm hab
      have hnab : h.next a = b := hp.1
      rw [if_neg hab, if_pos hnab]
      by_cases hgt : strcmp (h.value a) (h.value b) > 0
      · rw [if_pos hgt]
        refine ⟨_, [b, a], rfl, ?_, List.Perm.swap _ _ _, ?_, ?_, rfl, rfl, rfl, rfl⟩
        · simp [NullList, setNext, store, hab]
        · have : strcmp (h.value b) (h.value a) ≤ 0 := by rw [strcmp_swap]; omega
          simpa using this
        · intro x hx
          have hx' : x ≠ a ∧ x ≠ b := by simpa using hx
          simp [setNext, store, hx'.1, hx'.2]
      · rw [if_neg hgt]
        refine ⟨_, [a, b], rfl, ?_, List.Perm.refl _, ?_, ?_, rfl, rfl, rfl, rfl⟩
        · simp [NullList, setNext, store, hab, hnab]
        · have : strcmp (h.value a) (h.value b) ≤ 0 := by omega
          simpa using this
        · intro x hx
          have hx' : x ≠ a ∧ x ≠ b := by simpa using hx
          simp [setNext, store, hx'.2]
  · -- three nodes or more: split, sort both parts, merge
    have h1 : xs[1]? = some (xs[1]) := List.getElem?_eq_getElem (by omega)
    have hnl := hp.get hl h1
    have hlr : l ≠ r := by
      rintro rfl
      have := nodup_get_inj hnd hl hr
      omega
    have hnr : h.next l ≠ r := by
      intro e
      rw [hnl] at e
      rw [e] at h1
      have := nodup_get_inj hnd h1 hr
      omega
    rw [if_neg hlr, if_neg hnr]
    obtain ⟨z, hz1, hz2⟩ := mergesort_split_spec hp hnd hz hr (xs.length - 2) 0 l l (f + 1)
      (by omega) hl (by simpa using hl) (by omega)
    rw [hz1]
    simp only
    generalize hk : (xs.length - 2) / 2 = k at hz2
    have hklt : k + 1 < xs.length := by omega
    have hk1 : xs[k + 1]? = some (xs[k + 1]) := List.getElem?_eq_getElem hklt
    have hnz := hp.get hz2 hk1
    have hsplit : xs.take (k + 1) ++ xs.drop (k + 1) = xs := List.take_append_drop _ _
    have hndsplit := hnd
    rw [← hsplit] at hndsplit
    have hdisj := List.nodup_append.1 hndsplit
    have hlenL : (xs.take (k + 1)).length = k + 1 := by simp; omega
    have hlenR : (xs.drop (k + 1)).length = xs.length - (k + 1) := by simp
    -- the left part
    obtain ⟨s1, ys1, hrun1, hnl1, hperm1, hsort1, hfr1, hp1, hv1, hfe1, hfv1⟩ :=
      ih (xs.take (k + 1)).length (by omega) (xs.take (k + 1)) (le_refl _)
        (by intro e; rw [e] at hlenL; simp at hlenL) h l z f
        (by rw [List.getElem?_take, if_pos (by omega)]; exact hl)
        (by rw [hlenL, List.getElem?_take, if_pos (by omega)]; simpa using hz2)
        (hp.take _) hdisj.1 (fun hm => hz (List.mem_of_mem_take hm)) (by omega)
    rw [hrun1]
    simp only
    -- the right part
    have hpR : Path s1.1.next (xs.drop (k + 1)) := by
      refine Path.agree_all ?_ (hp.drop _)
      intro x hx
      exact (hfr1 x (fun hm => hdisj.2.2 hm hx)).symm
    obtain ⟨s2, ys2, hrun2, hnl2, hperm2, hsort2, hfr2, hp2, hv2, hfe2, hfv2⟩ :=
      ih (xs.drop (k + 1)).length (by omega) (xs.drop (k + 1)) (le_refl _)
        (by intro e; rw [e] at hlenR; simp at hlenR; omega) s1.1 (xs[k + 1]) r f
        (by rw [List.getElem?_drop]; simp)
        (by
          rw [hlenR, List.getElem?_drop]
          have : k + 1 + (xs.length - (k + 1) - 1) = xs.length - 1 := by omega
          rw [this]; exact hr)
        hpR hdisj.2.1 (fun hm => hz (List.mem_of_mem_drop hm)) (by omega)
    rw [hnz, hrun2]
    simp only
    -- the merge
    have hnl1' : NullList s2.1.next s1.2 ys1 := by
      refine NullList.agree ys1 _ ?_ hnl1
      intro x hx
      have hxL : x ∈ xs.take (k + 1) := hperm1.mem_iff.1 hx
      exact (hfr2 x (fun hm => hdisj.2.2 hxL hm)).symm
    have hpermA : (ys1 ++ ys2).Perm xs := by
      have := hperm1.append hperm2
      rwa [hsplit] at this
    obtain ⟨s3, hrun3, hnl3, hfr3, -, hp3, hv3, hfe3, hfv3⟩ :=
      merge_loop_spec (ys1.length + ys2.length) ys1 ys2 (le_refl _) s2.1 0 Indirect.headVar
        s1.2 s2.2 (f + 1) hnl1' hnl2 (hpermA.nodup_iff.2 hnd)
        (fun hm => hz (hpermA.mem_iff.1 hm)) (fun x _ => by simp)
        (by
          have := hpermA.length_eq
          simp at this
          omega)
    have hvs2 : s2.1.value = h.value := hv2.trans hv1
    refine ⟨s3, mergeL (ltString s2.1) ys1 ys2, hrun3, hnl3,
      (mergeL_perm _ _ ys1 ys2 (le_refl _)).trans hpermA, ?_, ?_, hp3.trans (hp2.trans hp1),
      hv3.trans hvs2, hfe3.trans (hfe2.trans hfe1), hfv3.trans (hfv2.trans hfv1)⟩
    · have := mergeL_sorted s2.1 _ ys1 ys2 (le_refl _)
        (by rw [hvs2]; exact hsort1) (by rw [hvs2, ← hv1]; exact hsort2)
      rw [hvs2] at this
      exact this
    · intro x hx
      have hxL : x ∉ xs.take (k + 1) := fun hm => hx (List.mem_of_mem_take hm)
      have hxR : x ∉ xs.drop (k + 1) := fun hm => hx (List.mem_of_mem_drop hm)
      rw [hfr3 x (fun hm => hx (hpermA.mem_iff.1 hm)) (by simp), hfr2 x hxR, hfr1 x hxL]
/-! ## `q_size` and `q_sort` on a well-formed queue -/

theorem q_size_loop_spec (h : Heap) (head : Nat) : ∀ (ns : List Nat) (a len fuel : Nat),
    head ∉ ns → Chain h.next a ns head → ns.length + 1 ≤ fuel →
    q_size_loop fuel h head (h.next a) len = some (len + ns.length)
  | [], a, len, fuel, _, hc, hf => by
    obtain ⟨f, rfl⟩ : ∃ f, fuel = f + 1 := ⟨fuel - 1, by omega⟩
    simp only [Chain] at hc
    simp [q_size_loop, hc]
  | n :: ns, a, len, fuel, hh, hc, hf => by
    obtain ⟨f, rfl⟩ : ∃ f, fuel = f + 1 := ⟨fuel - 1, by omega⟩
    simp only [Chain] at hc
    have hn : n ≠ head := fun e => hh (by simp [e])
    rw [q_size_loop, hc.1, if_pos hn,
      q_size_loop_spec h head ns n (len + 1) f (fun hm => hh (by simp [hm])) hc.2
        (by simp at hf; omega)]
    simp; omega

/-- On a well-formed queue `q_size` counts the nodes of the traversal. -/
theorem q_size_spec {h : Heap} {head : Nat} {ns : List Nat} (hr : Ring h head ns) (fuel : Nat)
    (hf : ns.length + 1 ≤ fuel) : q_size fuel h head = some ns.length := by
  rw [q_size, if_neg hr.1, q_size_loop_spec h head ns head 0 fuel hr.2.2.1 hr.2.2.2.2.1 hf]
  simp

theorem Path.agree_init {f g : Nat → Nat} {xs : List Nat}
    (hfg : ∀ i a, xs[i]? = some a → i + 1 < xs.length → f a = g a) (hp : Path f xs) :
    Path g xs := by
  apply Path.of_get
  intro i a b ha hb
  rw [← hfg i a ha (List.getElem?_eq_some.1 hb).1]
  exact hp.get ha hb

theorem getLast?_getD_mem_cons (y : Nat) (l : List Nat) (a : Nat) :
    (y :: l).getLast?.getD a ∈ y :: l := by
  cases hl : (y :: l).getLast? with
  | none => simp at hl
  | some v => exact List.mem_of_getLast?_eq_some hl

/-- A `NULL`-terminated chain becomes a chain from `a` to `b` once `a` is linked to its first
node and its last node is linked to `b`. -/
theorem NullList.toChain {f g : Nat → Nat} : ∀ (ys : List Nat) (p a b : Nat),
    NullList f p ys → ys.Nodup → g a = p →
    (∀ x ∈ ys, x ≠ ys.getLast?.getD a → g x = f x) → g (ys.getLast?.getD a) = b →
    Chain g a ys b
  | [], p, a, b, hn, _, hga, _, hgl => by
    simp only [List.getLast?_nil, Option.getD_none] at hgl
    exact hgl
  | y :: ys, p, a, b, hn, hnd, hga, hg, hgl => by
    simp only [NullList] at hn
    rw [getLast?_getD_cons] at hgl
    refine ⟨hga.trans hn.1, ?_⟩
    have hnd2 := List.nodup_cons.1 hnd
    cases ys with
    | nil =>
      simpa using hgl
    | cons y2 rest =>
      refine NullList.toChain (y2 :: rest) (f y) y b hn.2 hnd2.2 ?_ ?_ hgl
      · refine hg y (by simp) ?_
        rw [getLast?_getD_cons]
        intro e
        apply hnd2.1
        rw [e]
        exact getLast?_getD_mem_cons y2 rest y
      · intro x hx hxl
        refine hg x (by simp [hx]) ?_
        rw [getLast?_getD_cons]
        exact hxl

/-- The loop of `q_sort` that restores the `prev` links, entered at `a` with the
`NULL`-terminated chain `ys` after it: it stops on the last node of the chain, leaves every
`next` as it was, and links `prev` backwards through `ys` to `a`. -/
theorem q_sort_relink_spec : ∀ (ys : List Nat) (a : Nat) (h : Heap) (fuel : Nat),
    NullList h.next (h.next a) ys → (a :: ys).Nodup → 0 ∉ ys → ys.length + 1 ≤ fuel →
    ∃ s, q_sort_relink fuel h a = some s ∧ s.2 = ys.getLast?.getD a ∧ s.1.next = h.next ∧
      (∀ g a', g a' = s.2 → (∀ x ∈ ys, g x = s.1.prev x) → Chain g a' ys.reverse a) ∧
      (∀ x, x ∉ ys → s.1.prev x = h.prev x) ∧
      s.1.value = h.value ∧ s.1.freedElem = h.freedElem ∧ s.1.freedVal = h.freedVal
  | [], a, h, fuel, hn, _, _, hf => by
    obtain ⟨f, rfl⟩ : ∃ f, fuel = f + 1 := ⟨fuel - 1, by omega⟩
    simp only [NullList] at hn
    refine ⟨(h, a), by simp [q_sort_relink, hn], rfl, rfl, ?_, fun _ _ => rfl, rfl, rfl, rfl⟩
    intro g a' hg _
    exact hg
  | y :: ys, a, h, fuel, hn, hnd, hz, hf => by
    obtain ⟨f, rfl⟩ : ∃ f, fuel = f + 1 := ⟨fuel - 1, by omega⟩
    simp only [NullList] at hn
    have hy0 : y ≠ 0 := fun e => hz (by simp [e])
    have hnd2 := List.nodup_cons.1 hnd
    obtain ⟨s, hrun, hlast, hnext, hback, hfr, hv, hfe, hfv⟩ :=
      q_sort_relink_spec ys y (setPrev h y a) f hn.2 hnd2.2 (fun hm => hz (by simp [hm]))
        (by simp at hf; omega)
    have hyys : y ∉ ys := (List.nodup_cons.1 hnd2.2).1
    refine ⟨s, ?_, ?_, hnext, ?_, ?_, hv, hfe, hfv⟩
    · rw [q_sort_relink, hn.1, if_pos hy0]
      exact hrun
    · rw [hlast, getLast?_getD_cons]
    · intro g a' hg hgs
      rw [List.reverse_cons, Chain.append]
      refine ⟨hback g a' hg (fun x hx => hgs x (by simp [hx])), ?_⟩
      show g y = a
      rw [hgs y (by simp), hfr y hyys]
      simp [setPrev, store]
    · intro x hx
      have hx' : x ≠ y ∧ x ∉ ys := by simpa using hx
      rw [hfr x hx'.2]
      simp [setPrev, store, hx'.1]

/-- What `q_sort` does to a well-formed queue: given fuel for the length of the queue it returns
a well-formed queue on the same nodes whose traversal is in ascending order; no string is
touched and nothing is freed. -/
theorem q_sort_spec {h : Heap} {head : Nat} {ns : List Nat} (hr : Ring h head ns)
    (fuel : Nat) (hf : ns.length + 1 ≤ fuel) :
    ∃ h' ns', q_sort fuel h head = some h' ∧ Ring h' head ns' ∧ ns'.Perm ns ∧
      ns'.Pairwise (fun x y => strcmp (h.value x) (h.value y) ≤ 0) ∧
      h'.value = h.value ∧ h'.freedElem = h.freedElem ∧ h'.freedVal = h.freedVal := by
  have he := hr.empty_iff
  have hs := hr.singular_iff
  rcases Nat.lt_or_ge ns.length 2 with hlen | hlen
  · have : list_empty h head = true ∨ list_is_singular h head = true := by
      rcases Nat.lt_or_ge ns.length 1 with h1 | h1
      · left; exact he.2 (List.length_eq_zero.1 (by omega))
      · right; exact hs.2 (by omega)
    refine ⟨h, ns, by simp [q_sort, this], hr, List.Perm.refl _, ?_, rfl, rfl, rfl⟩
    match ns, hlen with
    | [], _ => simp
    | [a], _ => simp
  · have hne : list_empty h head = false := by
      cases hh : list_empty h head with
      | false => rfl
      | true => rw [he.1 hh] at hlen; simp at hlen
    have hns : list_is_singular h head = false := by
      cases hh : list_is_singular h head with
      | false => rfl
      | true => have := hs.1 hh; omega
    have hnonempty : ns ≠ [] := by intro e; rw [e] at hlen; simp at hlen
    have h0 : ns[0]? = some (h.next head) := by
      rw [hr.next_head]
      cases ns with
      | nil => exact absurd rfl hnonempty
      | cons a l => simp
    have hl : ns[ns.length - 1]? = some (h.prev head) := by
      rw [hr.prev_head, List.getLast?_eq_getElem?]
      have : ns[ns.length - 1]? = some (ns[ns.length - 1]) :=
        List.getElem?_eq_getElem (by omega)
      rw [this]; rfl
    have hlastmem : h.prev head ∈ ns := List.getElem?_mem hl
    have hlast_ne : h.prev head ≠ head := fun e => hr.2.2.1 (e ▸ hlastmem)
    obtain ⟨hh0, hz, hhn, hnd, hcn, hcp⟩ := hr
    -- the ring is cut after its last node
    have hnext1 : (setNext h (h.prev head) 0).next head = h.next head := by
      simp [setNext, store, Ne.symm hlast_ne]
    have hpath : Path (setNext h (h.prev head) 0).next ns := by
      refine Path.agree_init ?_ (Chain.path ns head head hcn)
      intro i a ha hi
      have : a ≠ h.prev head := by
        rintro rfl
        have := nodup_get_inj hnd ha hl
        omega
      simp [setNext, store, this]
    obtain ⟨s, ys, hrun, hnl, hperm, hsort, hfr, hp, hv, hfe, hfv⟩ :=
      mergesort_spec ns.length ns (le_refl _) hnonempty (setNext h (h.prev head) 0)
        (h.next head) (h.prev head) fuel h0 hl hpath hnd hz hf
    have hhys : head ∉ ys := fun hm => hhn (hperm.mem_iff.1 hm)
    have hzys : 0 ∉ ys := fun hm => hz (hperm.mem_iff.1 hm)
    have hndys : ys.Nodup := hperm.nodup_iff.2 hnd
    -- the sentinel is linked to the sorted chain and the `prev` links are restored
    have hnl3 : NullList (setNext s.1 head s.2).next ((setNext s.1 head s.2).next head) ys := by
      have e : (setNext s.1 head s.2).next head = s.2 := by simp [setNext, store]
      rw [e]
      refine NullList.agree ys _ ?_ hnl
      intro x hx
      have : x ≠ head := fun e => hhys (e ▸ hx)
      simp [setNext, store, this]
    obtain ⟨s4, hrun4, hlast4, hnext4, hback4, hfr4, hv4, hfe4, hfv4⟩ :=
      q_sort_relink_spec ys head (setNext s.1 head s.2) fuel hnl3
        (List.nodup_cons.2 ⟨hhys, hndys⟩) hzys (by rw [hperm.length_eq]; exact hf)
    have hysne : ys ≠ [] := by
      intro e
      rw [e] at hperm
      exact hnonempty (List.Perm.eq_nil (hperm.symm))
    have hlastys : s4.2 ∈ ys := by
      rw [hlast4]
      cases ys with
      | nil => exact absurd rfl hysne
      | cons y l => exact getLast?_getD_mem_cons y l head
    have hlast_ne4 : s4.2 ≠ head := fun e => hhys (e ▸ hlastys)
    refine ⟨setPrev (setNext s4.1 s4.2 head) head s4.2, ys, ?_, ?_, hperm, hsort, ?_, ?_, ?_⟩
    · simp only [q_sort, hh0, hne, hns, if_false, false_or, Bool.false_eq_true, hnext1]
      have hprev1 : (setNext h (h.prev head) 0).prev head = h.prev head := rfl
      rw [hprev1, hrun]
      simp only
      rw [hrun4]
    · refine ⟨hh0, hzys, hhys, hndys, ?_, ?_⟩
      · refine NullList.toChain ys s.2 head head hnl ?_ ?_ ?_ ?_
        · exact hndys
        · show (setNext s4.1 s4.2 head).next head = s.2
          simp [setNext, store, Ne.symm hlast_ne4, hnext4]
        · intro x hx hxl
          rw [← hlast4] at hxl
          have hxh : x ≠ head := fun e => hhys (e ▸ hx)
          show (setNext s4.1 s4.2 head).next x = s.1.next x
          simp [setNext, store, hxl, hnext4, hxh]
        · rw [← hlast4]
          show (setNext s4.1 s4.2 head).next s4.2 = head
          simp [setNext, store]
      · refine hback4 _ head ?_ ?_
        · simp [setPrev, store]
        · intro x hx
          have hxh : x ≠ head := fun e => hhys (e ▸ hx)
          simp [setPrev, setNext, store, hxh]
    · exact hv4.trans hv
    · exact hfe4.trans hfe
    · exact hfv4.trans hfv

theorem Ring.prev_next {h : Heap} {head : Nat} {ns : List Nat} (hr : Ring h head ns) :
    ∀ x ∈ head :: ns, h.prev (h.next x) = x := by
  intro x hx
  rcases List.mem_cons.1 hx with rfl | hx
  · cases ns with
    | nil =>
      have h1 := hr.next_head
      have h2 := hr.prev_head
      simp only [List.head?_nil, Option.getD_none] at h1
      simp only [List.getLast?_nil, Option.getD_none] at h2
      rw [h1, h2]
    | cons a l =>
      have h1 := hr.next_head
      simp only [List.head?_cons, Option.getD_some] at h1
      have hr' : Ring h x ([] ++ a :: l) := hr
      rw [h1, hr'.prev_mid]
      rfl
  · obtain ⟨l1, l2, rfl⟩ := List.append_of_mem hx
    rw [hr.next_mid, hr.prev_of_next]

theorem Chain.last {f : Nat → Nat} : ∀ (ns : List Nat) (a b : Nat),
    Chain f a ns b → f (ns.getLast?.getD a) = b
  | [], _, _, hc => hc
  | n :: ns, a, b, hc => by
    rw [getLast?_getD_cons]
    exact Chain.last ns n b hc.2

theorem Ring.next_last {h : Heap} {head : Nat} {ns : List Nat} (hr : Ring h head ns) :
    h.next (ns.getLast?.getD head) = head :=
  Chain.last ns head head hr.2.2.2.2.1

/-- C1: on a well-formed queue of any length, `q_sort` returns (given fuel for the length of the
queue) a well-formed queue whose forward traversal from the sentinel is non-decreasing: every
adjacent pair `x`, `y` of the traversal satisfies `strcmp(x, y) <= 0`. -/
theorem q_sort_ascending (h : Heap) (head : Nat) (ns : List Nat) (fuel : Nat)
    (hr : Ring h head ns) (hf : ns.length + 1 ≤ fuel) :
    ∃ h' ns', q_sort fuel h head = some h' ∧ Ring h' head ns' ∧ Ascending h' ns' := by
  obtain ⟨h', ns', hrun, hr', -, hsort, hv, -, -⟩ := q_sort_spec hr fuel hf
  refine ⟨h', ns', hrun, hr', Ascending.of_chain' ns' ?_⟩
  rw [hv]
  exact List.Pairwise.chain' hsort

theorem q_sort_ascending_witness :
    Ring sampleHeap 1 [2, 3, 4] ∧
    ∃ h' ns', q_sort 4 sampleHeap 1 = some h' ∧ Ring h' 1 ns' ∧ Ascending h' ns' :=
  ⟨by decide, q_sort_ascending sampleHeap 1 [2, 3, 4] 4 (by decide) (by decide)⟩

/-- C2: on a well-formed queue, `q_sort` only rearranges: the nodes of the traversal afterwards
are a permutation of the nodes before (none lost, none duplicated), every node keeps its
string, so the strings are a permutation too, and `q_size` is unchanged. -/
theorem q_sort_permutes (h : Heap) (head : Nat) (ns : List Nat) (fuel : Nat)
    (hr : Ring h head ns) (hf : ns.length + 1 ≤ fuel) :
    ∃ h' ns', q_sort fuel h head = some h' ∧ Ring h' head ns' ∧ ns'.Perm ns ∧ ns'.Nodup ∧
      h'.value = h.value ∧ (strings h' ns').Perm (strings h ns) ∧
      q_size fuel h' head = some ns.length ∧ q_size fuel h head = some ns.length := by
  obtain ⟨h', ns', hrun, hr', hperm, -, hv, -, -⟩ := q_sort_spec hr fuel hf
  refine ⟨h', ns', hrun, hr', hperm, hr'.2.2.2.1, hv, ?_, ?_, q_size_spec hr fuel hf⟩
  · simp only [strings, hv]
    exact hperm.map _
  · rw [q_size_spec hr' fuel (by rw [hperm.length_eq]; exact hf), hperm.length_eq]

theorem q_sort_permutes_witness :
    Ring sampleHeap 1 [2, 3, 4] ∧
    ∃ h' ns', q_sort 4 sampleHeap 1 = some h' ∧ Ring h' 1 ns' ∧ ns'.Perm [2, 3, 4] ∧
      ns'.Nodup ∧ h'.value = sampleHeap.value ∧
      (strings h' ns').Perm (strings sampleHeap [2, 3, 4]) ∧
      q_size 4 h' 1 = some [2, 3, 4].length ∧ q_size 4 sampleHeap 1 = some [2, 3, 4].length :=
  ⟨by decide, q_sort_permutes sampleHeap 1 [2, 3, 4] 4 (by decide) (by decide)⟩

/-- C3: on a well-formed queue, `q_sort` returns a well-formed ring again: with `ns'` the
forward traversal afterwards, `x.next.prev = x` for the sentinel and for every node, the `next`
of the last node is the sentinel, the `prev` of the sentinel is the last node, and following
`prev` from the sentinel visits `ns'` in reverse order and comes back to the sentinel. -/
theorem q_sort_ring (h : Heap) (head : Nat) (ns : List Nat) (fuel : Nat)
    (hr : Ring h head ns) (hf : ns.length + 1 ≤ fuel) :
    ∃ h' ns', q_sort fuel h head = some h' ∧ Ring h' head ns' ∧
      (∀ x ∈ head :: ns', h'.prev (h'.next x) = x) ∧
      h'.next (ns'.getLast?.getD head) = head ∧ h'.prev head = ns'.getLast?.getD head ∧
      Chain h'.next head ns' head ∧ Chain h'.prev head ns'.reverse head := by
  obtain ⟨h', ns', hrun, hr', -, -, -, -, -⟩ := q_sort_spec hr fuel hf
  exact ⟨h', ns', hrun, hr', hr'.prev_next, hr'.next_last, hr'.prev_head, hr'.2.2.2.2.1,
    hr'.2.2.2.2.2⟩

theorem q_sort_ring_witness :
    Ring sampleHeap 1 [2, 3, 4] ∧
    ∃ h' ns', q_sort 4 sampleHeap 1 = some h' ∧ Ring h' 1 ns' ∧
      (∀ x ∈ 1 :: ns', h'.prev (h'.next x) = x) ∧
      h'.next (ns'.getLast?.getD 1) = 1 ∧ h'.prev 1 = ns'.getLast?.getD 1 ∧
      Chain h'.next 1 ns' 1 ∧ Chain h'.prev 1 ns'.reverse 1 :=
  ⟨by decide, q_sort_ring sampleHeap 1 [2, 3, 4] 4 (by decide) (by decide)⟩
/-! ## Insertion and removal at the two ends -/

theorem cstr_append_nul : ∀ s : List Nat, cstr (cstr s ++ [0]) = cstr s
  | [] => by simp [cstr]
  | a :: s => by
    by_cases ha : a = 0
    · simp [cstr, ha]
    · have ih := cstr_append_nul s
      simp only [cstr] at ih ⊢
      simp [List.takeWhile_cons, ha, ih]

/-- The buffer an insertion fills: the bytes of the string, then the terminator. -/
theorem copied_buffer (b s : List Nat) (hb : b.length = strlen s + 1) :
    (strncpy b s (strlen s)).set (strlen s) 0 = cstr s ++ [0] := by
  unfold strncpy strlen at *
  have h1 : (cstr s ++ List.replicate (cstr s).length 0).take (cstr s).length = cstr s := by
    rw [List.take_append_of_le_length (le_refl _), List.take_length]
  rw [h1]
  have h2 : (b.drop (cstr s).length).length = 1 := by simp [hb]
  obtain ⟨c, hc⟩ := List.length_eq_one.1 h2
  rw [hc]
  simp [List.set_append]

theorem Chain.replace_start {f g : Nat → Nat} : ∀ (ns : List Nat) (a a' b : Nat),
    Chain f a ns b → g a' = f a → (∀ x ∈ ns, g x = f x) → Chain g a' ns b
  | [], a, a', b, hc, hg, _ => hg.trans hc
  | n :: ns, a, a', b, hc, hg, hgs =>
    ⟨hg.trans hc.1, Chain.replace_start ns n n b hc.2 (hgs n (by simp))
      (fun x hx => hgs x (by simp [hx]))⟩

theorem Chain.set_last {f g : Nat → Nat} : ∀ (ns : List Nat) (a b b' : Nat),
    Chain f a ns b → (a :: ns).Nodup →
    (∀ x, x = a ∨ x ∈ ns → x ≠ ns.getLast?.getD a → g x = f x) →
    g (ns.getLast?.getD a) = b' → Chain g a ns b'
  | [], a, b, b', _, _, _, hgl => hgl
  | n :: ns, a, b, b', hc, hnd, hg, hgl => by
    rw [getLast?_getD_cons] at hgl hg
    have hnd2 := List.nodup_cons.1 hnd
    refine ⟨?_, Chain.set_last ns n b b' hc.2 hnd2.2 ?_ hgl⟩
    · rw [hg a (Or.inl rfl) ?_]
      · exact hc.1
      · intro e
        apply hnd2.1
        rcases getLast?_getD_mem ns n with h1 | h1
        · rw [e, h1]; simp
        · rw [e]; simp [h1]
    · intro x hx hxl
      refine hg x (Or.inr ?_) hxl
      rcases hx with hx | hx
      · simp [hx]
      · simp [hx]

theorem list_add_next (h : Heap) (e head x : Nat) :
    (list_add h e head).next x =
      if x = head then e else if x = e then h.next head else h.next x := by
  simp [list_add, setNext, setPrev, store]

theorem list_add_prev (h : Heap) (e head x : Nat) :
    (list_add h e head).prev x =
      if x = e then head else if x = h.next head then e else h.prev x := by
  simp [list_add, setNext, setPrev, store]

/-- The function `list_add` puts a fresh node at the front of a well-formed queue. -/
theorem Ring.list_add {h : Heap} {head : Nat} {ns : List Nat} (hr : Ring h head ns) {e : Nat}
    (he0 : e ≠ 0) (heh : e ≠ head) (hen : e ∉ ns) :
    Ring (Queue.list_add h e head) head (e :: ns) := by
  have hn0 := hr.next_head
  obtain ⟨h0, hz, hh, hnd, hn, hp⟩ := hr
  have hx : ∀ x ∈ ns, x ≠ head ∧ x ≠ e :=
    fun x hx => ⟨fun e' => hh (e' ▸ hx), fun e' => hen (e' ▸ hx)⟩
  refine ⟨h0, ?_, ?_, List.nodup_cons.2 ⟨hen, hnd⟩, ?_, ?_⟩
  · simp only [List.mem_cons, not_or]; exact ⟨Ne.symm he0, hz⟩
  · simp only [List.mem_cons, not_or]; exact ⟨Ne.symm heh, hh⟩
  · refine ⟨by rw [list_add_next]; simp, ?_⟩
    refine Chain.replace_start ns head e head hn ?_ ?_
    · rw [list_add_next]; simp [heh]
    · intro x hx'
      rw [list_add_next]; simp [(hx x hx').1, (hx x hx').2]
  · rw [List.reverse_cons, Chain.append]
    refine ⟨?_, ?_⟩
    · have hlast : ns.reverse.getLast?.getD head = h.next head := by
        rw [hn0]; simp
      refine Chain.set_last ns.reverse head head e hp ?_ ?_ ?_
      · exact List.nodup_cons.2 ⟨fun hm => hh (List.mem_reverse.1 hm), List.nodup_reverse.2 hnd⟩
      · intro x hx' hxl
        rw [hlast] at hxl
        have hxe : x ≠ e := by
          rcases hx' with rfl | hx'
          · exact Ne.symm heh
          · exact (hx x (List.mem_reverse.1 hx')).2
        rw [list_add_prev]; simp [hxe, hxl]
      · rw [hlast, list_add_prev]
        have : h.next head ≠ e := by
          rw [hn0]
          cases ns with
          | nil => simpa using Ne.symm heh
          | cons a l => simpa using (hx a (by simp)).2
        simp [this]
    · show (Queue.list_add h e head).prev e = head
      rw [list_add_prev]; simp

theorem Ring.mirror {h : Heap} {head : Nat} {ns : List Nat} (hr : Ring h head ns) :
    Ring (Queue.mirror h) head ns.reverse := by
  obtain ⟨h0, hz, hh, hnd, hn, hp⟩ := hr
  exact ⟨h0, fun hm => hz (List.mem_reverse.1 hm), fun hm => hh (List.mem_reverse.1 hm),
    List.nodup_reverse.2 hnd, hp, by rw [List.reverse_reverse]; exact hn⟩

theorem list_add_tail_eq_mirror (h : Heap) (e head : Nat) :
    list_add_tail h e head = mirror (list_add (mirror h) e head) := by
  apply Heap.eq_of_fields
  · intro x; simp [list_add_tail, list_add, mirror, setNext, setPrev, store]
  · intro x; simp [list_add_tail, list_add, mirror, setNext, setPrev, store]
  all_goals rfl

/-- The function `list_add_tail` puts a fresh node at the end of a well-formed queue. -/
theorem Ring.list_add_tail {h : Heap} {head : Nat} {ns : List Nat} (hr : Ring h head ns)
    {e : Nat} (he0 : e ≠ 0) (heh : e ≠ head) (hen : e ∉ ns) :
    Ring (Queue.list_add_tail h e head) head (ns ++ [e]) := by
  rw [list_add_tail_eq_mirror]
  have := (hr.mirror.list_add he0 heh (fun hm => hen (List.mem_reverse.1 hm))).mirror
  simpa using this

theorem Ring.of_links {h k : Heap} {head : Nat} {ns : List Nat} (hn : k.next = h.next)
    (hp : k.prev = h.prev) (hr : Ring h head ns) : Ring k head ns := by
  unfold Ring at *
  rw [hn, hp]; exact hr

/-- A successful `q_insert_head` on a well-formed queue: the fresh element is the new first
node, it holds the bytes of the string followed by the terminator, and no other string
changes. -/
theorem q_insert_head_spec {h : Heap} {head : Nat} {ns : List Nat} (hr : Ring h head ns)
    (s : List Nat) {e : Nat} (b : List Nat) (he0 : e ≠ 0) (heh : e ≠ head) (hen : e ∉ ns)
    (hb : b.length = strlen s + 1) :
    (q_insert_head h head s e (some b)).2 = true ∧
    Ring (q_insert_head h head s e (some b)).1 head (e :: ns) ∧
    (q_insert_head h head s e (some b)).1.value e = cstr s ++ [0] ∧
    ∀ x, x ≠ e → (q_insert_head h head s e (some b)).1.value x = h.value x := by
  unfold q_insert_head
  rw [if_neg hr.1, if_neg he0]
  refine ⟨rfl, Ring.of_links rfl rfl (hr.list_add he0 heh hen), ?_, ?_⟩
  · show (if e = e then ((if e = e then strncpy b s (strlen s) else h.value e)).set
        (strlen s) 0 else _) = _
    rw [if_pos rfl, if_pos rfl]
    exact copied_buffer b s hb
  · intro x hx
    show (if x = e then _ else (if x = e then _ else h.value x)) = _
    rw [if_neg hx, if_neg hx]

/-- A successful `q_insert_tail` on a well-formed queue: the fresh element is the new last
node, it holds the bytes of the string followed by the terminator, and no other string
changes. -/
theorem q_insert_tail_spec {h : Heap} {head : Nat} {ns : List Nat} (hr : Ring h head ns)
    (s : List Nat) {e : Nat} (b : List Nat) (he0 : e ≠ 0) (heh : e ≠ head) (hen : e ∉ ns)
    (hb : b.length = strlen s + 1) :
    (q_insert_tail h head s e (some b)).2 = true ∧
    Ring (q_insert_tail h head s e (some b)).1 head (ns ++ [e]) ∧
    (q_insert_tail h head s e (some b)).1.value e = cstr s ++ [0] ∧
    ∀ x, x ≠ e → (q_insert_tail h head s e (some b)).1.value x = h.value x := by
  unfold q_insert_tail
  rw [if_neg hr.1, if_neg he0]
  refine ⟨rfl, Ring.of_links rfl rfl (hr.list_add_tail he0 heh hen), ?_, ?_⟩
  · show (if e = e then ((if e = e then strncpy b s (strlen s) else h.value e)).set
        (strlen s) 0 else _) = _
    rw [if_pos rfl, if_pos rfl]
    exact copied_buffer b s hb
  · intro x hx
    show (if x = e then _ else (if x = e then _ else h.value x)) = _
    rw [if_neg hx, if_neg hx]

/-- The function `q_remove_head` on a non-empty well-formed queue and a buffer: the first node
is unlinked and returned, and the buffer is filled from its string. -/
theorem q_remove_head_spec {h : Heap} {head x : Nat} {ns : List Nat}
    (hr : Ring h head (x :: ns)) (sp : List Nat) (bufsize : Nat) :
    q_remove_head h head (some sp) bufsize =
      (list_del h x, some (copyOut sp (h.value x) bufsize), x) ∧
    Ring (list_del h x) head ns := by
  have hne : list_empty h head = false := by
    cases hh : list_empty h head with
    | false => rfl
    | true => exact absurd (hr.empty_iff.1 hh) (by simp)
  have hn : h.next head = x := by rw [hr.next_head]; rfl
  have hr' : Ring h head ([] ++ x :: ns) := hr
  refine ⟨?_, hr'.list_del⟩
  simp [q_remove_head, hr.1, hne, hn]

/-- The function `q_remove_tail` on a non-empty well-formed queue and a buffer: the last node
is unlinked and returned, and the buffer is filled from its string. -/
theorem q_remove_tail_spec {h : Heap} {head x : Nat} {ns : List Nat}
    (hr : Ring h head (ns ++ [x])) (sp : List Nat) (bufsize : Nat) :
    q_remove_tail h head (some sp) bufsize =
      (list_del h x, some (copyOut sp (h.value x) bufsize), x) ∧
    Ring (list_del h x) head ns := by
  have hne : list_empty h head = false := by
    cases hh : list_empty h head with
    | false => rfl
    | true => exact absurd (hr.empty_iff.1 hh) (by simp)
  have hp : h.prev head = x := by rw [hr.prev_head]; simp
  refine ⟨?_, by simpa using hr.list_del⟩
  simp [q_remove_tail, hr.1, hne, hp]

theorem q_remove_empty {h : Heap} {head : Nat} (hr : Ring h head []) (sp : List Nat)
    (bufsize : Nat) :
    q_remove_head h head (some sp) bufsize = (h, some sp, 0) ∧
    q_remove_tail h head (some sp) bufsize = (h, some sp, 0) := by
  have he : list_empty h head = true := hr.empty_iff.2 rfl
  simp [q_remove_head, q_remove_tail, he]

theorem strings_congr {h k : Heap} {ns : List Nat} (hv : ∀ x ∈ ns, k.value x = h.value x) :
    strings k ns = strings h ns := by
  unfold strings
  apply List.map_congr_left
  intro x hx
  rw [hv x hx]

/-- One call on a well-formed queue does what the same call does on the double-ended list of
its strings. -/
theorem stepQueue_refines {h : Heap} {head : Nat} {ns : List Nat} (hr : Ring h head ns)
    (op : Op) (ha : Allocated head ns [op]) :
    Ring (stepQueue h head op).1 head (nodesAfter ns op) ∧
    strings (stepQueue h head op).1 (nodesAfter ns op) = (dequeStep (strings h ns) op).1 ∧
    (stepQueue h head op).2 = (dequeStep (strings h ns) op).2 := by
  cases op with
  | insertHead s e buf =>
    obtain ⟨⟨he0, heh, hen, hb⟩, -⟩ := ha
    obtain ⟨hok, hring, hval, hfr⟩ := q_insert_head_spec hr s buf he0 heh hen hb
    refine ⟨hring, ?_, ?_⟩
    · simp only [stepQueue, nodesAfter, dequeStep]
      have h1 : strings (q_insert_head h head s e (some buf)).1 ns = strings h ns :=
        strings_congr (fun x hx => hfr x (fun e' => hen (e' ▸ hx)))
      show cstr _ :: strings (q_insert_head h head s e (some buf)).1 ns = _
      rw [h1, hval, cstr_append_nul]
    · simp only [stepQueue, dequeStep, hok]
  | insertTail s e buf =>
    obtain ⟨⟨he0, heh, hen, hb⟩, -⟩ := ha
    obtain ⟨hok, hring, hval, hfr⟩ := q_insert_tail_spec hr s buf he0 heh hen hb
    refine ⟨hring, ?_, ?_⟩
    · simp only [stepQueue, nodesAfter, dequeStep]
      have h1 : strings (q_insert_tail h head s e (some buf)).1 ns = strings h ns :=
        strings_congr (fun x hx => hfr x (fun e' => hen (e' ▸ hx)))
      have h2 : strings (q_insert_tail h head s e (some buf)).1 (ns ++ [e]) =
          strings (q_insert_tail h head s e (some buf)).1 ns ++
            [cstr ((q_insert_tail h head s e (some buf)).1.value e)] := by
        simp [strings]
      rw [h2, h1, hval, cstr_append_nul]
    · simp only [stepQueue, dequeStep, hok]
  | removeHead sp bufsize =>
    cases ns with
    | nil =>
      have := (q_remove_empty hr sp bufsize).1
      simp only [stepQueue, nodesAfter, dequeStep, this]
      exact ⟨hr, rfl, rfl⟩
    | cons x rest =>
      obtain ⟨heq, hring⟩ := q_remove_head_spec hr sp bufsize
      have hx0 : x ≠ 0 := fun e => hr.2.1 (by simp [e])
      simp only [stepQueue, nodesAfter, dequeStep, heq, List.tail_cons, if_neg hx0]
      exact ⟨hring, rfl, rfl⟩
  | removeTail sp bufsize =>
    rcases List.eq_nil_or_concat ns with rfl | ⟨rest, x, hcat⟩
    · have := (q_remove_empty hr sp bufsize).2
      simp only [stepQueue, nodesAfter, dequeStep, this]
      exact ⟨hr, rfl, rfl⟩
    · rw [List.concat_eq_append] at hcat
      subst hcat
      obtain ⟨heq, hring⟩ := q_remove_tail_spec hr sp bufsize
      have hx0 : x ≠ 0 := fun e => hr.2.1 (by simp [e])
      simp only [stepQueue, nodesAfter, dequeStep, heq, if_neg hx0, List.dropLast_concat]
      refine ⟨hring, ?_, ?_⟩
      · simp [strings, list_del_value]
      · simp [strings, list_del_value]

/-- A sequence of calls on a well-formed queue does what the same sequence does on the
double-ended list of its strings. -/
theorem runQueue_refines (head : Nat) : ∀ (ops : List Op) (h : Heap) (ns : List Nat),
    Ring h head ns → Allocated head ns ops →
    ∃ ns', Ring (runQueue h head ops).1 head ns' ∧
      strings (runQueue h head ops).1 ns' = (dequeRun (strings h ns) ops).1 ∧
      (runQueue h head ops).2 = (dequeRun (strings h ns) ops).2
  | [], h, ns, hr, _ => ⟨ns, hr, rfl, rfl⟩
  | op :: ops, h, ns, hr, ha => by
    obtain ⟨hring, hstr, hev⟩ := stepQueue_refines hr op ⟨ha.1, trivial⟩
    obtain ⟨ns', hr', hs', he'⟩ := runQueue_refines head ops _ _ hring ha.2
    refine ⟨ns', hr', ?_, ?_⟩
    · simp only [runQueue, dequeRun]
      rw [hs', hstr]
    · simp only [runQueue, dequeRun]
      rw [he', hstr, hev]

/-- On the double-ended list, the length after a sequence of calls plus the number of removals
that returned a string is the length before plus the number of insertions. -/
theorem dequeRun_length : ∀ (ops : List Op) (xs : List (List Nat)),
    (dequeRun xs ops).1.length + countRemoved (dequeRun xs ops).2 =
      xs.length + countInserted (dequeRun xs ops).2
  | [], xs => by simp [dequeRun, countRemoved, countInserted]
  | op :: ops, xs => by
    have ih := dequeRun_length ops (dequeStep xs op).1
    cases op with
    | insertHead s e buf =>
      simp only [dequeRun, dequeStep, countRemoved, countInserted] at ih ⊢
      simp only [List.length_cons] at ih
      omega
    | insertTail s e buf =>
      simp only [dequeRun, dequeStep, countRemoved, countInserted] at ih ⊢
      simp only [List.length_append, List.length_singleton] at ih
      omega
    | removeHead sp n =>
      cases xs with
      | nil =>
        simp only [dequeRun, dequeStep, countRemoved, countInserted, List.head?_nil,
          List.tail_nil] at ih ⊢
        exact ih
      | cons x rest =>
        simp only [dequeRun, dequeStep, countRemoved, countInserted, List.head?_cons,
          List.tail_cons, List.length_cons] at ih ⊢
        omega
    | removeTail sp n =>
      rcases List.eq_nil_or_concat xs with rfl | ⟨rest, x, hcat⟩
      · simp only [dequeRun, dequeStep, countRemoved, countInserted, List.getLast?_nil,
          List.dropLast_nil] at ih ⊢
        exact ih
      · rw [List.concat_eq_append] at hcat
        subst hcat
        have hl : (rest ++ [x]).getLast? = some x := by simp
        simp only [dequeRun, dequeStep, countRemoved, countInserted, List.dropLast_concat,
          hl, List.length_append, List.length_singleton] at ih ⊢
        omega

/-- C9: the queue refines a double-ended list.  Started on a well-formed queue whose strings
are `xs` (an empty queue made by `q_new` included), any sequence of `q_insert_head`,
`q_insert_tail`, `q_remove_head` and `q_remove_tail` calls whose allocations succeed with fresh
memory leaves a well-formed queue whose strings are those of the list model run on `xs`, where
an insertion at the head of `s` gives `s :: xs`, an insertion at the tail gives `xs ++ [s]`, a
removal at the head returns the first string and leaves the tail, and a removal at the tail
returns the last string and leaves the rest; every call reports what the model reports, and
`q_size` afterwards is the length of the model list, which with the number of removals that
returned an element makes the length before plus the number of insertions. -/
theorem queue_refines_deque (h : Heap) (head : Nat) (ns : List Nat) (ops : List Op)
    (hr : Ring h head ns) (ha : Allocated head ns ops) :
    ∃ ns', Ring (runQueue h head ops).1 head ns' ∧
      strings (runQueue h head ops).1 ns' = (dequeRun (strings h ns) ops).1 ∧
      (runQueue h head ops).2 = (dequeRun (strings h ns) ops).2 ∧
      q_size (ns'.length + 1) (runQueue h head ops).1 head =
        some (dequeRun (strings h ns) ops).1.length ∧
      (dequeRun (strings h ns) ops).1.length + countRemoved (runQueue h head ops).2 =
        ns.length + countInserted (runQueue h head ops).2 := by
  obtain ⟨ns', hr', hs, he⟩ := runQueue_refines head ops h ns hr ha
  refine ⟨ns', hr', hs, he, ?_, ?_⟩
  · rw [q_size_spec hr' _ (le_refl _), ← hs]
    simp [strings]
  · rw [he]
    have := dequeRun_length ops (strings h ns)
    simpa [strings] using this

theorem queue_refines_deque_witness :
    Ring (q_new emptyHeap 1).1 1 [] ∧ Allocated 1 [] sampleOps ∧
    ∃ ns', Ring (runQueue (q_new emptyHeap 1).1 1 sampleOps).1 1 ns' ∧
      strings (runQueue (q_new emptyHeap 1).1 1 sampleOps).1 ns' =
        (dequeRun (strings (q_new emptyHeap 1).1 []) sampleOps).1 ∧
      (runQueue (q_new emptyHeap 1).1 1 sampleOps).2 =
        (dequeRun (strings (q_new emptyHeap 1).1 []) sampleOps).2 ∧
      q_size (ns'.length + 1) (runQueue (q_new emptyHeap 1).1 1 sampleOps).1 1 =
        some (dequeRun (strings (q_new emptyHeap 1).1 []) sampleOps).1.length ∧
      (dequeRun (strings (q_new emptyHeap 1).1 []) sampleOps).1.length +
          countRemoved (runQueue (q_new emptyHeap 1).1 1 sampleOps).2 =
        ([] : List Nat).length + countInserted (runQueue (q_new emptyHeap 1).1 1 sampleOps).2 :=
  ⟨by decide, by decide,
    queue_refines_deque (q_new emptyHeap 1).1 1 [] sampleOps (by decide) (by decide)⟩

/-! ## The buffer filled by a removal -/

/-- For a buffer size between `1` and `SIZE_MAX` and a copy length that fits an `int`, the
buffer receives the first `min(len, bufsize - 1)` bytes of the string, then a NUL, and its bytes
after that are left alone. -/
theorem copyOut_spec (sp v : List Nat) (bufsize : Nat) (h1 : 1 ≤ bufsize)
    (h2 : bufsize < 2 ^ 64) (h3 : min (strlen v) (bufsize - 1) < 2 ^ 31)
    (h4 : bufsize ≤ sp.length) :
    copyOut sp v bufsize =
      (cstr v).take (min (strlen v) (bufsize - 1)) ++ 0 ::
        sp.drop (min (strlen v) (bufsize - 1) + 1) := by
  have hb : (bufsize + 2 ^ 64 - 1) % 2 ^ 64 = bufsize - 1 := by omega
  have hm : cmin (strlen v) (bufsize - 1) = min (strlen v) (bufsize - 1) := by
    unfold cmin
    split <;> omega
  generalize hmdef : min (strlen v) (bufsize - 1) = m at h3 hm ⊢
  have hmle : m ≤ (cstr v).length := by
    have : m ≤ strlen v := by omega
    exact this
  have hmlt : m < sp.length := by omega
  have hL : toInt32 m = (m : Int) := by
    unfold toInt32
    have : m % 2 ^ 32 = m := Nat.mod_eq_of_lt (by omega)
    rw [this, if_pos h3]
  have hS : toSizeT (m : Int) = m := by
    unfold toSizeT
    have : ((m : Int) % 2 ^ 64) = (m : Int) := Int.emod_eq_of_lt (by omega) (by omega)
    rw [this]; simp
  unfold copyOut
  simp only [hb, hm, hL, hS]
  rw [if_pos (by omega)]
  simp only [Int.toNat_ofNat]
  unfold strncpy
  have ht : (cstr v ++ List.replicate m 0).take m = (cstr v).take m :=
    List.take_append_of_le_length hmle
  rw [ht]
  have hlen : ((cstr v).take m).length = m := by simp [hmle]
  rw [List.set_append, if_neg (by omega), hlen, Nat.sub_self]
  rw [List.drop_eq_getElem_cons hmlt, List.set_cons_zero]

/-- A copy length that does not fit an `int` is lost in the conversion: for a string of
`2^32` bytes or more and a buffer size of `2^32 + 1`, the buffer receives the terminator at
index `0` and no byte of the string. -/
theorem copyOut_int_wrap (sp v : List Nat) (hv : 2 ^ 32 ≤ strlen v) :
    copyOut sp v (2 ^ 32 + 1) = sp.set 0 0 := by
  have hb : (2 ^ 32 + 1 + 2 ^ 64 - 1) % 2 ^ 64 = 2 ^ 32 := by norm_num
  have hm : cmin (strlen v) (2 ^ 32) = 2 ^ 32 := by
    unfold cmin
    rw [if_neg (by omega)]
  have hL : toInt32 (2 ^ 32) = 0 := by decide
  have hS : toSizeT 0 = 0 := by decide
  unfold copyOut
  simp only [hb, hm, hL, hS]
  simp [strncpy]

/-- C10: run on the well-formed queue `[2, 3, 4]` (strings `"c"`, `"a"`, `"b"`) with a buffer
holding `[9, 9, 9, 9]` and `bufsize = 0`, `q_remove_head` and `q_remove_tail` return the first
and the last element, whose strings are untouched, and unlink them, but they copy the whole
string and the terminator into the buffer (`[99, 0, 9, 9]` and `[98, 0, 9, 9]`), where the claim
allows `min(len, bufsize - 1)` bytes of the string and then the terminator, which for
`bufsize = 0` is no byte of the string. -/
theorem q_remove_bufsize_zero :
    Ring sampleHeap 1 [2, 3, 4] ∧
    (q_remove_head sampleHeap 1 (some [9, 9, 9, 9]) 0).2.2 = 2 ∧
    (q_remove_head sampleHeap 1 (some [9, 9, 9, 9]) 0).2.1 = some [99, 0, 9, 9] ∧
    (q_remove_head sampleHeap 1 (some [9, 9, 9, 9]) 0).1.value 2 = sampleHeap.value 2 ∧
    Ring (q_remove_head sampleHeap 1 (some [9, 9, 9, 9]) 0).1 1 [3, 4] ∧
    (q_remove_tail sampleHeap 1 (some [9, 9, 9, 9]) 0).2.2 = 4 ∧
    (q_remove_tail sampleHeap 1 (some [9, 9, 9, 9]) 0).2.1 = some [98, 0, 9, 9] ∧
    (q_remove_tail sampleHeap 1 (some [9, 9, 9, 9]) 0).1.value 4 = sampleHeap.value 4 ∧
    Ring (q_remove_tail sampleHeap 1 (some [9, 9, 9, 9]) 0).1 1 [2, 3] ∧
    (cstr (sampleHeap.value 2)).take (min (strlen (sampleHeap.value 2)) (0 - 1)) ++
      0 :: [9, 9, 9, 9].drop (min (strlen (sampleHeap.value 2)) (0 - 1) + 1) = [0, 9, 9, 9] := by
  decide
/-! ## Calls that fail or have nothing to do -/

/-- C11: on a queue that is `NULL` or well-formed, `q_remove_head` and `q_remove_tail` return
`NULL` if and only if the queue is `NULL`, the queue is empty, or the buffer is `NULL`; and in
each of these cases the heap and the buffer come back exactly as they were passed. -/
theorem q_remove_null_iff (h : Heap) (head : Nat) (ns : List Nat) (sp : Option (List Nat))
    (bufsize : Nat) (hq : head = 0 ∨ Ring h head ns) :
    ((q_remove_head h head sp bufsize).2.2 = 0 ↔ (head = 0 ∨ ns = [] ∨ sp = none)) ∧
    ((q_remove_tail h head sp bufsize).2.2 = 0 ↔ (head = 0 ∨ ns = [] ∨ sp = none)) ∧
    ((head = 0 ∨ ns = [] ∨ sp = none) →
      q_remove_head h head sp bufsize = (h, sp, 0) ∧
      q_remove_tail h head sp bufsize = (h, sp, 0)) := by
  cases sp with
  | none => simp [q_remove_head, q_remove_tail]
  | some buf =>
    rcases hq with h0 | hr
    · simp [q_remove_head, q_remove_tail, h0]
    · cases ns with
      | nil =>
        have := q_remove_empty hr buf bufsize
        simp [this.1, this.2]
      | cons x rest =>
        have hx0 : x ≠ 0 := fun e => hr.2.1 (by simp [e])
        have h1 := (q_remove_head_spec hr buf bufsize).1
        obtain ⟨l, y, hl⟩ : ∃ l y, x :: rest = l ++ [y] := by
          rcases List.eq_nil_or_concat (x :: rest) with e | ⟨l, y, e⟩
          · exact absurd e (by simp)
          · exact ⟨l, y, by rw [e, List.concat_eq_append]⟩
        have hy0 : y ≠ 0 := fun e => hr.2.1 (by rw [hl]; simp [e])
        have hr2 : Ring h head (l ++ [y]) := hl ▸ hr
        have h2 := (q_remove_tail_spec hr2 buf bufsize).1
        rw [h1, h2]
        simp [hx0, hy0, hr.1]

theorem q_remove_null_iff_witness :
    ((1 : Nat) = 0 ∨ Ring sampleHeap 1 [2, 3, 4]) ∧
    (((q_remove_head sampleHeap 1 (some [9, 9, 9, 9]) 4).2.2 = 0 ↔
      ((1 : Nat) = 0 ∨ [2, 3, 4] = [] ∨ some [9, 9, 9, 9] = none)) ∧
    ((q_remove_tail sampleHeap 1 (some [9, 9, 9, 9]) 4).2.2 = 0 ↔
      ((1 : Nat) = 0 ∨ [2, 3, 4] = [] ∨ some [9, 9, 9, 9] = none)) ∧
    (((1 : Nat) = 0 ∨ [2, 3, 4] = [] ∨ some [9, 9, 9, 9] = none) →
      q_remove_head sampleHeap 1 (some [9, 9, 9, 9]) 4 = (sampleHeap, some [9, 9, 9, 9], 0) ∧
      q_remove_tail sampleHeap 1 (some [9, 9, 9, 9]) 4 = (sampleHeap, some [9, 9, 9, 9], 0))) :=
  ⟨Or.inr (by decide),
    q_remove_null_iff sampleHeap 1 [2, 3, 4] (some [9, 9, 9, 9]) 4 (Or.inr (by decide))⟩

theorem q_size_loop_links {h k : Heap} (hn : k.next = h.next) (head : Nat) :
    ∀ (fuel li len : Nat), q_size_loop fuel k head li len = q_size_loop fuel h head li len
  | 0, _, _ => rfl
  | fuel + 1, li, len => by
    rw [q_size_loop, q_size_loop, hn, q_size_loop_links hn head fuel]

theorem q_size_links {h k : Heap} (hn : k.next = h.next) (fuel head : Nat) :
    q_size fuel k head = q_size fuel h head := by
  rw [q_size, q_size, hn, q_size_loop_links hn head fuel]

/-- C12: `q_insert_head` and `q_insert_tail` return `false` exactly when the queue is `NULL`,
the element allocation fails, or the string allocation fails, and `true` otherwise.  When the
queue is `NULL` or the element allocation fails the heap is returned as it was; when only the
string allocation fails every link and every string is as before, `q_size` is unchanged, and
the one change is that the element shell has been freed. -/
theorem q_insert_false_iff (h : Heap) (head : Nat) (s : List Nat) (e : Nat)
    (buf : Option (List Nat)) :
    ((q_insert_head h head s e buf).2 = false ↔ (head = 0 ∨ e = 0 ∨ buf = none)) ∧
    ((q_insert_tail h head s e buf).2 = false ↔ (head = 0 ∨ e = 0 ∨ buf = none)) ∧
    ((head = 0 ∨ e = 0) →
      q_insert_head h head s e buf = (h, false) ∧ q_insert_tail h head s e buf = (h, false)) ∧
    (head ≠ 0 → e ≠ 0 → buf = none →
      q_insert_head h head s e buf = ({ h with freedElem := e :: h.freedElem }, false) ∧
      q_insert_tail h head s e buf = ({ h with freedElem := e :: h.freedElem }, false) ∧
      ∀ fuel, q_size fuel (q_insert_head h head s e buf).1 head = q_size fuel h head ∧
        q_size fuel (q_insert_tail h head s e buf).1 head = q_size fuel h head) := by
  refine ⟨?_, ?_, ?_, ?_⟩
  · by_cases h0 : head = 0
    · simp [q_insert_head, h0]
    · by_cases he : e = 0
      · simp [q_insert_head, h0, he]
      · cases buf <;> simp [q_insert_head, h0, he]
  · by_cases h0 : head = 0
    · simp [q_insert_tail, h0]
    · by_cases he : e = 0
      · simp [q_insert_tail, h0, he]
      · cases buf <;> simp [q_insert_tail, h0, he]
  · intro hq
    by_cases h0 : head = 0
    · simp [q_insert_head, q_insert_tail, h0]
    · have he : e = 0 := hq.resolve_left h0
      simp [q_insert_head, q_insert_tail, h0, he]
  · intro h0 he hb
    subst hb
    have e1 : q_insert_head h head s e none =
        ({ h with freedElem := e :: h.freedElem }, false) := by
      simp [q_insert_head, h0, he]
    have e2 : q_insert_tail h head s e none =
        ({ h with freedElem := e :: h.freedElem }, false) := by
      simp [q_insert_tail, h0, he]
    refine ⟨e1, e2, fun fuel => ?_⟩
    rw [e1, e2]
    have hl : q_size fuel { h with freedElem := e :: h.freedElem } head = q_size fuel h head :=
      @q_size_links h { h with freedElem := e :: h.freedElem } rfl fuel head
    exact ⟨hl, hl⟩

theorem q_insert_false_iff_witness :
    ((q_insert_head sampleHeap 1 [97, 0] 5 none).2 = false ↔
      ((1 : Nat) = 0 ∨ (5 : Nat) = 0 ∨ (none : Option (List Nat)) = none)) ∧
    ((q_insert_tail sampleHeap 1 [97, 0] 5 none).2 = false ↔
      ((1 : Nat) = 0 ∨ (5 : Nat) = 0 ∨ (none : Option (List Nat)) = none)) ∧
    (((1 : Nat) = 0 ∨ (5 : Nat) = 0) →
      q_insert_head sampleHeap 1 [97, 0] 5 none = (sampleHeap, false) ∧
      q_insert_tail sampleHeap 1 [97, 0] 5 none = (sampleHeap, false)) ∧
    ((1 : Nat) ≠ 0 → (5 : Nat) ≠ 0 → (none : Option (List Nat)) = none →
      q_insert_head sampleHeap 1 [97, 0] 5 none =
        ({ sampleHeap with freedElem := 5 :: sampleHeap.freedElem }, false) ∧
      q_insert_tail sampleHeap 1 [97, 0] 5 none =
        ({ sampleHeap with freedElem := 5 :: sampleHeap.freedElem }, false) ∧
      ∀ fuel, q_size fuel (q_insert_head sampleHeap 1 [97, 0] 5 none).1 1 =
          q_size fuel sampleHeap 1 ∧
        q_size fuel (q_insert_tail sampleHeap 1 [97, 0] 5 none).1 1 =
          q_size fuel sampleHeap 1) :=
  q_insert_false_iff sampleHeap 1 [97, 0] 5 none

/-- C13: on the empty queue made by `q_new`, whose sentinel is linked to itself, `q_delete_mid`
does not return `false`: it returns `true` and hands the sentinel to `q_release_element`.  On a
`NULL` queue it returns `false` and leaves the heap as it was. -/
theorem q_delete_mid_empty :
    Ring (q_new emptyHeap 1).1 1 [] ∧
    (q_new emptyHeap 1).1.next 1 = 1 ∧ (q_new emptyHeap 1).1.prev 1 = 1 ∧
    (∃ h', q_delete_mid 1 (q_new emptyHeap 1).1 1 = some (h', true) ∧
      h'.freedElem = [1] ∧ h'.freedVal = [1]) ∧
    q_delete_mid 1 (q_new emptyHeap 1).1 0 = some ((q_new emptyHeap 1).1, false) :=
  ⟨by decide, by decide, by decide,
    ⟨q_release_element (list_del (q_new emptyHeap 1).1 1) 1, rfl, rfl, rfl⟩, rfl⟩

/-- C14: when the queue is `NULL`, empty, or has exactly one element, `q_swap`, `q_reverse` and
`q_sort` return at once with the heap they were given: every `next` and `prev` link, the
sentinel's included, is as before. -/
theorem small_queue_noop (h : Heap) (head : Nat) (ns : List Nat) (fuel : Nat)
    (hq : head = 0 ∨ (Ring h head ns ∧ ns.length ≤ 1)) :
    q_swap fuel h head = some h ∧ q_reverse fuel h head = some h ∧
      q_sort fuel h head = some h := by
  rcases hq with h0 | ⟨hr, hlen⟩
  · simp [q_swap, q_reverse, q_sort, h0]
  · have : list_empty h head = true ∨ list_is_singular h head = true := by
      rcases Nat.lt_or_ge ns.length 1 with h1 | h1
      · left; exact hr.empty_iff.2 (List.length_eq_zero.1 (by omega))
      · right; exact hr.singular_iff.2 (by omega)
    simp [q_swap, q_reverse, q_sort, this]

theorem small_queue_noop_witness :
    ((1 : Nat) = 0 ∨ (Ring sampleHeap1 1 [2] ∧ [2].length ≤ 1)) ∧
    (q_swap 0 sampleHeap1 1 = some sampleHeap1 ∧ q_reverse 0 sampleHeap1 1 = some sampleHeap1 ∧
      q_sort 0 sampleHeap1 1 = some sampleHeap1) :=
  ⟨Or.inr ⟨by decide, by decide⟩,
    small_queue_noop sampleHeap1 1 [2] 0 (Or.inr ⟨by decide, by decide⟩)⟩

theorem strcmp_lt_of_lt_of_le {a b c : List Nat} (h1 : strcmp a b < 0) (h2 : strcmp b c ≤ 0) :
    strcmp a c < 0 := by
  by_contra hn
  have hca : strcmp c a ≤ 0 := strcmp_le_of_not_lt hn
  have hba : strcmp b a ≤ 0 := strcmp_le_trans _ _ _ h2 hca
  rw [strcmp_swap] at hba
  omega

/-- The function `merge` on two disjoint `NULL`-terminated chains returns the chain
`mergeL ls rs` and writes nothing but `next` fields of the two chains. -/
theorem merge_spec {h : Heap} {l r : Nat} {ls rs : List Nat} (hl : NullList h.next l ls)
    (hr : NullList h.next r rs) (hnd : (ls ++ rs).Nodup) (hz : 0 ∉ ls ++ rs) (fuel : Nat)
    (hf : ls.length + rs.length + 1 ≤ fuel) :
    ∃ s, merge fuel h l r = some s ∧ NullList s.1.next s.2 (mergeL (ltString h) ls rs) ∧
      (∀ x, x ∉ ls ++ rs → s.1.next x = h.next x) ∧ s.1.prev = h.prev ∧
      s.1.value = h.value := by
  obtain ⟨s, hrun, hres, hfr, -, hp, hv, -, -⟩ :=
    merge_loop_spec (ls.length + rs.length) ls rs (le_refl _) h 0 Indirect.headVar l r fuel
      hl hr hnd hz (fun x _ => by simp) hf
  exact ⟨s, hrun, hres, fun x hx => hfr x hx (by simp), hp, hv⟩

/-- When the heads of the two chains hold equal strings, `mergeL` takes the head of the right
chain. -/
theorem mergeL_tie (h : Heap) (a b : Nat) (ls rs : List Nat)
    (hab : strcmp (h.value a) (h.value b) = 0) :
    mergeL (ltString h) (a :: ls) (b :: rs) = b :: mergeL (ltString h) (a :: ls) rs := by
  rw [mergeL, if_neg]
  rw [ltString_iff]
  omega

/-- In `mergeL ls rs` with `rs` ascending, a node of `rs` comes before every node of `ls` that
holds the same string. -/
theorem mergeL_equal_order (h : Heap) : ∀ (n : Nat) (ls rs : List Nat),
    ls.length + rs.length ≤ n →
    rs.Pairwise (fun x y => strcmp (h.value x) (h.value y) ≤ 0) →
    ∀ x ∈ ls, ∀ y ∈ rs, strcmp (h.value x) (h.value y) = 0 →
    ∃ p q, mergeL (ltString h) ls rs = p ++ y :: q ∧ x ∈ q := by
  intro n
  induction n with
  | zero =>
    intro ls rs hn _ x hx
    have h1 : ls = [] := List.length_eq_zero.1 (by omega)
    rw [h1] at hx
    simp at hx
  | succ n ih =>
    intro ls rs hn hs x hx y hy hxy
    match ls, rs, hn, hs, hx, hy with
    | [], _, _, _, hx, _ => simp at hx
    | _ :: _, [], _, _, _, hy => simp at hy
    | a :: ls, b :: rs, hn, hs, hx, hy =>
      have hs2 := List.pairwise_cons.1 hs
      rw [mergeL]
      by_cases hlt : ltString h a b = true
      · rw [if_pos hlt]
        have hab := (ltString_iff h a b).1 hlt
        have hby : strcmp (h.value b) (h.value y) ≤ 0 := by
          rcases List.mem_cons.1 hy with rfl | hy'
          · exact le_of_eq (strcmp_self _)
          · exact hs2.1 y hy'
        have hay := strcmp_lt_of_lt_of_le hab hby
        have hxa : x ≠ a := by
          rintro rfl
          omega
        have hx' : x ∈ ls := by
          rcases List.mem_cons.1 hx with e | e
          · exact absurd e hxa
          · exact e
        obtain ⟨p, q, hpq, hq⟩ := ih ls (b :: rs) (by simp at hn ⊢; omega) hs x hx' y hy hxy
        exact ⟨a :: p, q, by rw [hpq]; rfl, hq⟩
      · rw [if_neg hlt]
        rcases List.mem_cons.1 hy with rfl | hy'
        · refine ⟨[], mergeL (ltString h) (a :: ls) rs, rfl, ?_⟩
          exact (mergeL_perm (ltString h) _ (a :: ls) rs (le_refl _)).mem_iff.2
            (List.mem_append_left _ hx)
        · obtain ⟨p, q, hpq, hq⟩ :=
            ih (a :: ls) rs (by simp at hn ⊢; omega) hs2.2 x hx y hy' hxy
          exact ⟨b :: p, q, by rw [hpq]; rfl, hq⟩

/-- C16 (as amended): `merge` on two disjoint `NULL`-terminated chains `ls` and `rs`, the right
one ascending, returns the chain `mergeL ls rs`, in which ties go to the right chain: when the
heads of the two chains hold equal strings the node of the right chain is placed first, so
a node of `rs` comes before every node of `ls` that holds the same string. -/
theorem merge_ties_right (h : Heap) (l r : Nat) (ls rs : List Nat) (fuel : Nat)
    (hl : NullList h.next l ls) (hr : NullList h.next r rs) (hnd : (ls ++ rs).Nodup)
    (hz : 0 ∉ ls ++ rs) (hsr : Ascending h rs) (hf : ls.length + rs.length + 1 ≤ fuel) :
    ∃ s, merge fuel h l r = some s ∧ NullList s.1.next s.2 (mergeL (ltString h) ls rs) ∧
      (∀ a ls' b rs', ls = a :: ls' → rs = b :: rs' →
        strcmp (h.value a) (h.value b) = 0 →
        mergeL (ltString h) ls rs = b :: mergeL (ltString h) (a :: ls') rs') ∧
      (∀ x ∈ ls, ∀ y ∈ rs, strcmp (h.value x) (h.value y) = 0 →
        ∃ p q, mergeL (ltString h) ls rs = p ++ y :: q ∧ x ∈ q) := by
  obtain ⟨s, hrun, hres, -, -, -⟩ := merge_spec hl hr hnd hz fuel hf
  refine ⟨s, hrun, hres, ?_, mergeL_equal_order h _ ls rs (le_refl _) hsr.pairwise⟩
  intro a ls' b rs' e1 e2 hab
  rw [e1, e2]
  exact mergeL_tie h a b ls' rs' hab

theorem merge_ties_right_witness :
    NullList sampleChains.next 2 [2] ∧ NullList sampleChains.next 3 [3] ∧
    ([2] ++ [3]).Nodup ∧ 0 ∉ [2] ++ [3] ∧ Ascending sampleChains [3] ∧
    [2].length + [3].length + 1 ≤ 3 ∧
    ∃ s, merge 3 sampleChains 2 3 = some s ∧
      NullList s.1.next s.2 (mergeL (ltString sampleChains) [2] [3]) ∧
      (∀ a ls' b rs', [2] = a :: ls' → [3] = b :: rs' →
        strcmp (sampleChains.value a) (sampleChains.value b) = 0 →
        mergeL (ltString sampleChains) [2] [3] =
          b :: mergeL (ltString sampleChains) (a :: ls') rs') ∧
      (∀ x ∈ [2], ∀ y ∈ [3], strcmp (sampleChains.value x) (sampleChains.value y) = 0 →
        ∃ p q, mergeL (ltString sampleChains) [2] [3] = p ++ y :: q ∧ x ∈ q) :=
  ⟨by decide, by decide, by decide, by decide, by decide, by decide,
    merge_ties_right sampleChains 2 3 [2] [3] 3 (by decide) (by decide) (by decide) (by decide)
      (by decide) (by decide)⟩

/-- C16: on the two one-node chains `2` (left) and `3` (right), which hold equal strings,
`merge` returns the chain `3, 2`: the node of the right chain is placed before the node of the
left chain. -/
theorem merge_tie_takes_right :
    strcmp (sampleChains.value 2) (sampleChains.value 3) = 0 ∧
    NullList sampleChains.next 2 [2] ∧ NullList sampleChains.next 3 [3] ∧
    ∃ s, merge 3 sampleChains 2 3 = some s ∧ s.2 = 3 ∧ NullList s.1.next s.2 [3, 2] ∧
      ¬ NullList s.1.next s.2 [2, 3] :=
  ⟨by decide, by decide, by decide,
    (writeInd (writeInd sampleChains 0 Indirect.headVar 3).1 3 (Indirect.nextOf 3) 2),
    rfl, rfl, by decide, by decide⟩
/-! ## The split and the termination of `mergesort` -/

/-- C17: on a chain `xs` of `n` distinct nodes that runs from `l` to `r` (the `next` of `r`
may be `NULL` or anything else), `mergesort` returns a result once the fuel covers the length
of the chain, for every `n ≥ 1`; and for `n ≥ 3` the two-speed loop stops on the node at index
`⌊n/2⌋ - 1`, which cuts the chain into the left part `xs.take ⌊n/2⌋` of `⌊n/2⌋` nodes and the
right part `xs.drop ⌊n/2⌋` of `⌈n/2⌉` nodes, both non-empty and shorter than `n`, and sorting
the left part leaves the `next` of every node of the right part as it was. -/
theorem mergesort_split_halves (h : Heap) (xs : List Nat) (l r fuel : Nat)
    (hne : xs ≠ []) (hl : xs[0]? = some l) (hr : xs[xs.length - 1]? = some r)
    (hp : Path h.next xs) (hnd : xs.Nodup) (hz : 0 ∉ xs) (hf : xs.length + 1 ≤ fuel) :
    (∃ s, mergesort fuel h l r = some s) ∧
    (3 ≤ xs.length →
      ∃ z, mergesort_split fuel h r l l = some z ∧ xs[xs.length / 2 - 1]? = some z ∧
        xs[xs.length / 2]? = some (h.next z) ∧
        (xs.take (xs.length / 2)).length = xs.length / 2 ∧
        (xs.drop (xs.length / 2)).length = (xs.length + 1) / 2 ∧
        0 < xs.length / 2 ∧ xs.length / 2 < xs.length ∧
        0 < (xs.length + 1) / 2 ∧ (xs.length + 1) / 2 < xs.length ∧
        ∃ s1, mergesort (fuel - 1) h l z = some s1 ∧
          ∀ x ∈ xs.drop (xs.length / 2), s1.1.next x = h.next x) := by
  refine ⟨?_, ?_⟩
  · obtain ⟨s, -, hrun, -⟩ :=
      mergesort_spec xs.length xs (le_refl _) hne h l r fuel hl hr hp hnd hz hf
    exact ⟨s, hrun⟩
  · intro h3
    obtain ⟨z, hz1, hz2⟩ := mergesort_split_spec hp hnd hz hr (xs.length - 2) 0 l l fuel
      (by omega) hl (by simpa using hl) (by omega)
    have hk : (xs.length - 2) / 2 = xs.length / 2 - 1 := by omega
    rw [hk] at hz2
    obtain ⟨m, hm⟩ : ∃ m, xs.length / 2 = m + 1 := ⟨xs.length / 2 - 1, by omega⟩
    have hk1 : xs[m + 1]? = some (xs[m + 1]) := List.getElem?_eq_getElem (by omega)
    have hz2' : xs[m]? = some z := by
      have : xs.length / 2 - 1 = m := by omega
      rw [← this]; exact hz2
    have hnz := hp.get hz2' hk1
    have hsplit : xs.take (xs.length / 2) ++ xs.drop (xs.length / 2) = xs :=
      List.take_append_drop _ _
    have hndsplit := hnd
    rw [← hsplit] at hndsplit
    have hdisj := List.nodup_append.1 hndsplit
    have hlenL : (xs.take (xs.length / 2)).length = xs.length / 2 := by simp; omega
    have hlenR : (xs.drop (xs.length / 2)).length = (xs.length + 1) / 2 := by simp; omega
    obtain ⟨s1, -, hrun1, -, -, -, hfr1, -⟩ :=
      mergesort_spec (xs.take (xs.length / 2)).length (xs.take (xs.length / 2)) (le_refl _)
        (by intro e; rw [e] at hlenL; simp at hlenL; omega) h l z (fuel - 1)
        (by rw [List.getElem?_take, if_pos (by omega)]; exact hl)
        (by rw [hlenL, List.getElem?_take, if_pos (by omega)]; exact hz2)
        (hp.take _) hdisj.1 (fun hm => hz (List.mem_of_mem_take hm)) (by omega)
    refine ⟨z, hz1, hz2, ?_, hlenL, hlenR, by omega, by omega, by omega, by omega, s1, hrun1, ?_⟩
    · rw [hnz, ← hk1]
      exact congrArg (fun i => xs[i]?) hm
    · intro x hx
      exact hfr1 x (fun hm => hdisj.2.2 hm hx)

theorem mergesort_split_halves_witness :
    [2, 3, 4] ≠ [] ∧ [2, 3, 4][0]? = some 2 ∧ [2, 3, 4][[2, 3, 4].length - 1]? = some 4 ∧
    Path sampleChain3.next [2, 3, 4] ∧ [2, 3, 4].Nodup ∧ 0 ∉ [2, 3, 4] ∧
    [2, 3, 4].length + 1 ≤ 4 ∧
    ((∃ s, mergesort 4 sampleChain3 2 4 = some s) ∧
    (3 ≤ [2, 3, 4].length →
      ∃ z, mergesort_split 4 sampleChain3 4 2 2 = some z ∧
        [2, 3, 4][[2, 3, 4].length / 2 - 1]? = some z ∧
        [2, 3, 4][[2, 3, 4].length / 2]? = some (sampleChain3.next z) ∧
        ([2, 3, 4].take ([2, 3, 4].length / 2)).length = [2, 3, 4].length / 2 ∧
        ([2, 3, 4].drop ([2, 3, 4].length / 2)).length = ([2, 3, 4].length + 1) / 2 ∧
        0 < [2, 3, 4].length / 2 ∧ [2, 3, 4].length / 2 < [2, 3, 4].length ∧
        0 < ([2, 3, 4].length + 1) / 2 ∧ ([2, 3, 4].length + 1) / 2 < [2, 3, 4].length ∧
        ∃ s1, mergesort (4 - 1) sampleChain3 2 z = some s1 ∧
          ∀ x ∈ [2, 3, 4].drop ([2, 3, 4].length / 2), s1.1.next x = sampleChain3.next x)) :=
  ⟨by decide, by decide, by decide, by decide, by decide, by decide, by decide,
    mergesort_split_halves sampleChain3 [2, 3, 4] 2 4 4 (by decide) (by decide) (by decide)
      (by decide) (by decide) (by decide) (by decide)⟩
/-! ## The walk of `q_delete_mid` and the runs of `q_delete_dup` -/

/-- C18: on a non-empty well-formed queue of size `n`, the walk of `q_delete_mid` (probe from
the first node forward, tracker from the last node backward) stops with the probe on the node
at index `⌊(n-1)/2⌋`; `q_delete_mid` returns `true`, unlinks and releases that node and no
other, `q_size` becomes `n - 1`, and for `n = 6` the node is the one at index `2`. -/
theorem q_delete_mid_probe (h : Heap) (head : Nat) (ns : List Nat) (fuel : Nat)
    (hr : Ring h head ns) (hne : ns ≠ []) (hf : ns.length ≤ fuel) :
    ∃ x h', q_delete_mid_loop fuel h (h.next head) (h.prev head) = some x ∧
      ns[(ns.length - 1) / 2]? = some x ∧
      q_delete_mid fuel h head = some (h', true) ∧
      Ring h' head (ns.eraseIdx ((ns.length - 1) / 2)) ∧
      h'.freedElem = x :: h.freedElem ∧
      q_size fuel h' head = some (ns.length - 1) ∧
      (ns.length = 6 → ns[2]? = some x) := by
  obtain ⟨h', x, hrun, hx, hring, -, hfe, -⟩ := q_delete_mid_spec hr hne fuel hf
  have hpos : 0 < ns.length := List.length_pos.2 hne
  have hlenx : (ns.length - 1) / 2 < ns.length := by omega
  refine ⟨x, h', ?_, hx, hrun, hring, hfe, ?_, ?_⟩
  · unfold q_delete_mid at hrun
    rw [if_neg hr.1] at hrun
    cases hloop : q_delete_mid_loop fuel h (h.next head) (h.prev head) with
    | none => rw [hloop] at hrun; simp at hrun
    | some t =>
      rw [hloop] at hrun
      simp only [Option.some.injEq, Prod.mk.injEq, and_true] at hrun
      rw [← hrun] at hfe
      have : t :: h.freedElem = x :: h.freedElem := hfe
      rw [(List.cons.inj this).1]
  · have hlen : (ns.eraseIdx ((ns.length - 1) / 2)).length = ns.length - 1 := by
      rw [List.length_eraseIdx, if_pos hlenx]
    rw [q_size_spec hring fuel (by rw [hlen]; omega), hlen]
  · intro h6
    rw [h6] at hx
    exact hx

theorem q_delete_mid_probe_witness :
    Ring sampleHeap6 1 [2, 3, 4, 5, 6, 7] ∧ [2, 3, 4, 5, 6, 7] ≠ [] ∧
    [2, 3, 4, 5, 6, 7].length ≤ 6 ∧
    ∃ x h', q_delete_mid_loop 6 sampleHeap6 (sampleHeap6.next 1) (sampleHeap6.prev 1) = some x ∧
      [2, 3, 4, 5, 6, 7][([2, 3, 4, 5, 6, 7].length - 1) / 2]? = some x ∧
      q_delete_mid 6 sampleHeap6 1 = some (h', true) ∧
      Ring h' 1 ([2, 3, 4, 5, 6, 7].eraseIdx (([2, 3, 4, 5, 6, 7].length - 1) / 2)) ∧
      h'.freedElem = x :: sampleHeap6.freedElem ∧
      q_size 6 h' 1 = some ([2, 3, 4, 5, 6, 7].length - 1) ∧
      ([2, 3, 4, 5, 6, 7].length = 6 → [2, 3, 4, 5, 6, 7][2]? = some x) :=
  ⟨by decide, by decide, by decide,
    q_delete_mid_probe sampleHeap6 1 [2, 3, 4, 5, 6, 7] 6 (by decide) (by decide) (by decide)⟩

theorem sameString_symm (h : Heap) (x y : Nat) : sameString h x y = sameString h y x := by
  cases hx : sameString h x y with
  | true =>
    exact ((sameString_iff h y x).2 (((sameString_iff h x y).1 hx).symm)).symm
  | false =>
    cases hy : sameString h y x with
    | false => rfl
    | true =>
      have := (sameString_iff h x y).2 (((sameString_iff h y x).1 hy).symm)
      rw [hx] at this
      exact this

theorem sameString_left (h : Heap) {p q : Nat} (hpq : sameString h p q = true) (x : Nat) :
    sameString h p x = sameString h q x := by
  have e := (sameString_iff h p q).1 hpq
  simp only [sameString, strcmp, e]

theorem keepIsolated_prev (h : Heap) {p q : Nat} (hpq : sameString h p q = true) :
    ∀ l : List Nat, keepIsolated h (some p) l = keepIsolated h (some q) l
  | [] => rfl
  | x :: rest => by
    simp only [keepIsolated, sameString_left h hpq x]

/-- The scan of `q_delete_dup` from the start `x` of a run keeps what `keepIsolated` keeps. -/
theorem dropRunsFrom_isolated (h : Heap) : ∀ (rest : List Nat) (x : Nat) (flag : Bool),
    dropRunsFrom (sameString h) x flag rest =
      (if flag || (match rest.head? with
          | none => false
          | some y => sameString h y x) then [] else [x]) ++
        keepIsolated h (some x) rest
  | [], x, flag => by cases flag <;> simp [dropRunsFrom, keepIsolated]
  | y :: rest, x, flag => by
    rw [dropRunsFrom]
    have ih1 := dropRunsFrom_isolated h rest x true
    have ih2 := dropRunsFrom_isolated h rest y false
    by_cases hs : sameString h y x = true
    · have hs' : sameString h x y = true := by rw [sameString_symm]; exact hs
      rw [if_pos hs, ih1]
      simp only [List.head?_cons, hs, Bool.or_true, Bool.true_or, if_true, List.nil_append,
        keepIsolated, hs', Bool.not_true, Bool.false_and, Bool.false_eq_true, if_false]
      exact (keepIsolated_prev h hs rest).symm
    · have hsf : sameString h y x = false := by
        cases hh : sameString h y x with
        | false => rfl
        | true => exact absurd hh hs
      have hs' : sameString h x y = false := by rw [sameString_symm]; exact hsf
      rw [if_neg hs, ih2]
      simp only [List.head?_cons, hsf, Bool.or_false, Bool.false_or, keepIsolated, hs',
        Bool.not_false, Bool.true_and]
      cases rest with
      | nil => simp
      | cons z rest' =>
        cases hz : sameString h z y <;> simp [hz]

theorem dropRuns_isolated (h : Heap) : ∀ l : List Nat,
    dropRuns (sameString h) l = keepIsolated h none l
  | [] => rfl
  | x :: rest => by
    rw [dropRuns, dropRunsFrom_isolated]
    simp only [Bool.false_or, keepIsolated, Bool.true_and]
    cases rest with
    | nil => simp
    | cons z rest' =>
      cases hz : sameString h z x <;> simp [hz]

/-- C19: on a well-formed queue, sorted or not, `q_delete_dup` returns `true` and leaves a
well-formed queue whose traversal consists, in their original order, of exactly the elements
whose string differs from the string of both neighbours in the original traversal: the elements
of every run of two or more adjacent equal strings are removed, and on unsorted input equal
strings that are not adjacent all survive. -/
theorem q_delete_dup_runs (h : Heap) (head : Nat) (ns : List Nat) (fuel : Nat)
    (hr : Ring h head ns) (hf : ns.length + 1 ≤ fuel) :
    ∃ h', q_delete_dup fuel h head = some (h', true) ∧
      Ring h' head (keepIsolated h none ns) ∧ h'.value = h.value := by
  obtain ⟨h', hrun, hr', hv⟩ := q_delete_dup_spec hr fuel hf
  rw [dropRuns_isolated] at hr'
  exact ⟨h', hrun, hr', hv⟩

theorem q_delete_dup_runs_witness :
    Ring sampleHeapUnsorted 1 [2, 3, 4] ∧ [2, 3, 4].length + 1 ≤ 4 ∧
    keepIsolated sampleHeapUnsorted none [2, 3, 4] = [2, 3, 4] ∧
    strings sampleHeapUnsorted [2, 3, 4] = [[97], [98], [97]] ∧
    ∃ h', q_delete_dup 4 sampleHeapUnsorted 1 = some (h', true) ∧
      Ring h' 1 (keepIsolated sampleHeapUnsorted none [2, 3, 4]) ∧
      h'.value = sampleHeapUnsorted.value :=
  ⟨by decide, by decide, by decide, by decide,
    q_delete_dup_runs sampleHeapUnsorted 1 [2, 3, 4] 4 (by decide) (by decide)⟩
/-! ## How far a removal writes into the buffer -/

/-- For a buffer size between `1` and `SIZE_MAX` and a copy length that fits an `int`, the
bytes of the buffer from index `bufsize` on are left alone. -/
theorem copyOut_within (sp v : List Nat) (bufsize : Nat) (h1 : 1 ≤ bufsize)
    (h2 : bufsize < 2 ^ 64) (h3 : min (strlen v) (bufsize - 1) < 2 ^ 31)
    (h4 : bufsize ≤ sp.length) :
    (copyOut sp v bufsize).drop bufsize = sp.drop bufsize := by
  rw [copyOut_spec sp v bufsize h1 h2 h3 h4]
  generalize hm : min (strlen v) (bufsize - 1) = m
  have hmle : m ≤ (cstr v).length := by
    have : m ≤ strlen v := by omega
    exact this
  have hlen : ((cstr v).take m ++ [0]).length = m + 1 := by simp [hmle]
  have e : (cstr v).take m ++ 0 :: sp.drop (m + 1) =
      ((cstr v).take m ++ [0]) ++ sp.drop (m + 1) := by simp
  rw [e, List.drop_append_eq_append_drop, hlen, List.drop_eq_nil_of_le (by rw [hlen]; omega),
    List.nil_append, List.drop_drop]
  congr 1
  omega

/-- C20: run on the well-formed queue `[2, 3]` (strings `"a"`, `"b"`) with a buffer holding
`[9, 9, 9, 9]` and `bufsize = 0`, `q_remove_head` and `q_remove_tail` write two bytes, the
string and its terminator, at the start of the buffer, so the bytes from index `bufsize` on are
not the ones that were there: more than `bufsize` bytes are written. -/
theorem q_remove_writes_past_bufsize :
    Ring sampleHeap2 1 [2, 3] ∧
    (q_remove_head sampleHeap2 1 (some [9, 9, 9, 9]) 0).2.1 = some [97, 0, 9, 9] ∧
    (q_remove_tail sampleHeap2 1 (some [9, 9, 9, 9]) 0).2.1 = some [98, 0, 9, 9] ∧
    (copyOut [9, 9, 9, 9] (sampleHeap2.value 2) 0).drop 0 ≠ [9, 9, 9, 9].drop 0 ∧
    (copyOut [9, 9, 9, 9] (sampleHeap2.value 3) 0).drop 0 ≠ [9, 9, 9, 9].drop 0 := by
  decide
end Queue
